import Mathlib

/-!
Verification of penkata, a sliding-window passage scorer.

A shallow embedding of the Go packages `pkg/penkata` (`util.go`, `window.go`,
`passage.go`, `stats.go`, `windowparams.go`, `bigramweights.go`) and of
`insertSorted` and the aggregation loop from `cmd/passages/main.go`, followed
by theorems about them.

Modelling conventions.

* A Go `string` holding valid UTF-8 is a Lean `String`; `[]rune(s)` is `s.data`,
  `string(runes)` is `String.mk runes`, and `len([]rune(s))` is `s.length`.
* A Go `map[string]V` is an association list `List (String × V)` whose keys are
  pairwise distinct; a missing key reads as the zero value. A `nil` map is
  `none`, a map made with `make` is `some []`.
* Go `int` is `Int`, taken as 64 bits wide: the `total` of `LoadBigramWeights`
  wraps around (`wrapInt64`) and `strconv.Atoi` accepts the range of a 64-bit
  `int`; window counts and sizes are bounded by the amount of text held, and
  their overflow is outside the model.
* Go `float64` scores and weights are elements of a type `K`. `Score`, the file
  scan and `insertSorted` need an order, a zero and an addition only: with
  `K := F64` they compute as `float64` does (finite values, sums rounded to
  nearest, ties to even), with `K` a linearly ordered field they compute
  exactly, and `K := ℚ` gives executable definitions. Statistics and weight
  loading are in exact arithmetic.
* The order of a `range` loop over a map is an input where it can matter
  (`ScoreIn`, `ScanOrders`).
* A panic is `none`.
* A `nil` pointer `*WindowParams` is `none`.
* Windows are values, except in the part on memory, where slices and maps are
  addresses into an explicit `Heap`; the two readings are shown to agree.
-/

namespace Penkata

/-! ## Go maps as association lists -/

/-- Association-list model of a Go `map[string]V`. -/
abbrev GoMap (V : Type) := List (String × V)

namespace GoMap

variable {V : Type}

/-- The keys of the map, in storage order. -/
def keys (m : GoMap V) : List String := m.map Prod.fst

/-- Go `v, ok := m[k]`. -/
def find? (m : GoMap V) (k : String) : Option V := m.lookup k

/-- Go `m[k]` for integer values: a missing key reads as `0`. -/
def get (m : GoMap Int) (k : String) : Int := (m.find? k).getD 0

/-- Go `m[k] = v`: overwrite the entry of `k`, or add one. -/
def set : GoMap V → String → V → GoMap V
  | [], k, v => [(k, v)]
  | (k', v') :: rest, k, v =>
    if k' = k then (k, v) :: rest else (k', v') :: set rest k v

/-- Go `delete(m, k)`. -/
def delete (m : GoMap V) (k : String) : GoMap V := m.filter (fun e => e.1 != k)

end GoMap

/-! ## util.go -/

/-- Go `dropTerminalPunctuation`. -/
def dropTerminalPunctuation (w : List Char) : List Char :=
  if w.length = 0 then w
  else if ".,;:!?".data.contains (w.getD (w.length - 1) ' ') then w.take (w.length - 1)
  else w

/-- Go `isApostrophe`: membership in the set of five apostrophe variants. -/
def isApostrophe (r : Char) : Bool :=
  [Char.ofNat 0x27, Char.ofNat 0x2019, Char.ofNat 0x2018, Char.ofNat 0x02BC,
    Char.ofNat 0x2032].contains r

/-- Go `collapseCommonApostraphes`. -/
def collapseCommonApostraphes (w : List Char) : List Char :=
  if w.length < 2 then w
  else
    let s : List Char := ['m', 's', 'd', 't']
    if 2 ≤ w.length && isApostrophe (w.getD (w.length - 2) ' ') &&
        s.contains (w.getD (w.length - 1) ' ') then
      w.take (w.length - 2) ++ [w.getD (w.length - 1) ' ']
    else
      let t : List String := ["re", "ve", "ll"]
      if 4 ≤ w.length && isApostrophe (w.getD (w.length - 3) ' ') &&
          t.contains (String.mk (w.drop (w.length - 2))) then
        w.take (w.length - 3) ++ w.drop (w.length - 2)
      else w

/-- Go `normalizeWord`: apply the word maps in order. -/
def normalizeWord (w : String) : String :=
  let wordMaps : List (List Char → List Char) :=
    [dropTerminalPunctuation, collapseCommonApostraphes]
  String.mk (wordMaps.foldl (fun runes fn => fn runes) w.data)

/-- Go `extractBigramsFromWord`. -/
def extractBigramsFromWord (word : String) : List String :=
  let runes := (normalizeWord word).data
  if runes.length = 0 then []
  else
    [String.mk ['_', runes.getD 0 ' ']]
      ++ (List.range (runes.length - 1)).map (fun i => String.mk ((runes.drop i).take 2))
      ++ [String.mk [runes.getD (runes.length - 1) ' ', '_']]

/-! ## float64

Scores are `float64` values. The definitions below are generic in the type `K`
of scores: over a linearly ordered field they compute with exact sums, over
`F64` with sums rounded as IEEE 754 binary64 rounds them. -/

/-- Number of binary digits of `n`, found with at most `fuel` halvings. -/
def bitLength : Nat → Nat → Nat
  | 0, _ => 0
  | fuel + 1, n => if n = 0 then 0 else bitLength fuel (n / 2) + 1

/-- The positive rational `n / d` rounded to the nearest number with a 53-bit
significand, ties to the even significand: with `e` the exponent of `n / d`
(`2^e ≤ n / d < 2^(e+1)`) the quotient is scaled by `2^(52 - e)`, rounded to an
integer and scaled back. -/
def roundPos (n d : Nat) : ℚ :=
  let e0 : Int := (bitLength (n + 1) n : Int) - (bitLength (d + 1) d : Int)
  let e : Int := if d * 2 ^ e0.toNat ≤ n * 2 ^ (-e0).toNat then e0 else e0 - 1
  let s : Int := 52 - e
  let num : Nat := n * 2 ^ s.toNat
  let den : Nat := d * 2 ^ (-s).toNat
  let m : Nat := num / den
  let r : Nat := num % den
  let m1 : Nat := if 2 * r > den ∨ (2 * r = den ∧ m % 2 = 1) then m + 1 else m
  ((m1 * 2 ^ (-s).toNat : Nat) : ℚ) / ((2 ^ s.toNat : Nat) : ℚ)

/-- Rounding of a real result to `float64` (IEEE 754 binary64, round to nearest,
ties to even), for results in the normal range: no overflow to an infinity and
no subnormal result. -/
def roundF64 (x : ℚ) : ℚ :=
  if x = 0 then 0
  else if x < 0 then - roundPos (-x).num.toNat x.den
  else roundPos x.num.toNat x.den

/-- Go `float64`, finite values only: a value is the rational number it
denotes, and the two zeros are one. -/
def F64 : Type := ℚ

/-- The rational a `float64` value denotes. -/
def F64.val (a : F64) : ℚ := a

/-- Go `+` on `float64`: the exact sum, rounded. -/
def F64.add (a b : F64) : F64 :=
  let x : ℚ := a
  let y : ℚ := b
  roundF64 (x + y)

instance instZeroF64 : Zero F64 := ⟨(0 : ℚ)⟩

instance instAddF64 : Add F64 := ⟨F64.add⟩

instance instLinearOrderF64 : LinearOrder F64 := inferInstanceAs (LinearOrder ℚ)

/-! ## bigramweights.go, windowparams.go -/

/-- Go `WeightTransform`. -/
inductive WeightTransform where
  | Raw
  | Log1p
  | Normal
  deriving DecidableEq, Repr

/-- Go `BigramWeights`. -/
structure BigramWeights (K : Type) where
  Weights : GoMap K
  Transform : WeightTransform
  Total : Int

/-- Go `unicode.IsSpace`, the white space `strings.TrimSpace` removes. -/
def unicodeIsSpace (r : Char) : Bool :=
  if r.toNat ≤ 0xFF then
    ['\t', '\n', Char.ofNat 0x0B, Char.ofNat 0x0C, '\r', ' ', Char.ofNat 0x85,
      Char.ofNat 0xA0].contains r
  else
    r.toNat = 0x1680 || (0x2000 ≤ r.toNat && r.toNat ≤ 0x200A) || r.toNat = 0x2028 ||
      r.toNat = 0x2029 || r.toNat = 0x202F || r.toNat = 0x205F || r.toNat = 0x3000

/-- Go `strings.TrimSpace`. -/
def trimSpace (s : List Char) : List Char :=
  ((s.dropWhile unicodeIsSpace).reverse.dropWhile unicodeIsSpace).reverse

/-- Go `strings.Split(line, "\t")`: the fields between the tabs. -/
def splitTab : List Char → List (List Char)
  | [] => [[]]
  | c :: cs =>
    if c = '\t' then [] :: splitTab cs
    else
      match splitTab cs with
      | [] => [[c]]
      | field :: fields => (c :: field) :: fields

/-- Go `strconv.Atoi` with a 64-bit `int`: an optional sign, then one or more
decimal digits, the value within the range of `int`; `none` is an error. -/
def atoi (s : List Char) : Option Int :=
  let neg : Bool := s.head? = some '-'
  let digits : List Char := if s.head? = some '-' ∨ s.head? = some '+' then s.tail else s
  if digits.length = 0 then none
  else if digits.all (fun ch => decide ('0' ≤ ch ∧ ch ≤ '9')) then
    let n : Nat := digits.foldl (fun n ch => n * 10 + (ch.toNat - '0'.toNat)) 0
    let v : Int := if neg then -(n : Int) else (n : Int)
    if -(2 : Int) ^ 63 ≤ v ∧ v ≤ (2 : Int) ^ 63 - 1 then some v else none
  else none

/-- The value a 64-bit Go `int` holds for the mathematical integer `x`:
arithmetic on `int` wraps around in two's complement. -/
def wrapInt64 (x : Int) : Int := (x + 2 ^ 63) % 2 ^ 64 - 2 ^ 63

/-- Body of the read loop of `LoadBigramWeights`: `st.1` is `weights` and
`st.2` is `total`, a 64-bit `int`; `float64(count)` is taken without rounding. -/
def loadStep {K : Type} [LinearOrderedField K] (st : GoMap K × Int) (line : String) :
    GoMap K × Int :=
  let parts := splitTab line.data
  if parts.length ≠ 2 then st
  else
    let bigram := String.mk (parts.getD 0 [])
    match atoi (trimSpace (parts.getD 1 [])) with
    | none => st
    | some count => (st.1.set bigram (count : K), wrapInt64 (st.2 + count))

/-- Go `for bigram, count := range weights { weights[bigram] = f(count) }`. -/
def mapValuesInPlace {K : Type} (f : K → K) (weights : GoMap K) : GoMap K :=
  weights.foldl (fun m e => m.set e.1 (f e.2)) weights

/-- Go `LoadBigramWeights` on a file that opens: `lines` are the lines the
scanner yields and `log1p` stands for `math.Log1p`. A `float64` division by
zero gives an infinity or NaN, which `K` has no element for: `nonFinite count`
stands for the value of `count / 0`, and nothing is assumed of it. -/
def LoadBigramWeights {K : Type} [LinearOrderedField K] (log1p : K → K) (nonFinite : K → K)
    (lines : List String) (transform : WeightTransform) : BigramWeights K :=
  let st := lines.foldl loadStep (([] : GoMap K), (0 : Int))
  let weights := st.1
  let total := st.2
  let weights :=
    match transform with
    | .Log1p => mapValuesInPlace log1p weights
    | .Normal =>
      let totalFloat : K := (total : K)
      mapValuesInPlace
        (fun count => if totalFloat = 0 then nonFinite count else count / totalFloat) weights
    | .Raw => weights
  { Weights := weights, Transform := transform, Total := total }

/-- Go `WindowParams`; the `Weights` pointer is taken to be non-nil. -/
structure WindowParams (K : Type) where
  ID : String
  Weights : BigramWeights K
  MaxChars : Int

/-! ## window.go -/

/-- Go `Window`. -/
structure Window (K : Type) where
  words : List String
  bigrams : Option (GoMap Int)
  params : Option (WindowParams K)

/-- Go `NewWindow`. -/
def NewWindow {K : Type} (params : Option (WindowParams K)) : Window K :=
  { words := [], bigrams := some [], params := params }

namespace Window

variable {K : Type}

/-- The zero value `Window{}`. -/
def zero : Window K := { words := [], bigrams := none, params := none }

/-- Go `Window.Text`. -/
def Text (w : Window K) : String := " ".intercalate w.words

/-- Weight-table lookup `w.params.Weights.Weights[bigram]` of `Score`. When
`params` is nil the Go code dereferences a nil pointer; that state is not
reachable through `AddWord`, which leaves a window without params untouched,
and it is read here as "no weight". -/
def weightOf (w : Window K) (bigram : String) : Option K :=
  match w.params with
  | none => none
  | some p => p.Weights.Weights.find? bigram

/-- Go `Window.Score`: one pass over the entries of the bigram map, adding with
the `+` of `K`; for `K = F64` that is `float64` addition, for a field the exact
sum. The entries are taken in the order of the list; `ScoreIn` is the pass in
any other order. -/
def Score [Zero K] [Add K] (w : Window K) : K :=
  (w.bigrams.getD []).foldl
    (fun score e =>
      if e.2 > (0 : Int) then
        match w.weightOf e.1 with
        | some weight => score + weight
        | none => score
      else score)
    (0 : K)

/-- Go `Window.Score` when its `range` loop visits the entries of the bigram
map in the order `order` gives them. Go leaves that order to the runtime, and
it may differ from one loop to the next. -/
def ScoreIn [Zero K] [Add K] (order : GoMap Int → GoMap Int) (w : Window K) : K :=
  Score { w with bigrams := some (order (w.bigrams.getD [])) }

/-- Go `Window.pushWord`. -/
def pushWord (w : Window K) (word : String) : Window K :=
  let words := w.words ++ [word]
  let m : GoMap Int := match w.bigrams with
    | none => []
    | some m => m
  let bigrams := extractBigramsFromWord word
  if bigrams.length = 0 then { w with words := words, bigrams := some m }
  else
    { w with
      words := words
      bigrams := some (bigrams.foldl (fun m bg => m.set bg (m.get bg + 1)) m) }

/-- Loop body of `shiftWord`: decrement, and delete at zero. -/
def decrBigram (m : GoMap Int) (bg : String) : GoMap Int :=
  let m1 := m.set bg (m.get bg - 1)
  if m1.get bg = 0 then m1.delete bg else m1

/-- Go `Window.shiftWord`: the updated window and the returned string. -/
def shiftWord (w : Window K) : Window K × String :=
  match w.words with
  | [] => (w, "")
  | word :: rest =>
    match w.bigrams with
    | none => ({ w with words := rest, bigrams := some [] }, word)
    | some m =>
      let bigrams := extractBigramsFromWord word
      if bigrams.length = 0 then ({ w with words := rest }, word)
      else ({ w with words := rest, bigrams := some (bigrams.foldl decrBigram m) }, word)

/-- Go `Window.Clone`. -/
def Clone (w : Window K) : Window K :=
  { words := w.words
    bigrams := some ((w.bigrams.getD []).foldl (fun m e => m.set e.1 e.2) [])
    params := w.params }

/-- Go `Window.Size`. -/
def Size (w : Window K) : Int :=
  if w.words.length = 0 then 0
  else
    let totalSize := w.words.foldl (fun totalSize word => totalSize + (word.length : Int)) 0
    totalSize + ((w.words.length : Int) - 1)

/-- Go `Window.MaybeAddWord`: the returned window and flag; the receiver is
only read. -/
def MaybeAddWord (w : Window K) (word : String) (params : Option (WindowParams K)) :
    Window K × Bool :=
  match params with
  | none => (zero, false)
  | some p =>
    let newSize := w.Size
    let newSize := if w.words.length > 0 then newSize + 1 else newSize
    let newSize := newSize + (word.length : Int)
    if newSize > p.MaxChars then (zero, false)
    else (w.Clone.pushWord word, true)

/-- The eviction loop of `AddWord`, run for at most `fuel` iterations. -/
def evictLoop (maxChars : Int) : Nat → Window K → Window K
  | 0, w => w
  | fuel + 1, w =>
    if w.Size > maxChars then
      let r := w.shiftWord
      if r.2 = "" then r.1 else evictLoop maxChars fuel r.1
    else w

/-- Go `Window.AddWord`. Every iteration of the loop that does not stop removes
a word, so `len(words) + 1` iterations are enough. -/
def AddWord (w : Window K) (word : String) : Window K :=
  match w.params with
  | none => w
  | some p =>
    let w1 := w.pushWord word
    evictLoop p.MaxChars (w1.words.length + 1) w1

end Window

/-! ## passage.go -/

/-- Go `Passage`: a window together with the path of its source file. -/
structure Passage (K : Type) where
  Window : Window K
  FilePath : String

namespace Passage

variable {K : Type}

/-- The zero value `Passage{}`. -/
def zero : Passage K := { Window := Window.zero, FilePath := "" }

/-- Method `Score` promoted from the embedded `Window`. -/
def Score [Zero K] [Add K] (p : Passage K) : K := p.Window.Score

end Passage

/-- White space as `bufio.ScanWords` sees it. -/
def isSpace (r : Char) : Bool :=
  if r.toNat ≤ 0xFF then
    [' ', '\t', '\n', Char.ofNat 0x0B, Char.ofNat 0x0C, '\r', Char.ofNat 0x85,
      Char.ofNat 0xA0].contains r
  else if 0x2000 ≤ r.toNat && r.toNat ≤ 0x200A then true
  else
    [Char.ofNat 0x1680, Char.ofNat 0x2028, Char.ofNat 0x2029, Char.ofNat 0x202F,
      Char.ofNat 0x205F, Char.ofNat 0x3000].contains r

/-- Tokens of `bufio.ScanWords`: maximal runs of non-space characters; `cur`
holds the characters of the token being read, last one first. -/
def scanWordsAux : List Char → List Char → List String
  | [], cur => if cur.length = 0 then [] else [String.mk cur.reverse]
  | c :: cs, cur =>
    if isSpace c then
      if cur.length = 0 then scanWordsAux cs [] else String.mk cur.reverse :: scanWordsAux cs []
    else scanWordsAux cs (c :: cur)

/-- The word stream a `bufio.Scanner` with `ScanWords` yields for a file's
content. -/
def scanWords (content : String) : List String := scanWordsAux content.data []

/-- An order in which a `range` loop visits the entries of a bigram map. -/
abbrev RangeOrder : Type := GoMap Int → GoMap Int

/-- The orders the runtime uses during one file scan: for word `j` and
configuration `i`, the order of the `Score` call on `windows[i]` and the order
of the `Score` call on `bestWindows[i]`. -/
abbrev ScanOrders : Type := Nat → Nat → RangeOrder × RangeOrder

/-- Body of the inner loop of `FindBestPassagesInFile` for one configuration:
`wb.1` is `windows[i]` and `wb.2` is `bestWindows[i]`; `o.1` and `o.2` are the
orders in which the two `Score` calls visit their maps. The scores are compared
as values of `K`. -/
def scanStep {K : Type} [LinearOrder K] [Zero K] [Add K] (o : RangeOrder × RangeOrder)
    (word : String) (wb : Window K × Window K) : Window K × Window K :=
  let w := wb.1.AddWord word
  if w.ScoreIn o.1 > wb.2.ScoreIn o.2 then (w, w.Clone) else (w, wb.2)

/-- Go `FindBestPassagesInFile` on a file that opens and scans without error:
`words` is the word stream of the file and `orders` the map iteration orders
of the run. -/
def FindBestPassagesInFile {K : Type} [LinearOrder K] [Zero K] [Add K] (orders : ScanOrders)
    (filepath : String) (words : List String) (paramsList : List (Option (WindowParams K))) :
    List (Passage K) :=
  let init := paramsList.map (fun params => (NewWindow params, NewWindow params))
  let final := words.enum.foldl
    (fun wbs jw => wbs.enum.map (fun iwb => scanStep (orders jw.1 iwb.1) jw.2 iwb.2)) init
  final.map (fun wb => { Window := wb.2, FilePath := filepath })

/-! ## cmd/passages/main.go -/

/-- Go builtin `copy(dst, src)`, as the new contents of `dst`. -/
def goCopy {α : Type} (dst src : List α) : List α :=
  src.take dst.length ++ dst.drop src.length

/-- Go `insertSorted`. -/
def insertSorted {K : Type} [LinearOrder K] [Zero K] [Add K] (results : List (Passage K))
    (newPassage : Passage K) (maxResults : Int) : List (Passage K) :=
  let pos := results.findIdx (fun p => decide (newPassage.Score > p.Score))
  if (pos : Int) ≥ maxResults then results
  else if (results.length : Int) < maxResults ∧ pos = results.length then
    results ++ [newPassage]
  else
    let results1 :=
      if (results.length : Int) < maxResults then results ++ [Passage.zero] else results
    let results2 :=
      results1.take (pos + 1) ++ goCopy (results1.drop (pos + 1)) (results1.drop pos)
    let results3 := results2.set pos newPassage
    if (results3.length : Int) > maxResults then results3.take maxResults.toNat
    else results3

/-! ## stats.go -/

/-- Go `Stats`. -/
structure Stats (K : Type) where
  FilesProcessed : Int
  MaxScore : K
  MinScore : K
  Sum : K
  Mean : K
  M2 : K

/-- Go `math.MaxFloat64`, the largest finite `float64`: `2^1024 - 2^971`. -/
def MaxFloat64 {K : Type} [LinearOrderedField K] : K := 2 ^ 1024 - 2 ^ 971

/-- Go `NewStats`. -/
def NewStats {K : Type} [LinearOrderedField K] : Stats K :=
  { FilesProcessed := 0, MaxScore := -1, MinScore := MaxFloat64, Sum := 0, Mean := 0, M2 := 0 }

namespace Stats

variable {K : Type} [LinearOrderedField K]

/-- Go `Stats.Update`. -/
def Update (s : Stats K) (score : K) : Stats K :=
  let n := s.FilesProcessed + 1
  let maxScore := if score > s.MaxScore then score else s.MaxScore
  let minScore := if score < s.MinScore then score else s.MinScore
  let sum := s.Sum + score
  let delta := score - s.Mean
  let mean := s.Mean + delta / (n : K)
  let delta2 := score - mean
  { FilesProcessed := n, MaxScore := maxScore, MinScore := minScore, Sum := sum,
    Mean := mean, M2 := s.M2 + delta * delta2 }

/-- Go `Stats.StdDev`; `sqrt` stands for `math.Sqrt`. -/
def StdDev (sqrt : K → K) (s : Stats K) : K :=
  if s.FilesProcessed < 2 then 0
  else
    let variance := s.M2 / (s.FilesProcessed : K)
    sqrt variance

end Stats

/-! ## cmd/passages/main.go: result aggregation -/

/-- Body of the loop `for _, passage := range passages` of `main` for one
passage. Both maps are keyed by the `*WindowParams` pointers of `paramsList`;
these are pairwise distinct, each coming from its own `NewWindowParams` call,
and passage `i` of a scan result carries the pointer `paramsList[i]`. A key is
therefore given by its position in `paramsList`: `ip.1` is the key of the
passage `ip.2`, and `state[i]` holds `bestPassagesByParams[params]` and
`*statsByParams[params]` of configuration `i`. A key with no entry makes
`Update` dereference a nil pointer, and the read of
`bestPassagesByParams[params][0]` panics on an empty list: both outcomes are
`none`. What the loop prints is left out. -/
def aggregatePassage {K : Type} [LinearOrderedField K] (topN : Int)
    (state : List (List (Passage K) × Stats K)) (ip : Nat × Passage K) :
    Option (List (List (Passage K) × Stats K)) :=
  match state[ip.1]? with
  | none => none
  | some acc =>
    let best := insertSorted acc.1 ip.2 topN
    let stats := acc.2.Update ip.2.Score
    if best.length = 0 then none else some (state.set ip.1 (best, stats))

/-- The loop `for _, passage := range passages` of `main` on one scan result,
each passage with its position as key. -/
def aggregateFile {K : Type} [LinearOrderedField K] (topN : Int)
    (state : List (List (Passage K) × Stats K)) (passages : List (Passage K)) :
    Option (List (List (Passage K) × Stats K)) :=
  passages.enum.foldlM (aggregatePassage topN) state

/-- The aggregation of `main`: the set-up loop over `paramsList`, where
`make([]penkata.Passage, 0, config.TopN)` panics on a negative `TopN` and on
one above `maxCap`, the largest capacity the runtime grants (it depends on the
platform), then the loop `for passages := range resultsCh`; `results` are the
scan results in their order of arrival, and `none` is a panic. -/
def aggregate {K : Type} [LinearOrderedField K] (topN maxCap : Int)
    (paramsList : List (Option (WindowParams K))) (results : List (List (Passage K))) :
    Option (List (List (Passage K) × Stats K)) :=
  if 0 < paramsList.length ∧ (topN < 0 ∨ maxCap < topN) then none
  else results.foldlM (aggregateFile topN) (paramsList.map (fun _ => ([], NewStats)))

/-! ## window.go with explicit memory

The definitions above treat a window as a value. To speak about aliasing, the
same methods are given here over a memory of backing arrays and maps: a
`[]string` is a slice header into a backing array, a `map[string]int` is an
address, and every method returns the memory it leaves behind. -/

/-- A `[]string` slice header: backing array, offset of the first element and
length; the capacity is what remains of the array after the offset. -/
structure Slice where
  arr : Nat
  off : Nat
  len : Nat
  deriving DecidableEq, Repr

/-- The memory: backing arrays and maps, addressed by their index. -/
structure Heap where
  arrays : List (List String)
  maps : List (GoMap Int)

/-- A `Window` struct in memory: its fields are a slice header, a map address
(`none` for a nil map) and the params pointer. -/
structure WindowRef (K : Type) where
  words : Slice
  bigrams : Option Nat
  params : Option (WindowParams K)

namespace Heap

/-- The backing array at an address. -/
def array (h : Heap) (i : Nat) : List String := h.arrays.getD i []

/-- The map at an address. -/
def map (h : Heap) (i : Nat) : GoMap Int := h.maps.getD i []

/-- The elements a slice shows. -/
def sliceView (h : Heap) (s : Slice) : List String := ((h.array s.arr).drop s.off).take s.len

/-- Store a map at an address. -/
def setMap (h : Heap) (i : Nat) (m : GoMap Int) : Heap := { h with maps := h.maps.set i m }

/-- Go `make(map[string]int)`: a new empty map at a fresh address. -/
def allocMap (h : Heap) : Heap × Nat := ({ h with maps := h.maps ++ [[]] }, h.maps.length)

/-- Go `append(s, x)`: write in place when the capacity allows, otherwise move
the elements to a fresh array; `grow` gives the spare capacity of the new
array, which Go leaves to the runtime. -/
def append (grow : Nat → Nat) (h : Heap) (s : Slice) (x : String) : Heap × Slice :=
  if s.off + s.len < (h.array s.arr).length then
    ({ h with arrays := h.arrays.set s.arr ((h.array s.arr).set (s.off + s.len) x) },
      { s with len := s.len + 1 })
  else
    ({ h with arrays := h.arrays ++ [h.sliceView s ++ [x] ++ List.replicate (grow s.len) ""] },
      { arr := h.arrays.length, off := 0, len := s.len + 1 })

end Heap

namespace WindowRef

variable {K : Type}

/-- The window value a struct in memory stands for. -/
def view (h : Heap) (w : WindowRef K) : Window K :=
  { words := h.sliceView w.words, bigrams := w.bigrams.map h.map, params := w.params }

/-- Go `NewWindow`, in memory. -/
def new (h : Heap) (params : Option (WindowParams K)) : Heap × WindowRef K :=
  let h1 : Heap := { h with arrays := h.arrays ++ [[]] }
  let r := h1.allocMap
  (r.1, { words := { arr := h.arrays.length, off := 0, len := 0 }, bigrams := some r.2,
          params := params })

/-- Go `Window.pushWord`, in memory. -/
def pushWord (grow : Nat → Nat) (h : Heap) (w : WindowRef K) (word : String) :
    Heap × WindowRef K :=
  let r := h.append grow w.words word
  let rm : Heap × Nat := match w.bigrams with
    | none => r.1.allocMap
    | some i => (r.1, i)
  let bigrams := extractBigramsFromWord word
  if bigrams.length = 0 then (rm.1, { words := r.2, bigrams := some rm.2, params := w.params })
  else
    (rm.1.setMap rm.2 (bigrams.foldl (fun m bg => m.set bg (m.get bg + 1)) (rm.1.map rm.2)),
      { words := r.2, bigrams := some rm.2, params := w.params })

/-- Go `Window.shiftWord`, in memory: the memory, the struct and the returned
string. -/
def shiftWord (h : Heap) (w : WindowRef K) : Heap × WindowRef K × String :=
  if w.words.len = 0 then (h, w, "")
  else
    let word := (h.array w.words.arr).getD w.words.off ""
    let words : Slice := { arr := w.words.arr, off := w.words.off + 1, len := w.words.len - 1 }
    match w.bigrams with
    | none =>
      let r := h.allocMap
      (r.1, { words := words, bigrams := some r.2, params := w.params }, word)
    | some i =>
      let bigrams := extractBigramsFromWord word
      if bigrams.length = 0 then (h, { words := words, bigrams := some i, params := w.params }, word)
      else
        (h.setMap i (bigrams.foldl Window.decrBigram (h.map i)),
          { words := words, bigrams := some i, params := w.params }, word)

/-- Go `Window.Clone`, in memory: a fresh array filled by `copy`, a fresh map
filled entry by entry, the same params pointer. -/
def Clone (h : Heap) (w : WindowRef K) : Heap × WindowRef K :=
  let fresh : List String := List.replicate w.words.len ""
  let h1 : Heap := { h with arrays := h.arrays ++ [goCopy fresh (h.sliceView w.words)] }
  let r := h1.allocMap
  let src : GoMap Int := match w.bigrams with
    | none => []
    | some i => r.1.map i
  (r.1.setMap r.2 (src.foldl (fun m e => m.set e.1 e.2) (r.1.map r.2)),
    { words := { arr := h.arrays.length, off := 0, len := w.words.len }, bigrams := some r.2,
      params := w.params })

/-- The eviction loop of `AddWord`, in memory. -/
def evictLoop (maxChars : Int) : Nat → Heap → WindowRef K → Heap × WindowRef K
  | 0, h, w => (h, w)
  | fuel + 1, h, w =>
    if (w.view h).Size > maxChars then
      let r := w.shiftWord h
      if r.2.2 = "" then (r.1, r.2.1) else evictLoop maxChars fuel r.1 r.2.1
    else (h, w)

/-- Go `Window.AddWord`, in memory. -/
def AddWord (grow : Nat → Nat) (h : Heap) (w : WindowRef K) (word : String) :
    Heap × WindowRef K :=
  match w.params with
  | none => (h, w)
  | some p =>
    let r := w.pushWord grow h word
    evictLoop p.MaxChars (r.2.words.len + 1) r.1 r.2

/-- Go `Window.MaybeAddWord`, in memory: the memory it leaves and the result,
where `none` stands for the pair `(Window{}, false)`, a struct with no array
and no map, and `some c` for the pair `(c, true)`. -/
def MaybeAddWord (grow : Nat → Nat) (h : Heap) (w : WindowRef K) (word : String)
    (params : Option (WindowParams K)) : Heap × Option (WindowRef K) :=
  match params with
  | none => (h, none)
  | some p =>
    let newSize := (w.view h).Size
    let newSize := if w.words.len > 0 then newSize + 1 else newSize
    let newSize := newSize + (word.length : Int)
    if newSize > p.MaxChars then (h, none)
    else
      let c := w.Clone h
      let r := c.2.pushWord grow c.1 word
      (r.1, some r.2)

end WindowRef

/-- A mutation of a window: `pushWord`, `shiftWord` or `AddWord`. -/
inductive Mutation where
  | push (word : String)
  | shift
  | add (word : String)
  deriving DecidableEq, Repr

/-- Apply one mutation to a window in memory. -/
def mutate {K : Type} (grow : Nat → Nat) (hw : Heap × WindowRef K) : Mutation → Heap × WindowRef K
  | .push word => hw.2.pushWord grow hw.1 word
  | .shift => ((hw.2.shiftWord hw.1).1, (hw.2.shiftWord hw.1).2.1)
  | .add word => hw.2.AddWord grow hw.1 word

/-- Apply a sequence of mutations to a window in memory. -/
def mutateAll {K : Type} (grow : Nat → Nat) (hw : Heap × WindowRef K) (ops : List Mutation) :
    Heap × WindowRef K :=
  ops.foldl (mutate grow) hw

/-- The struct `w` is well formed in memory `h`: its array and map exist, the
slice lies within its array, and the map has distinct keys. -/
def WellFormed {K : Type} (h : Heap) (w : WindowRef K) : Prop :=
  w.words.arr < h.arrays.length ∧
  w.words.off + w.words.len ≤ (h.array w.words.arr).length ∧
  match w.bigrams with
  | none => True
  | some i => i < h.maps.length ∧ (GoMap.keys (h.map i)).Nodup

/-- Going from `(h, c)` to `(h', c')` writes only to the array and the map of `c`
or to fresh ones: memory only grows, every other array and map of `h` is as it
was, and the struct points to its old array and map or to fresh ones. -/
def OwnWrites {K : Type} (h : Heap) (c : WindowRef K) (h' : Heap) (c' : WindowRef K) : Prop :=
  h.arrays.length ≤ h'.arrays.length ∧ h.maps.length ≤ h'.maps.length ∧
  (∀ i, i < h.arrays.length → i ≠ c.words.arr → h'.array i = h.array i) ∧
  (∀ j, j < h.maps.length → c.bigrams ≠ some j → h'.map j = h.map j) ∧
  (c'.words.arr = c.words.arr ∨ h.arrays.length ≤ c'.words.arr) ∧
  (c'.bigrams = c.bigrams ∨ ∃ j, c'.bigrams = some j ∧ h.maps.length ≤ j)

/-- The struct `w` lives in memory `h` and shares nothing with `c`. -/
def Apart {K : Type} (h : Heap) (w c : WindowRef K) : Prop :=
  w.words.arr < h.arrays.length ∧ (∀ i, w.bigrams = some i → i < h.maps.length) ∧
  w.words.arr ≠ c.words.arr ∧ (∀ i, w.bigrams = some i → c.bigrams ≠ some i)

/-- Two structs share no backing array and no map. -/
def Separate {K : Type} (w c : WindowRef K) : Prop :=
  w.words.arr ≠ c.words.arr ∧
  match w.bigrams, c.bigrams with
  | some i, some j => i ≠ j
  | _, _ => True

/-! ## Vocabulary of the specification -/

/-- The map `m` records exactly the occurrence counts `c`: its keys are distinct,
a bigram with `c b = 0` has no entry, and any other bigram has the entry `c b`. -/
def GoMap.Counts (m : GoMap Int) (c : String → Nat) : Prop :=
  m.keys.Nodup ∧ ∀ b, m.find? b = if c b = 0 then none else some (c b : Int)

/-- The five apostrophe variants: U+0027, U+2019, U+2018, U+02BC, U+2032. -/
def apostropheVariants : List Char :=
  [Char.ofNat 0x27, Char.ofNat 0x2019, Char.ofNat 0x2018, Char.ofNat 0x02BC, Char.ofNat 0x2032]

/-- The six terminal punctuation characters `. , ; : ! ?`. -/
def terminalPunctuation : List Char := ['.', ',', ';', ':', '!', '?']

/-- A well-formed line of a weight source: exactly two tab-separated fields,
the second of which parses as an integer after trimming white space; the
result is the bigram and its count. -/
def wellFormed (line : String) : Option (String × Int) :=
  match splitTab line.data with
  | [bigram, field] => (atoi (trimSpace field)).map (fun count => (String.mk bigram, count))
  | _ => none

/-- The weight a transform gives to a raw count, `total` being the table's
`Total`, `log1p` standing for `math.Log1p` and `nonFinite count` for the value
of `count / 0`. -/
def transformWeight {K : Type} [LinearOrderedField K] (log1p : K → K) (nonFinite : K → K)
    (transform : WeightTransform) (total : K) (count : K) : K :=
  match transform with
  | .Log1p => log1p count
  | .Normal => if total = 0 then nonFinite count else count / total
  | .Raw => count

/-- The bigrams and counts of the well-formed lines of a source, in order. -/
def wellFormedEntries (lines : List String) : List (String × Int) :=
  lines.filterMap wellFormed

/-- One step of a `pushWord`/`shiftWord` history. -/
inductive WindowOp where
  | push (word : String)
  | shift
  deriving DecidableEq, Repr

/-- Apply one history step to a window. -/
def applyOp {K : Type} (w : Window K) : WindowOp → Window K
  | .push word => w.pushWord word
  | .shift => w.shiftWord.1

/-- The window reached from `NewWindow params` by a history of steps. -/
def runOps {K : Type} (params : Option (WindowParams K)) (ops : List WindowOp) : Window K :=
  ops.foldl applyOp (NewWindow params)

/-- The bigrams of the held words, recomputed from scratch. -/
def heldBigrams {K : Type} (w : Window K) : List String :=
  w.words.flatMap extractBigramsFromWord

/-- The bigram map of `w` is allocated and records exactly the occurrence counts
of the bigrams of the held words. -/
def Tracks {K : Type} (w : Window K) : Prop :=
  ∃ m, w.bigrams = some m ∧ m.Counts (fun b => (heldBigrams w).count b)

/-- The set of distinct bigrams that the map of `w` holds with a positive count. -/
def presentBigrams {K : Type} (w : Window K) : Finset String :=
  (GoMap.keys ((w.bigrams.getD []).filter (fun e => decide (0 < e.2)))).toFinset

/-- The window reached from `NewWindow params` by feeding `words` through
`AddWord`. -/
def feedWords {K : Type} (params : Option (WindowParams K)) (words : List String) : Window K :=
  words.foldl Window.AddWord (NewWindow params)

/-- The window states a scan visits: the state right after each `AddWord`. -/
def visited {K : Type} (w : Window K) : List String → List (Window K)
  | [] => []
  | word :: rest => w.AddWord word :: visited (w.AddWord word) rest

/-- The scan of one configuration on its own, every `range` loop taking the
entries in the order of the list: the pair `(windows[i], bestWindows[i])` after
the words have been read, starting from the pair `wb`. -/
def scanOne {K : Type} [LinearOrder K] [Zero K] [Add K] (wb : Window K × Window K)
    (words : List String) : Window K × Window K :=
  words.foldl (fun wb word => scanStep (id, id) word wb) wb

/-- Every order of the run is an order of the map it is given: it lists each
entry of the map once. -/
def ValidOrders (orders : ScanOrders) : Prop :=
  ∀ (j i : Nat) (m : GoMap Int), ((orders j i).1 m).Perm m ∧ ((orders j i).2 m).Perm m

/-- The run in which every `range` loop visits the entries in the order of the
list. -/
def listOrders : ScanOrders := fun _ _ => (id, id)

/-- The window `best` is what a scan of `words` under `params` must retain:
either no visited state scores above `0` and `best` is the empty window, or
`best` is a visited state (the `k`-th) that scores above `0`, no visited state
scores more, and every earlier visited state scores strictly less. -/
def IsFirstBest {K : Type} [LinearOrder K] [Zero K] [Add K] (params : Option (WindowParams K))
    (words : List String) (best : Window K) : Prop :=
  ((∀ s ∈ visited (NewWindow params) words, s.Score ≤ 0) ∧ best = NewWindow params) ∨
  (∃ k : Nat, (visited (NewWindow params) words)[k]? = some best ∧
    0 < best.Score ∧
    (∀ s ∈ visited (NewWindow params) words, s.Score ≤ best.Score) ∧
    (∀ (j : Nat) (s : Window K), j < k →
      (visited (NewWindow params) words)[j]? = some s → s.Score < best.Score))

/-- Weight table of the end-to-end example: `he:10, el:5, ll:3, lo:2`, raw. -/
def exampleWeights : BigramWeights ℚ :=
  { Weights := [("he", 10), ("el", 5), ("ll", 3), ("lo", 2)], Transform := .Raw, Total := 20 }

/-- Configuration of the end-to-end example: the example weights, `MaxChars = 5`. -/
def exampleParams : WindowParams ℚ := { ID := "5", Weights := exampleWeights, MaxChars := 5 }

/-- A passage whose score is `score`: one bigram, weighted `score`. -/
def examplePassage (score : ℚ) : Passage ℚ :=
  { Window :=
      { words := ["k"], bigrams := some [("k", 1)],
        params := some { ID := "9", MaxChars := 9,
                         Weights := { Weights := [("k", score)], Transform := .Raw, Total := 0 } } }
    FilePath := "a.txt" }

/-- A memory with one backing array and one map, those of `exampleRef`. -/
def exampleHeap : Heap :=
  { arrays := [["to", "be", ""]],
    maps := [[("_t", 1), ("to", 1), ("o_", 1), ("_b", 1), ("be", 1), ("e_", 1)]] }

/-- A window in `exampleHeap` holding `to be`, with one spare slot in its
backing array. -/
def exampleRef : WindowRef ℚ :=
  { words := { arr := 0, off := 0, len := 2 }, bigrams := some 0, params := some exampleParams }

/-- The size a window holding exactly the words `ws` has: the character counts
plus one separator between neighbours, `0` for no words. -/
def sizeOfWords (ws : List String) : Int :=
  if ws = [] then 0
  else (((ws.map String.length).sum : Nat) : Int) + ((ws.length : Int) - 1)

/-- Configuration with the example weights and `MaxChars = 3`. -/
def tightParams : WindowParams ℚ := { ID := "3", Weights := exampleWeights, MaxChars := 3 }

/-- Parameters of the example weights with room for eight characters. -/
def widerParams : WindowParams ℚ := { ID := "8", Weights := exampleWeights, MaxChars := 8 }

/-- The `Normal` table of a weight source in exact arithmetic. -/
def normalTable (lines : List String) : List (String × ℚ) :=
  (LoadBigramWeights (fun x : ℚ => x) (fun x : ℚ => x) lines .Normal).Weights

/-- The `Normal` table of a weight source as `float64` holds it: every quotient
`count / total` rounded once (counts and total small enough to be exact). -/
def floatNormalTable (lines : List String) : List (String × ℚ) :=
  (normalTable lines).map (fun e => (e.1, roundF64 e.2))

/-- A weight source giving `he`, `el`, `lo` the `Normal` weights `0.1`, `0.3`,
`0.4`. -/
def lines134 : List String := ["he\t1", "el\t3", "lo\t4", "zz\t2"]

/-- A weight source giving `he`, `el`, `lo` the `Normal` weights `0.1`, `0.2`,
`0.3`. -/
def lines123 : List String := ["he\t1", "el\t2", "lo\t3", "zz\t4"]

/-- A weight source giving the three bigrams `_a`, `aa`, `a_` of the words `aa`
and `aaa` the `Normal` weights `0.1`, `0.2`, `0.3`. -/
def linesA : List String := ["_a\t1", "aa\t2", "a_\t3", "zz\t4"]

/-- A table with `float64` sums, for windows of three characters. -/
def floatParams (table : List (String × ℚ)) : WindowParams F64 :=
  { ID := "3", Weights := { Weights := table, Transform := .Normal, Total := 10 },
    MaxChars := 3 }

/-- A table with exact sums, for windows of three characters. -/
def exactParams (table : List (String × ℚ)) : WindowParams ℚ :=
  { ID := "3", Weights := { Weights := table, Transform := .Normal, Total := 10 },
    MaxChars := 3 }

/-- The parameters of the end-to-end example with `float64` sums. -/
def exampleParamsF64 : WindowParams F64 :=
  { ID := "5",
    Weights := { Weights := exampleWeights.Weights, Transform := .Raw, Total := 20 },
    MaxChars := 5 }

/-- A run in which every `range` loop visits the entries in the reverse of the
order of the list. -/
def reverseOrders : ScanOrders := fun _ _ => (List.reverse, List.reverse)

/-- A run in which the `Score` calls on `windows[i]` take the entries in the
order of the list and those on `bestWindows[i]` start one entry later and wrap
around. -/
def mixedOrders : ScanOrders := fun _ _ => (id, fun m => m.rotate 1)

/-- Passages listed by non-increasing score. -/
def SortedDesc {K : Type} [LinearOrderedField K] (l : List (Passage K)) : Prop :=
  l.Pairwise (fun a b => a.Score ≥ b.Score)

/-- The `k` largest of the scores, listed in non-increasing order. -/
def topScores {K : Type} [LinearOrderedField K] (scores : List K) (k : Nat) : List K :=
  (scores.insertionSort (fun a b => a ≥ b)).take k

/-- Insert the candidates one by one, starting from `results`. -/
def insertAll {K : Type} [LinearOrderedField K] (results : List (Passage K))
    (candidates : List (Passage K)) (maxResults : Int) : List (Passage K) :=
  candidates.foldl (fun l c => insertSorted l c maxResults) results

/-- Sum of the squared deviations of `xs` from `c`. -/
def sumSqDev {K : Type} [LinearOrderedField K] (xs : List K) (c : K) : K :=
  (xs.map (fun x => (x - c) ^ 2)).sum

/-- The stats after the scores `xs` have been recorded in order. -/
def updateAll {K : Type} [LinearOrderedField K] (xs : List K) : Stats K :=
  xs.foldl Stats.Update NewStats

/-- What a call of `MaybeAddWord` in memory hands back as a value: the zero
window and `false` for `none`, the window the new struct shows and `true`
otherwise. -/
def maybeResult {K : Type} (r : Heap × Option (WindowRef K)) : Window K × Bool :=
  match r.2 with
  | none => (Window.zero, false)
  | some c => (c.view r.1, true)

/-- The passage a scan result holds for configuration `i`. -/
def passageAt {K : Type} (passages : List (Passage K)) (i : Nat) : Passage K :=
  passages.getD i Passage.zero

/-- Two files for the aggregation example: one reading `hello world`, one with
no words at all. -/
def exampleFiles : List (String × List String) :=
  [("sonnet.txt", scanWords "hello world"), ("empty.txt", scanWords "")]

/-! ## Lemmas on association-list maps -/

namespace GoMap

variable {V : Type}

theorem find?_nil (k : String) : find? ([] : GoMap V) k = none := rfl

theorem find?_cons (k k' : String) (v : V) (m : GoMap V) :
    find? ((k', v) :: m) k = if k = k' then some v else find? m k := by
  unfold find?
  rw [List.lookup_cons]
  by_cases h : k = k'
  · simp [h]
  · have hb : (k == k') = false := by simpa using h
    simp [h, hb]

theorem find?_set_self (m : GoMap V) (k : String) (v : V) : (m.set k v).find? k = some v := by
  induction m with
  | nil => simp [set, find?_cons]
  | cons e rest ih =>
    obtain ⟨k', v'⟩ := e
    by_cases h : k' = k
    · simp [set, h, find?_cons]
    · have h' : ¬ k = k' := fun c => h c.symm
      simp [set, h, h', find?_cons, ih]

theorem find?_set_ne (m : GoMap V) {k k' : String} (v : V) (h : k' ≠ k) :
    (m.set k v).find? k' = m.find? k' := by
  induction m with
  | nil => simp [set, find?_cons, h, find?_nil]
  | cons e rest ih =>
    obtain ⟨k₀, v₀⟩ := e
    by_cases h₀ : k₀ = k
    · subst h₀
      simp [set, find?_cons, h]
    · simp [set, h₀, find?_cons, ih]

theorem find?_delete_self (m : GoMap V) (k : String) : (m.delete k).find? k = none := by
  induction m with
  | nil => rfl
  | cons e rest ih =>
    obtain ⟨k₀, v₀⟩ := e
    by_cases h₀ : k₀ = k
    · subst h₀
      simpa [delete, List.filter_cons] using ih
    · have h' : ¬ k = k₀ := fun c => h₀ c.symm
      have : find? (delete rest k) k = none := ih
      simp [delete, List.filter_cons, h₀, find?_cons, h'] at this ⊢
      exact this

theorem find?_delete_ne (m : GoMap V) {k k' : String} (h : k' ≠ k) :
    (m.delete k).find? k' = m.find? k' := by
  induction m with
  | nil => rfl
  | cons e rest ih =>
    obtain ⟨k₀, v₀⟩ := e
    have ih' : find? (delete rest k) k' = find? rest k' := ih
    by_cases h₀ : k₀ = k
    · subst h₀
      simp [delete, List.filter_cons, find?_cons, h] at ih' ⊢
      exact ih'
    · simp [delete, List.filter_cons, h₀, find?_cons] at ih' ⊢
      rw [ih']

theorem keys_set (m : GoMap V) (k : String) (v : V) :
    (m.set k v).keys = if k ∈ m.keys then m.keys else m.keys ++ [k] := by
  induction m with
  | nil => simp [set, keys]
  | cons e rest ih =>
    obtain ⟨k₀, v₀⟩ := e
    by_cases h₀ : k₀ = k
    · subst h₀
      simp [set, keys]
    · have h' : ¬ k = k₀ := fun c => h₀ c.symm
      have ih' : List.map Prod.fst (set rest k v)
          = if k ∈ List.map Prod.fst rest then List.map Prod.fst rest
            else List.map Prod.fst rest ++ [k] := ih
      simp only [set, h₀, keys, if_false, List.map_cons, List.mem_cons, h', false_or, ih']
      split <;> simp

theorem nodup_keys_set {m : GoMap V} (k : String) (v : V) (h : m.keys.Nodup) :
    (m.set k v).keys.Nodup := by
  rw [keys_set]
  split
  · exact h
  · rename_i hk
    exact List.Nodup.append h (List.nodup_singleton k) (by simpa using hk)

theorem nodup_keys_delete {m : GoMap V} (k : String) (h : m.keys.Nodup) :
    (m.delete k).keys.Nodup := by
  unfold keys delete
  exact List.Nodup.sublist (List.Sublist.map _ (List.filter_sublist _)) h

theorem nodup_keys_of_sublist {m m' : GoMap V} (hs : m'.Sublist m) (h : m.keys.Nodup) :
    m'.keys.Nodup := by
  unfold keys
  exact List.Nodup.sublist (List.Sublist.map _ hs) h

theorem set_of_not_mem (m : GoMap V) (k : String) (v : V) (h : k ∉ m.keys) :
    m.set k v = m ++ [(k, v)] := by
  induction m with
  | nil => rfl
  | cons e rest ih =>
    obtain ⟨k₀, v₀⟩ := e
    have h₀ : ¬ k₀ = k := fun c => h (by simp [keys, c])
    have hr : k ∉ keys rest := fun c => h (by simp [keys] at c ⊢; exact Or.inr c)
    simp [set, h₀, ih hr]

theorem mem_iff_find? {m : GoMap V} (h : m.keys.Nodup) (k : String) (v : V) :
    (k, v) ∈ m ↔ m.find? k = some v := by
  induction m with
  | nil => simp [find?_nil]
  | cons e rest ih =>
    obtain ⟨k₀, v₀⟩ := e
    have hn : k₀ ∉ keys rest ∧ (keys rest).Nodup := by simpa [keys] using h
    rw [find?_cons, List.mem_cons]
    by_cases hk : k = k₀
    · subst hk
      have : (k, v) ∉ rest := fun c => hn.1 (List.mem_map.2 ⟨(k, v), c, rfl⟩)
      simp [this]
      exact eq_comm
    · simp [hk, ih hn.2]

theorem Counts.get_eq {m : GoMap Int} {c : String → Nat} (h : Counts m c) (b : String) :
    m.get b = (c b : Int) := by
  unfold get
  rw [h.2 b]
  by_cases hc : c b = 0 <;> simp [hc]

theorem Counts.congr {m : GoMap Int} {c c' : String → Nat} (h : Counts m c)
    (hc : ∀ x, c' x = c x) : Counts m c' := by
  have : c' = c := funext hc
  rw [this]
  exact h

theorem Counts.incr {m : GoMap Int} {c c' : String → Nat} (h : Counts m c) (bg : String)
    (hc : ∀ x, c' x = c x + if x = bg then 1 else 0) :
    Counts (m.set bg (m.get bg + 1)) c' := by
  refine ⟨nodup_keys_set _ _ h.1, fun b => ?_⟩
  by_cases hb : b = bg
  · subst hb
    rw [find?_set_self, h.get_eq, hc]
    simp
  · rw [find?_set_ne _ _ hb, h.2 b, hc]
    simp [hb]

theorem Counts.decr {m : GoMap Int} {c c' : String → Nat} (h : Counts m c) (bg : String)
    (hpos : 0 < c bg) (hc : ∀ x, c' x = c x - if x = bg then 1 else 0) :
    Counts (Window.decrBigram m bg) c' := by
  unfold Window.decrBigram
  have hget : (m.set bg (m.get bg - 1)).get bg = (c bg : Int) - 1 := by
    unfold get
    rw [find?_set_self, ← get, h.get_eq]
    rfl
  simp only [hget]
  by_cases h1 : c bg = 1
  · have hz : ((c bg : Int) - 1 = 0) := by simp [h1]
    rw [if_pos hz]
    refine ⟨nodup_keys_delete _ (nodup_keys_set _ _ h.1), fun b => ?_⟩
    by_cases hb : b = bg
    · subst hb
      rw [find?_delete_self, hc]
      simp [h1]
    · rw [find?_delete_ne _ hb, find?_set_ne _ _ hb, h.2 b, hc]
      simp [hb]
  · have hz : ¬ ((c bg : Int) - 1 = 0) := by omega
    rw [if_neg hz]
    refine ⟨nodup_keys_set _ _ h.1, fun b => ?_⟩
    by_cases hb : b = bg
    · subst hb
      rw [find?_set_self, h.get_eq, hc]
      have : c b - 1 ≠ 0 := by omega
      simp [this]
      omega
    · rw [find?_set_ne _ _ hb, h.2 b, hc]
      simp [hb]

theorem Counts.foldl_incr (bs : List String) :
    ∀ {m : GoMap Int} {c c' : String → Nat}, Counts m c →
      (∀ x, c' x = c x + bs.count x) →
      Counts (bs.foldl (fun m bg => m.set bg (m.get bg + 1)) m) c' := by
  induction bs with
  | nil =>
    intro m c c' h hc
    exact h.congr (by simpa using hc)
  | cons bg rest ih =>
    intro m c c' h hc
    rw [List.foldl_cons]
    have hstep : Counts (m.set bg (m.get bg + 1)) (fun x => c x + if x = bg then 1 else 0) :=
      h.incr bg (fun _ => rfl)
    refine ih hstep ?_
    intro x
    rw [hc x, List.count_cons]
    by_cases hx : x = bg
    · subst hx
      simp
      omega
    · have : ¬ bg = x := fun e => hx e.symm
      simp [hx, this]

theorem Counts.foldl_decr (bs : List String) :
    ∀ {m : GoMap Int} {c c' : String → Nat}, Counts m c →
      (∀ x, c x = c' x + bs.count x) →
      Counts (bs.foldl Window.decrBigram m) c' := by
  induction bs with
  | nil =>
    intro m c c' h hc
    exact h.congr (by simpa using fun x => (hc x).symm)
  | cons bg rest ih =>
    intro m c c' h hc
    rw [List.foldl_cons]
    have hpos : 0 < c bg := by
      have := hc bg
      rw [List.count_cons] at this
      simp at this
      omega
    have hstep : Counts (Window.decrBigram m bg) (fun x => c x - if x = bg then 1 else 0) :=
      h.decr bg hpos (fun _ => rfl)
    refine ih hstep ?_
    intro x
    have := hc x
    rw [List.count_cons] at this
    by_cases hx : x = bg
    · subst hx
      simp at this ⊢
      omega
    · have hx' : ¬ bg = x := fun e => hx e.symm
      simp [hx, hx'] at this ⊢
      exact this

end GoMap

/-! ## The bigram map tracks the held words -/

section Tracking

variable {K : Type}

theorem tracks_NewWindow (params : Option (WindowParams K)) : Tracks (NewWindow params) := by
  refine ⟨[], rfl, List.nodup_nil, fun b => ?_⟩
  simp [heldBigrams, NewWindow, GoMap.find?_nil]

theorem words_pushWord (w : Window K) (word : String) :
    (w.pushWord word).words = w.words ++ [word] := by
  unfold Window.pushWord
  dsimp only
  split <;> rfl

theorem params_pushWord (w : Window K) (word : String) :
    (w.pushWord word).params = w.params := by
  unfold Window.pushWord
  dsimp only
  split <;> rfl

theorem heldBigrams_pushWord (w : Window K) (word : String) :
    heldBigrams (w.pushWord word) = heldBigrams w ++ extractBigramsFromWord word := by
  simp [heldBigrams, words_pushWord, List.flatMap_append]

theorem tracks_pushWord {w : Window K} (h : Tracks w) (word : String) :
    Tracks (w.pushWord word) := by
  obtain ⟨m, hm, hc⟩ := h
  have hheld := heldBigrams_pushWord w word
  by_cases hlen : (extractBigramsFromWord word).length = 0
  · have hnil : extractBigramsFromWord word = [] := List.length_eq_zero.1 hlen
    refine ⟨m, by simp [Window.pushWord, hm, hlen], hc.congr fun x => ?_⟩
    rw [hheld, hnil, List.append_nil]
  · refine ⟨(extractBigramsFromWord word).foldl (fun m bg => m.set bg (m.get bg + 1)) m,
      by simp [Window.pushWord, hm, hlen], GoMap.Counts.foldl_incr _ hc fun x => ?_⟩
    rw [hheld, List.count_append]

theorem tracks_shiftWord {w : Window K} (h : Tracks w) : Tracks w.shiftWord.1 := by
  obtain ⟨m, hm, hc⟩ := h
  cases hw : w.words with
  | nil =>
    have : w.shiftWord = (w, "") := by simp [Window.shiftWord, hw]
    rw [this]
    exact ⟨m, hm, hc⟩
  | cons word rest =>
    have hheld : heldBigrams w = extractBigramsFromWord word ++ rest.flatMap extractBigramsFromWord := by
      simp [heldBigrams, hw]
    by_cases hlen : (extractBigramsFromWord word).length = 0
    · have hnil : extractBigramsFromWord word = [] := List.length_eq_zero.1 hlen
      have hs : w.shiftWord = ({ w with words := rest }, word) := by
        simp [Window.shiftWord, hw, hm, hlen]
      rw [hs]
      refine ⟨m, hm, hc.congr fun x => ?_⟩
      simp [heldBigrams, hw, hnil]
    · have hs : w.shiftWord
          = ({ w with words := rest,
                      bigrams := some ((extractBigramsFromWord word).foldl Window.decrBigram m) },
             word) := by
        simp [Window.shiftWord, hw, hm, hlen]
      rw [hs]
      refine ⟨_, rfl, GoMap.Counts.foldl_decr _ hc fun x => ?_⟩
      simp only [heldBigrams, hw]
      simp [List.count_append, Nat.add_comm]

theorem tracks_runOps (params : Option (WindowParams K)) (ops : List WindowOp) :
    Tracks (runOps params ops) := by
  unfold runOps
  have key : ∀ (l : List WindowOp) (w : Window K), Tracks w → Tracks (l.foldl applyOp w) := by
    intro l
    induction l with
    | nil => intro w h; exact h
    | cons op rest ih =>
      intro w h
      rw [List.foldl_cons]
      apply ih
      cases op with
      | push word => exact tracks_pushWord h word
      | shift => exact tracks_shiftWord h
  exact key ops _ (tracks_NewWindow params)

end Tracking

/-- C1. After any history of `pushWord` and `shiftWord` steps on a window made by
`NewWindow`, the bigram map is allocated, has distinct keys, and for every
bigram `b` it has no entry when `b` does not occur in the bigrams of the held
words and otherwise the entry equal to the total number of occurrences of `b`
across the held words; so no key carries a zero or negative count. -/
theorem C1_bigram_map_tracks_held_words {K : Type} (params : Option (WindowParams K))
    (ops : List WindowOp) :
    ∃ m : GoMap Int, (runOps params ops).bigrams = some m ∧ m.keys.Nodup ∧
      ∀ b : String,
        m.find? b =
          if (heldBigrams (runOps params ops)).count b = 0 then none
          else some (((heldBigrams (runOps params ops)).count b : Nat) : Int) := by
  obtain ⟨m, hm, hnd, hc⟩ := tracks_runOps params ops
  exact ⟨m, hm, hnd, hc⟩

/-! ## `AddWord` and the size bound -/

section AddWordSize

variable {K : Type}

theorem shiftWord_words (w : Window K) : w.shiftWord.1.words = w.words.tail := by
  unfold Window.shiftWord
  split
  · rename_i h; simp [h]
  · rename_i word rest h
    split
    · simp [h]
    · dsimp only
      split <;> simp [h]

theorem shiftWord_snd (w : Window K) : w.shiftWord.2 = w.words.headD "" := by
  unfold Window.shiftWord
  split
  · rename_i h; simp [h]
  · rename_i word rest h
    split
    · simp [h]
    · dsimp only
      split <;> simp [h]

theorem shiftWord_params (w : Window K) : w.shiftWord.1.params = w.params := by
  unfold Window.shiftWord
  split
  · rfl
  · split
    · rfl
    · dsimp only
      split <;> rfl

theorem size_nil {w : Window K} (h : w.words = []) : w.Size = 0 := by
  simp [Window.Size, h]

theorem evictLoop_params (maxChars : Int) (fuel : Nat) (w : Window K) :
    (Window.evictLoop maxChars fuel w).params = w.params := by
  induction fuel generalizing w with
  | zero => rfl
  | succ n ih =>
    unfold Window.evictLoop
    dsimp only
    split
    · split
      · exact shiftWord_params w
      · rw [ih, shiftWord_params]
    · rfl

theorem evictLoop_words_suffix (maxChars : Int) (fuel : Nat) (w : Window K) :
    (Window.evictLoop maxChars fuel w).words <:+ w.words := by
  induction fuel generalizing w with
  | zero => exact List.suffix_refl _
  | succ n ih =>
    unfold Window.evictLoop
    dsimp only
    have ht : w.shiftWord.1.words <:+ w.words := by
      rw [shiftWord_words]
      exact List.tail_suffix _
    split
    · split
      · exact ht
      · exact (ih _).trans ht
    · exact List.suffix_refl _

theorem evictLoop_size_le (maxChars : Int) (hmax : 0 ≤ maxChars) (fuel : Nat) (w : Window K)
    (hne : ∀ x ∈ w.words, x ≠ "") (hfuel : w.words.length < fuel) :
    (Window.evictLoop maxChars fuel w).Size ≤ maxChars := by
  induction fuel generalizing w with
  | zero => omega
  | succ n ih =>
    unfold Window.evictLoop
    dsimp only
    by_cases hsz : w.Size > maxChars
    · rw [if_pos hsz]
      cases hw : w.words with
      | nil =>
        rw [size_nil hw] at hsz
        omega
      | cons word rest =>
        have hword : w.shiftWord.2 = word := by rw [shiftWord_snd, hw]; rfl
        have hrest : w.shiftWord.1.words = rest := by rw [shiftWord_words, hw]; rfl
        have hwne : word ≠ "" := hne word (by rw [hw]; exact List.mem_cons_self _ _)
        rw [hword, if_neg hwne]
        apply ih
        · intro x hx
          rw [hrest] at hx
          exact hne x (by rw [hw]; exact List.mem_cons_of_mem _ hx)
        · rw [hrest]
          rw [hw] at hfuel
          simp at hfuel
          omega
    · rw [if_neg hsz]
      omega

theorem AddWord_some {w : Window K} {p : WindowParams K} (hp : w.params = some p)
    (word : String) :
    w.AddWord word
      = Window.evictLoop p.MaxChars ((w.pushWord word).words.length + 1) (w.pushWord word) := by
  unfold Window.AddWord
  rw [hp]

theorem AddWord_none {w : Window K} (hp : w.params = none) (word : String) :
    w.AddWord word = w := by
  unfold Window.AddWord
  rw [hp]

theorem AddWord_params (w : Window K) (word : String) : (w.AddWord word).params = w.params := by
  cases hp : w.params with
  | none => rw [AddWord_none hp, hp]
  | some p => rw [AddWord_some hp, evictLoop_params, params_pushWord, hp]

theorem AddWord_words_suffix {w : Window K} {p : WindowParams K} (hp : w.params = some p)
    (word : String) : (w.AddWord word).words <:+ w.words ++ [word] := by
  rw [AddWord_some hp, ← words_pushWord]
  exact evictLoop_words_suffix _ _ _

theorem AddWord_words_mem (w : Window K) (word : String) :
    ∀ x ∈ (w.AddWord word).words, x ∈ w.words ∨ x = word := by
  intro x hx
  cases hp : w.params with
  | none =>
    rw [AddWord_none hp] at hx
    exact Or.inl hx
  | some p =>
    have := (AddWord_words_suffix hp word).subset hx
    simpa using this

theorem feedWords_params (params : Option (WindowParams K)) (words : List String) :
    (feedWords params words).params = params := by
  unfold feedWords
  have key : ∀ (l : List String) (w : Window K), (l.foldl Window.AddWord w).params = w.params := by
    intro l
    induction l with
    | nil => intro w; rfl
    | cons x rest ih => intro w; rw [List.foldl_cons, ih, AddWord_params]
  rw [key]
  rfl

theorem feedWords_words_mem (params : Option (WindowParams K)) (words : List String) :
    ∀ x ∈ (feedWords params words).words, x ∈ words := by
  unfold feedWords
  have key : ∀ (l : List String) (w : Window K),
      ∀ x ∈ (l.foldl Window.AddWord w).words, x ∈ w.words ∨ x ∈ l := by
    intro l
    induction l with
    | nil => intro w x hx; exact Or.inl hx
    | cons y rest ih =>
      intro w x hx
      rw [List.foldl_cons] at hx
      rcases ih _ x hx with h | h
      · rcases AddWord_words_mem w y x h with h' | h'
        · exact Or.inl h'
        · exact Or.inr (by rw [h']; exact List.mem_cons_self _ _)
      · exact Or.inr (List.mem_cons_of_mem _ h)
  intro x hx
  rcases key words _ x hx with h | h
  · simp [NewWindow] at h
  · exact h

theorem feedWords_snoc (params : Option (WindowParams K)) (ws : List String) (word : String) :
    feedWords params (ws ++ [word]) = (feedWords params ws).AddWord word := by
  simp [feedWords, List.foldl_append]

/-- With a non-negative limit and no empty word held or added, `AddWord` always
ends within the limit: an oversized word is evicted like any other. -/
theorem AddWord_size_le {w : Window K} {p : WindowParams K} (hp : w.params = some p)
    (hmax : 0 ≤ p.MaxChars) (hne : ∀ x ∈ w.words, x ≠ "") {word : String} (hword : word ≠ "") :
    (w.AddWord word).Size ≤ p.MaxChars := by
  rw [AddWord_some hp]
  apply evictLoop_size_le _ hmax
  · intro x hx
    rw [words_pushWord] at hx
    rcases List.mem_append.1 hx with h | h
    · exact hne x h
    · rw [List.mem_singleton.1 h]
      exact hword
  · omega

/-- The fuel `AddWord` gives the eviction loop is enough: more fuel does not
change the outcome, so the loop has run to its exit. -/
theorem evictLoop_fuel_enough (maxChars : Int) (fuel : Nat) (w : Window K)
    (hfuel : w.words.length < fuel) :
    Window.evictLoop maxChars (fuel + 1) w = Window.evictLoop maxChars fuel w := by
  induction fuel generalizing w with
  | zero => omega
  | succ n ih =>
    rw [Window.evictLoop, Window.evictLoop.eq_def maxChars (n + 1)]
    dsimp only
    by_cases hsz : w.Size > maxChars
    · rw [if_pos hsz, if_pos hsz]
      by_cases hr : w.shiftWord.2 = ""
      · rw [if_pos hr, if_pos hr]
      · rw [if_neg hr, if_neg hr]
        apply ih
        rw [shiftWord_words]
        cases hw : w.words with
        | nil =>
          exfalso
          apply hr
          rw [shiftWord_snd, hw]
          rfl
        | cons word rest =>
          rw [hw] at hfuel
          simp at hfuel ⊢
          omega
    · rw [if_neg hsz, if_neg hsz]

theorem tracks_evictLoop (maxChars : Int) (fuel : Nat) {w : Window K} (h : Tracks w) :
    Tracks (Window.evictLoop maxChars fuel w) := by
  induction fuel generalizing w with
  | zero => exact h
  | succ n ih =>
    unfold Window.evictLoop
    dsimp only
    split
    · split
      · exact tracks_shiftWord h
      · exact ih (tracks_shiftWord h)
    · exact h

theorem tracks_AddWord {w : Window K} (h : Tracks w) (word : String) :
    Tracks (w.AddWord word) := by
  cases hp : w.params with
  | none => rw [AddWord_none hp]; exact h
  | some p =>
    rw [AddWord_some hp]
    exact tracks_evictLoop _ _ (tracks_pushWord h word)

theorem foldl_set_eq_append (l acc : GoMap Int) (h : (GoMap.keys (acc ++ l)).Nodup) :
    l.foldl (fun m e => GoMap.set m e.1 e.2) acc = acc ++ l := by
  induction l generalizing acc with
  | nil => simp
  | cons e rest ih =>
    rw [List.foldl_cons]
    have hnot : e.1 ∉ GoMap.keys acc := by
      intro hmem
      simp only [GoMap.keys, List.map_append, List.map_cons] at h hmem
      have := (List.nodup_append.1 h).2.2
      exact this hmem (List.mem_cons_self _ _)
    rw [GoMap.set_of_not_mem _ _ _ hnot, ih]
    · simp
    · simpa using h

theorem Clone_eq_self {w : Window K} (h : Tracks w) : w.Clone = w := by
  obtain ⟨m, hm, hc⟩ := h
  unfold Window.Clone
  have := foldl_set_eq_append m [] (by simpa using hc.1)
  cases w with
  | mk words bigrams params =>
    simp only at hm
    subst hm
    simp [this]

theorem visited_mem_tracks {w : Window K} (h : Tracks w) (words : List String) :
    ∀ s ∈ visited w words, Tracks s := by
  induction words generalizing w with
  | nil => intro s hs; simp [visited] at hs
  | cons x rest ih =>
    intro s hs
    simp only [visited, List.mem_cons] at hs
    rcases hs with rfl | hs
    · exact tracks_AddWord h x
    · exact ih (tracks_AddWord h x) s hs

end AddWordSize

/-- C2. For a limit `MaxChars ≥ 0` and non-empty words fed one by one through
`AddWord` to a window made by `NewWindow`, after each completed call (the one
that adds `word` after the earlier words `ws`) the window's `Size` is at most
`MaxChars`, or the word just added is by itself longer than `MaxChars`. -/
theorem C2_AddWord_size_bound {K : Type} (p : WindowParams K) (ws : List String)
    (word : String) (hmax : 0 ≤ p.MaxChars) (hne : ∀ x ∈ ws ++ [word], x ≠ "") :
    (feedWords (some p) (ws ++ [word])).Size ≤ p.MaxChars ∨
      (word.length : Int) > p.MaxChars := by
  left
  rw [feedWords_snoc]
  apply AddWord_size_le (feedWords_params _ _) hmax
  · intro x hx
    exact hne x (List.mem_append_left _ (feedWords_words_mem _ _ x hx))
  · exact hne word (by simp)

theorem C2_AddWord_size_bound_witness :
    (0 : Int) ≤ (WindowParams.mk "5" ⟨[], .Raw, 0⟩ 5 : WindowParams ℚ).MaxChars ∧
    (∀ x ∈ ["to", "be"] ++ ["oversized"], x ≠ "") ∧
    ((feedWords (some (WindowParams.mk "5" ⟨[], .Raw, 0⟩ 5 : WindowParams ℚ))
        (["to", "be"] ++ ["oversized"])).Size ≤ 5 ∨
      (("oversized".length : Nat) : Int) > 5) :=
  ⟨by decide, by decide,
    C2_AddWord_size_bound (WindowParams.mk "5" ⟨[], .Raw, 0⟩ 5) ["to", "be"] "oversized"
      (by decide) (by decide)⟩

/-! ## The file scan keeps the first best window -/

theorem ScoreIn_id {K : Type} [Zero K] [Add K] (w : Window K) : w.ScoreIn id = w.Score := by
  unfold Window.ScoreIn Window.Score Window.weightOf
  simp

section Scan

variable {K : Type} [LinearOrder K] [Zero K] [Add K]

theorem foldl_enumFrom_snd {α β : Type} (f : β → α → β) (l : List α) :
    ∀ (n : Nat) (b : β), (l.enumFrom n).foldl (fun acc x => f acc x.2) b = l.foldl f b := by
  induction l with
  | nil => intro n b; rfl
  | cons x rest ih =>
    intro n b
    rw [List.enumFrom_cons, List.foldl_cons, List.foldl_cons, ih]

theorem map_enumFrom_snd {α β : Type} (g : α → β) (l : List α) :
    ∀ n : Nat, (l.enumFrom n).map (fun x => g x.2) = l.map g := by
  induction l with
  | nil => intro n; rfl
  | cons x rest ih =>
    intro n
    rw [List.enumFrom_cons, List.map_cons, List.map_cons, ih]

theorem scan_foldl_map (words : List String) (init : List (Window K × Window K)) :
    words.foldl (fun wbs word => wbs.map (scanStep (id, id) word)) init
      = init.map (fun wb => scanOne wb words) := by
  induction words generalizing init with
  | nil => simp [scanOne]
  | cons x rest ih =>
    rw [List.foldl_cons, ih]
    simp [scanOne, List.map_map, Function.comp_def]

/-- With every pass in list order the configurations are scanned one by one. -/
theorem FindBestPassagesInFile_listOrders (filepath : String) (words : List String)
    (paramsList : List (Option (WindowParams K))) :
    FindBestPassagesInFile listOrders filepath words paramsList
      = paramsList.map (fun params =>
          { Window := (scanOne (NewWindow params, NewWindow params) words).2,
            FilePath := filepath }) := by
  unfold FindBestPassagesInFile listOrders List.enum
  have h : ∀ wbs : List (Window K × Window K), ∀ jw : Nat × String,
      (wbs.enumFrom 0).map (fun iwb => scanStep ((id : RangeOrder), (id : RangeOrder)) jw.2 iwb.2)
        = wbs.map (scanStep (id, id) jw.2) :=
    fun wbs jw => map_enumFrom_snd (scanStep (id, id) jw.2) wbs 0
  have e := foldl_enumFrom_snd
    (fun (wbs : List (Window K × Window K)) (word : String) => wbs.map (scanStep (id, id) word))
    words 0 (paramsList.map (fun params => (NewWindow params, NewWindow params)))
  simp only [h]
  rw [e, scan_foldl_map]
  simp [List.map_map, Function.comp_def]

theorem length_scan (orders : ScanOrders) (words : List (Nat × String)) :
    ∀ init : List (Window K × Window K),
      (words.foldl
        (fun wbs jw => wbs.enum.map (fun iwb => scanStep (orders jw.1 iwb.1) jw.2 iwb.2))
        init).length = init.length := by
  induction words with
  | nil => intro init; rfl
  | cons x rest ih =>
    intro init
    rw [List.foldl_cons, ih]
    simp [List.enum]

theorem length_FindBestPassagesInFile (orders : ScanOrders) (filepath : String)
    (words : List String) (paramsList : List (Option (WindowParams K))) :
    (FindBestPassagesInFile orders filepath words paramsList).length = paramsList.length := by
  unfold FindBestPassagesInFile
  simp only [List.length_map]
  rw [length_scan]
  simp

/-- The retained best window of a one-configuration scan started from `(w, b)`:
either no visited state beats `b` and `b` is kept, or the result is the first
visited state of maximal score, and that score is above `b`'s. -/
theorem scanOne_best (words : List String) :
    ∀ (w b : Window K), Tracks w →
      ((∀ s ∈ visited w words, s.Score ≤ b.Score) ∧ (scanOne (w, b) words).2 = b) ∨
      (∃ k : Nat, (visited w words)[k]? = some (scanOne (w, b) words).2 ∧
        b.Score < (scanOne (w, b) words).2.Score ∧
        (∀ s ∈ visited w words, s.Score ≤ (scanOne (w, b) words).2.Score) ∧
        (∀ (j : Nat) (s : Window K), j < k → (visited w words)[j]? = some s →
          s.Score < (scanOne (w, b) words).2.Score)) := by
  induction words with
  | nil =>
    intro w b _
    left
    exact ⟨fun s hs => by simp [visited] at hs, rfl⟩
  | cons x rest ih =>
    intro w b hw
    have hw1 : Tracks (w.AddWord x) := tracks_AddWord hw x
    have hstep : scanOne (w, b) (x :: rest) = scanOne (scanStep (id, id) x (w, b)) rest := by
      simp [scanOne]
    rw [hstep]
    by_cases hgt : (w.AddWord x).Score > b.Score
    · have hs : scanStep (id, id) x (w, b) = (w.AddWord x, w.AddWord x) := by
        simp [scanStep, ScoreIn_id, hgt, Clone_eq_self hw1]
      rw [hs]
      right
      rcases ih (w.AddWord x) (w.AddWord x) hw1 with ⟨hall, heq⟩ | ⟨k, hk, hlt, hall, hfirst⟩
      · refine ⟨0, by simp [visited, heq], by rw [heq]; exact hgt, ?_, ?_⟩
        · intro s hs'
          simp only [visited, List.mem_cons] at hs'
          rw [heq]
          rcases hs' with rfl | hs'
          · exact le_refl _
          · exact hall s hs'
        · intro j s hj
          omega
      · refine ⟨k + 1, by simpa [visited] using hk, lt_trans hgt hlt, ?_, ?_⟩
        · intro s hs'
          simp only [visited, List.mem_cons] at hs'
          rcases hs' with rfl | hs'
          · exact le_of_lt hlt
          · exact hall s hs'
        · intro j s hj hjs
          cases j with
          | zero =>
            simp [visited] at hjs
            rw [← hjs]
            exact hlt
          | succ j =>
            simp only [visited, List.getElem?_cons_succ] at hjs
            exact hfirst j s (by omega) hjs
    · have hs : scanStep (id, id) x (w, b) = (w.AddWord x, b) := by
        simp [scanStep, ScoreIn_id, hgt]
      rw [hs]
      have hle : (w.AddWord x).Score ≤ b.Score := not_lt.1 hgt
      rcases ih (w.AddWord x) b hw1 with ⟨hall, heq⟩ | ⟨k, hk, hlt, hall, hfirst⟩
      · left
        refine ⟨?_, heq⟩
        intro s hs'
        simp only [visited, List.mem_cons] at hs'
        rcases hs' with rfl | hs'
        · exact hle
        · exact hall s hs'
      · right
        refine ⟨k + 1, by simpa [visited] using hk, hlt, ?_, ?_⟩
        · intro s hs'
          simp only [visited, List.mem_cons] at hs'
          rcases hs' with rfl | hs'
          · exact le_of_lt (lt_of_le_of_lt hle hlt)
          · exact hall s hs'
        · intro j s hj hjs
          cases j with
          | zero =>
            simp [visited] at hjs
            rw [← hjs]
            exact lt_of_le_of_lt hle hlt
          | succ j =>
            simp only [visited, List.getElem?_cons_succ] at hjs
            exact hfirst j s (by omega) hjs

end Scan

theorem score_NewWindow {K : Type} [Zero K] [Add K] (params : Option (WindowParams K)) :
    (NewWindow params).Score = 0 := by
  simp [NewWindow, Window.Score]

/-- In any arithmetic, a run whose `range` loops all take the order of the list
keeps, for each configuration, the first visited state of maximal computed
score. -/
theorem listOrders_first_best {K : Type} [LinearOrder K] [Zero K] [Add K] (filepath : String)
    (words : List String) (paramsList : List (Option (WindowParams K))) (i : Nat)
    (params : Option (WindowParams K)) (hp : paramsList[i]? = some params) :
    ∃ r : Passage K,
      (FindBestPassagesInFile listOrders filepath words paramsList)[i]? = some r ∧
      r.FilePath = filepath ∧ IsFirstBest params words r.Window := by
  refine ⟨{ Window := (scanOne (NewWindow params, NewWindow params) words).2,
            FilePath := filepath }, ?_, rfl, ?_⟩
  · rw [FindBestPassagesInFile_listOrders, List.getElem?_map, hp]
    rfl
  · have h := scanOne_best words (NewWindow params) (NewWindow params) (tracks_NewWindow params)
    rw [score_NewWindow] at h
    exact h

section ScanExact

variable {K : Type} [LinearOrderedField K]

/-- With exact sums the order of the pass does not matter. -/
theorem ScoreIn_perm (order : RangeOrder) (w : Window K)
    (h : (order (w.bigrams.getD [])).Perm (w.bigrams.getD [])) : w.ScoreIn order = w.Score := by
  unfold Window.ScoreIn Window.Score Window.weightOf
  simp only [Option.getD_some]
  apply List.Perm.foldl_eq' h
  intro x _ y _ z
  by_cases hx : x.2 > (0 : Int) <;> by_cases hy : y.2 > (0 : Int) <;> simp only [hx, hy, if_true,
    if_false]
  cases w.params with
  | none => rfl
  | some p =>
    simp only
    cases GoMap.find? p.Weights.Weights x.1 <;> cases GoMap.find? p.Weights.Weights y.1 <;>
      simp only [add_right_comm]

theorem scanStep_valid (o : RangeOrder × RangeOrder) (h1 : ∀ m, (o.1 m).Perm m)
    (h2 : ∀ m, (o.2 m).Perm m) (word : String) (wb : Window K × Window K) :
    scanStep o word wb = scanStep (id, id) word wb := by
  unfold scanStep
  simp only [ScoreIn_perm _ _ (h1 _), ScoreIn_perm _ _ (h2 _), ScoreIn_id]

/-- With exact sums every run gives the result of the run in list order. -/
theorem FindBestPassagesInFile_orders (orders : ScanOrders) (hv : ValidOrders orders)
    (filepath : String) (words : List String) (paramsList : List (Option (WindowParams K))) :
    FindBestPassagesInFile orders filepath words paramsList
      = FindBestPassagesInFile listOrders filepath words paramsList := by
  unfold FindBestPassagesInFile
  dsimp only
  congr 1
  apply List.foldl_ext
  intro wbs jw _
  apply List.map_congr_left
  intro iwb _
  rw [scanStep_valid _ (fun m => (hv jw.1 iwb.1 m).1) (fun m => (hv jw.1 iwb.1 m).2)]
  rfl

end ScanExact

/-- C3 (amended). With exact score sums, for every word stream, every order in
which the runtime ranges over the bigram maps and every configuration `i` of
`paramsList`, `FindBestPassagesInFile` returns as `result[i]` a passage of the
given file whose window is the first visited window state (a state right after
some `AddWord`) of maximal `Score` among all visited states, a later state
replacing the retained one only on a strictly greater score; when no visited
state scores above `0` it is the empty window. -/
theorem C3_best_passage_first_maximum {K : Type} [LinearOrderedField K] (orders : ScanOrders)
    (filepath : String) (words : List String) (paramsList : List (Option (WindowParams K)))
    (i : Nat) (params : Option (WindowParams K)) (hv : ValidOrders orders)
    (hp : paramsList[i]? = some params) :
    ∃ r : Passage K,
      (FindBestPassagesInFile orders filepath words paramsList)[i]? = some r ∧
      r.FilePath = filepath ∧ IsFirstBest params words r.Window := by
  rw [FindBestPassagesInFile_orders orders hv]
  exact listOrders_first_best filepath words paramsList i params hp

theorem C3_best_passage_first_maximum_witness :
    ValidOrders reverseOrders ∧
    ([some exampleParams] : List (Option (WindowParams ℚ)))[0]? = some (some exampleParams) ∧
    (∃ r : Passage ℚ,
      (FindBestPassagesInFile reverseOrders "sonnet.txt" (scanWords "hello world")
          [some exampleParams])[0]? = some r ∧
      r.FilePath = "sonnet.txt" ∧
      IsFirstBest (some exampleParams) (scanWords "hello world") r.Window) ∧
    (FindBestPassagesInFile reverseOrders "sonnet.txt" (scanWords "hello world")
        [some exampleParams]).map (fun r => (r.Window.Text, r.Score)) = [("hello", 20)] ∧
    (FindBestPassagesInFile reverseOrders "sonnet.txt" (scanWords "hello world")
        [some exampleParamsF64]).map (fun r => (r.Window.Text, F64.val r.Score))
      = [("hello", 20)] :=
  ⟨fun _ _ m => ⟨List.reverse_perm m, List.reverse_perm m⟩, rfl,
    C3_best_passage_first_maximum reverseOrders "sonnet.txt" (scanWords "hello world")
      [some exampleParams] 0 (some exampleParams)
      (fun _ _ m => ⟨List.reverse_perm m, List.reverse_perm m⟩) rfl,
    by decide!, by decide!⟩

/-- C3 (counterexample). With `float64` sums the claim fails, by rounding and
by the iteration order. Rounding of a sum: with the `Normal` weights `0.1`,
`0.3`, `0.4` of `he`, `el`, `lo` and the words `hel lo`, the state `lo` has the
larger sum of weights, but `0.1 + 0.3` rounds to `0.4`, the computed scores are
equal and `hel` is returned. Rounding of the weights too: with the counts `1`,
`2`, `3` of `he`, `el`, `lo` out of `10` and the words `lo hel`, both states
have the weight sum `3/10` and `lo` is the earlier one, but `0.1 + 0.2` is
computed above `0.3` and `hel` is returned. Iteration order: with the weights
`0.1`, `0.2`, `0.3` of `_a`, `aa`, `a_` and the words `aa aaa`, both states hold
the same three bigrams; a run that sums in one order throughout returns `aa`, a
run that sums the retained window starting one entry later finds
`0.6000000000000001 > 0.6` and returns `aaa`. -/
theorem C3_float_sums_counterexample :
    floatNormalTable lines134
      = [("he", roundF64 (1 / 10)), ("el", roundF64 (3 / 10)), ("lo", roundF64 (4 / 10)),
          ("zz", roundF64 (2 / 10))] ∧
    (FindBestPassagesInFile listOrders "a.txt" ["hel", "lo"]
        [some (floatParams (floatNormalTable lines134))]).map
      (fun r => r.Window.words) = [["hel"]] ∧
    ((feedWords (some (floatParams (floatNormalTable lines134))) ["hel"]).Score : F64)
      = (feedWords (some (floatParams (floatNormalTable lines134))) ["hel", "lo"]).Score ∧
    ((feedWords (some (exactParams (floatNormalTable lines134))) ["hel"]).Score : ℚ)
      < (feedWords (some (exactParams (floatNormalTable lines134))) ["hel", "lo"]).Score ∧
    (FindBestPassagesInFile listOrders "a.txt" ["hel", "lo"]
        [some (exactParams (floatNormalTable lines134))]).map
      (fun r => r.Window.words) = [["lo"]] ∧
    (FindBestPassagesInFile listOrders "a.txt" ["lo", "hel"]
        [some (floatParams (floatNormalTable lines123))]).map
      (fun r => r.Window.words) = [["hel"]] ∧
    (FindBestPassagesInFile listOrders "a.txt" ["lo", "hel"]
        [some (exactParams (normalTable lines123))]).map
      (fun r => r.Window.words) = [["lo"]] ∧
    (FindBestPassagesInFile listOrders "a.txt" ["aa", "aaa"]
        [some (floatParams (floatNormalTable linesA))]).map
      (fun r => r.Window.words) = [["aa"]] ∧
    (FindBestPassagesInFile mixedOrders "a.txt" ["aa", "aaa"]
        [some (floatParams (floatNormalTable linesA))]).map
      (fun r => r.Window.words) = [["aaa"]] ∧
    ((feedWords (some (floatParams (floatNormalTable linesA))) ["aa"]).ScoreIn id : F64)
      > (feedWords (some (floatParams (floatNormalTable linesA))) ["aa"]).ScoreIn
          (fun m => m.rotate 1) ∧
    ValidOrders listOrders ∧ ValidOrders mixedOrders := by
  refine ⟨by decide!, by decide!, by decide!, by decide!, by decide!, by decide!, by decide!,
    by decide!, by decide!, by decide!,
    fun _ _ m => ⟨List.Perm.refl m, List.Perm.refl m⟩,
    fun _ _ m => ⟨List.Perm.refl m, List.rotate_perm m 1⟩⟩

/-! ## The score is a sum over the set of bigrams present -/

theorem mem_presentBigrams {K : Type} (w : Window K) (hnd : (GoMap.keys (w.bigrams.getD [])).Nodup)
    (b : String) : b ∈ presentBigrams w ↔ 0 < GoMap.get (w.bigrams.getD []) b := by
  unfold presentBigrams GoMap.keys
  rw [List.mem_toFinset, List.mem_map]
  constructor
  · rintro ⟨⟨k, v⟩, he, rfl⟩
    rw [List.mem_filter] at he
    have hfind := (GoMap.mem_iff_find? hnd k v).1 he.1
    have hv : 0 < v := by simpa using he.2
    simp [GoMap.get, hfind, hv]
  · intro hpos
    cases hfind : GoMap.find? (w.bigrams.getD []) b with
    | none => simp [GoMap.get, hfind] at hpos
    | some v =>
      have hv : 0 < v := by simpa [GoMap.get, hfind] using hpos
      exact ⟨(b, v), List.mem_filter.2 ⟨(GoMap.mem_iff_find? hnd b v).2 hfind, by simpa using hv⟩,
        rfl⟩

section ScoreSum

variable {K : Type} [LinearOrderedField K]

/-- Contribution of one map entry to the score. -/
theorem score_foldl (w : Window K) (m : GoMap Int) (a : K) :
    m.foldl
        (fun score e =>
          if e.2 > (0 : Int) then
            match w.weightOf e.1 with
            | some weight => score + weight
            | none => score
          else score)
        a
      = a + ((m.filter (fun e => decide (0 < e.2))).map
              (fun e => (w.weightOf e.1).getD 0)).sum := by
  induction m generalizing a with
  | nil => simp
  | cons e rest ih =>
    rw [List.foldl_cons, ih]
    by_cases hpos : 0 < e.2
    · have hgt : e.2 > 0 := hpos
      simp only [hgt, if_true, List.filter_cons, hpos, decide_True, List.map_cons, List.sum_cons]
      cases hwt : w.weightOf e.1 with
      | none => simp
      | some weight => simp [add_assoc]
    · have hgt : ¬ e.2 > 0 := hpos
      simp [hgt, List.filter_cons, hpos]

theorem score_eq_list_sum (w : Window K) :
    w.Score
      = ((GoMap.keys ((w.bigrams.getD []).filter (fun e => decide (0 < e.2)))).map
          (fun b => (w.weightOf b).getD 0)).sum := by
  unfold Window.Score
  rw [score_foldl, zero_add]
  simp [GoMap.keys, List.map_map, Function.comp_def]

theorem score_eq_sum_present (w : Window K) (hnd : (GoMap.keys (w.bigrams.getD [])).Nodup) :
    w.Score = ∑ b in presentBigrams w, (w.weightOf b).getD 0 := by
  rw [score_eq_list_sum, presentBigrams, List.sum_toFinset]
  exact GoMap.nodup_keys_of_sublist (List.filter_sublist _) hnd

end ScoreSum

/-- C4. For a window whose bigram map is well formed (distinct keys), the set
`presentBigrams` consists of exactly the bigrams with a positive count, and
`Score` is the exact sum over that set of the bigram's weight, a bigram absent
from the weight table counting `0`. Each distinct bigram thus counts once
whatever its multiplicity: two windows with the same params and the same set of
present bigrams have the same score, and the empty window scores `0`. -/
theorem C4_score_is_sum_over_present_bigrams {K : Type} [LinearOrderedField K] (w : Window K)
    (hnd : (GoMap.keys (w.bigrams.getD [])).Nodup) :
    (∀ b : String, b ∈ presentBigrams w ↔ 0 < GoMap.get (w.bigrams.getD []) b) ∧
    w.Score = ∑ b in presentBigrams w, (w.weightOf b).getD 0 ∧
    (∀ w' : Window K, (GoMap.keys (w'.bigrams.getD [])).Nodup → w'.params = w.params →
      presentBigrams w' = presentBigrams w → w'.Score = w.Score) ∧
    (NewWindow w.params).Score = 0 := by
  refine ⟨mem_presentBigrams w hnd, score_eq_sum_present w hnd, ?_, score_NewWindow _⟩
  intro w' hnd' hp hset
  rw [score_eq_sum_present w hnd, score_eq_sum_present w' hnd', hset]
  refine Finset.sum_congr rfl fun b _ => ?_
  simp [Window.weightOf, hp]

theorem C4_score_is_sum_over_present_bigrams_witness :
    (GoMap.keys ((feedWords (some exampleParams) ["he", "he"]).bigrams.getD [])).Nodup ∧
    (feedWords (some exampleParams) ["he", "he"]).bigrams
      = some [("_h", 2), ("he", 2), ("e_", 2)] ∧
    (feedWords (some exampleParams) ["he", "he"]).Score = 10 ∧
    ((∀ b : String, b ∈ presentBigrams (feedWords (some exampleParams) ["he", "he"]) ↔
        0 < GoMap.get ((feedWords (some exampleParams) ["he", "he"]).bigrams.getD []) b) ∧
      (feedWords (some exampleParams) ["he", "he"]).Score
        = ∑ b in presentBigrams (feedWords (some exampleParams) ["he", "he"]),
            ((feedWords (some exampleParams) ["he", "he"]).weightOf b).getD 0 ∧
      (∀ w' : Window ℚ, (GoMap.keys (w'.bigrams.getD [])).Nodup →
        w'.params = (feedWords (some exampleParams) ["he", "he"]).params →
        presentBigrams w' = presentBigrams (feedWords (some exampleParams) ["he", "he"]) →
        w'.Score = (feedWords (some exampleParams) ["he", "he"]).Score) ∧
      (NewWindow (feedWords (some exampleParams) ["he", "he"]).params).Score = 0) :=
  ⟨by decide, by decide, by decide!,
    C4_score_is_sum_over_present_bigrams (feedWords (some exampleParams) ["he", "he"])
      (by decide)⟩

/-! ## `insertSorted` -/

section InsertSorted

variable {K : Type} [LinearOrderedField K]

theorem findIdx_take_false {α : Type} (f : α → Bool) (l : List α) :
    ∀ x ∈ l.take (l.findIdx f), f x = false := by
  induction l with
  | nil => intro x hx; simp at hx
  | cons a rest ih =>
    intro x hx
    rw [List.findIdx_cons] at hx
    cases hfa : f a with
    | true => simp [hfa] at hx
    | false =>
      simp only [hfa, cond_false, List.take_succ_cons, List.mem_cons] at hx
      rcases hx with rfl | hx
      · exact hfa
      · exact ih x hx

theorem findIdx_drop_head {α : Type} (f : α → Bool) (l : List α) :
    ∀ x, (l.drop (l.findIdx f)).head? = some x → f x = true := by
  induction l with
  | nil => intro x hx; simp at hx
  | cons a rest ih =>
    intro x hx
    rw [List.findIdx_cons] at hx
    cases hfa : f a with
    | true =>
      simp [hfa] at hx
      rw [← hx]; exact hfa
    | false =>
      simp only [hfa, cond_false, List.drop_succ_cons] at hx
      exact ih x hx

/-- The slice shuffle of `insertSorted` at position `a.length` of `a ++ x :: b`:
shifting the tail right by one and writing the candidate keeps `a`, puts the
candidate next and drops the last entry. -/
theorem shift_insert {α : Type} (a b : List α) (x c : α) :
    (((a ++ x :: b).take (a.length + 1)
        ++ goCopy ((a ++ x :: b).drop (a.length + 1)) ((a ++ x :: b).drop a.length)).set
        a.length c)
      = a ++ c :: (x :: b).take b.length := by
  have h1 : (a ++ x :: b).take (a.length + 1) = a ++ [x] := by
    rw [List.take_append_eq_append_take]
    simp
  have h2 : (a ++ x :: b).drop (a.length + 1) = b := by
    rw [List.drop_append_eq_append_drop]
    simp
  have h3 : (a ++ x :: b).drop a.length = x :: b := by
    rw [List.drop_append_eq_append_drop]
    simp
  rw [h1, h2, h3]
  unfold goCopy
  have h4 : b.drop (x :: b).length = [] := by simp
  rw [h4, List.append_nil, List.append_assoc, List.set_append_right _ _ (le_refl _)]
  simp

theorem exists_split_at {α : Type} (l : List α) (n : Nat) (h : n < l.length) :
    ∃ a x b, l = a ++ x :: b ∧ a.length = n ∧ a = l.take n ∧ x :: b = l.drop n := by
  refine ⟨l.take n, l[n], l.drop (n + 1), ?_, ?_, rfl, ?_⟩
  · rw [List.getElem_cons_drop l n h, List.take_append_drop]
  · simp; omega
  · rw [List.getElem_cons_drop l n h]

/-- Closed form of `insertSorted`: with `pos` the index found by the search
loop, the list is returned as it is when `pos ≥ maxResults`, and otherwise the
candidate is inserted at `pos` and the first `maxResults` entries are kept. -/
theorem insertSorted_eq (results : List (Passage K)) (newPassage : Passage K)
    (maxResults : Int) :
    insertSorted results newPassage maxResults
      = if ((results.findIdx (fun p => decide (newPassage.Score > p.Score)) : Nat) : Int)
            ≥ maxResults then results
        else
          ((results.take (results.findIdx (fun p => decide (newPassage.Score > p.Score)))
            ++ newPassage ::
              results.drop (results.findIdx (fun p => decide (newPassage.Score > p.Score)))).take
            maxResults.toNat) := by
  unfold insertSorted
  generalize hpos : results.findIdx (fun p => decide (newPassage.Score > p.Score)) = pos
  have hle : pos ≤ results.length := by
    rw [← hpos]; exact List.findIdx_le_length _
  dsimp only
  by_cases h1 : (pos : Int) ≥ maxResults
  · rw [if_pos h1, if_pos h1]
  · rw [if_neg h1, if_neg h1]
    by_cases h2 : (results.length : Int) < maxResults ∧ pos = results.length
    · rw [if_pos h2]
      obtain ⟨h2a, h2b⟩ := h2
      subst h2b
      rw [List.take_length, List.drop_length, List.take_of_length_le]
      simp
      omega
    · rw [if_neg h2]
      have hlt : pos < results.length := by
        by_cases h3 : (results.length : Int) < maxResults
        · have : pos ≠ results.length := fun e => h2 ⟨h3, e⟩
          omega
        · omega
      obtain ⟨a, x, b, rfl, ha, hta, hdb⟩ := exists_split_at results pos hlt
      rw [← hta, ← hdb]
      subst ha
      by_cases h3 : ((a ++ x :: b).length : Int) < maxResults
      · rw [if_pos h3]
        have e1 : a ++ x :: b ++ [Passage.zero] = a ++ x :: (b ++ [Passage.zero]) := by simp
        rw [e1, shift_insert]
        have e2 : (x :: (b ++ [Passage.zero])).take (b ++ [Passage.zero]).length = x :: b := by
          simp
        rw [e2]
        have hlen : ((a ++ newPassage :: x :: b).length : Int) ≤ maxResults := by
          simp at h3 ⊢
          omega
        rw [if_neg (by omega), List.take_of_length_le]
        omega
      · rw [if_neg h3, shift_insert]
        have e2 : a ++ newPassage :: (x :: b).take b.length
            = (a ++ newPassage :: x :: b).take (a ++ x :: b).length := by
          rw [List.take_append_eq_append_take]
          simp
        rw [e2]
        have hl : ((a ++ newPassage :: x :: b).take (a ++ x :: b).length).length
            = (a ++ x :: b).length := by
          simp
        rw [hl]
        by_cases h4 : ((a ++ x :: b).length : Int) > maxResults
        · rw [if_pos h4, List.take_take]
          congr 1
          omega
        · rw [if_neg h4]
          congr 1
          omega

theorem sortedDesc_insert_at (results : List (Passage K)) (newPassage : Passage K)
    (hs : SortedDesc results) :
    SortedDesc
      (results.take (results.findIdx (fun p => decide (newPassage.Score > p.Score)))
        ++ newPassage ::
          results.drop (results.findIdx (fun p => decide (newPassage.Score > p.Score)))) := by
  generalize hpos : results.findIdx (fun p => decide (newPassage.Score > p.Score)) = pos
  have hbefore : ∀ p ∈ results.take pos, p.Score ≥ newPassage.Score := by
    intro p hp
    rw [← hpos] at hp
    have := findIdx_take_false _ results p hp
    simpa using this
  have hhead : ∀ p, (results.drop pos).head? = some p → p.Score < newPassage.Score := by
    intro p hp
    rw [← hpos] at hp
    have := findIdx_drop_head _ results p hp
    simpa using this
  have hsplit : SortedDesc (results.take pos ++ results.drop pos) := by
    rw [List.take_append_drop]; exact hs
  unfold SortedDesc at hsplit ⊢
  rw [List.pairwise_append] at hsplit ⊢
  obtain ⟨ht, hd, hcross⟩ := hsplit
  have hafter : ∀ p ∈ results.drop pos, newPassage.Score ≥ p.Score := by
    intro p hp
    cases hdr : results.drop pos with
    | nil => rw [hdr] at hp; simp at hp
    | cons h rest =>
      have hh : h.Score < newPassage.Score := hhead h (by rw [hdr]; rfl)
      rw [hdr] at hp hd
      rcases List.mem_cons.1 hp with rfl | hp'
      · exact le_of_lt hh
      · have : h.Score ≥ p.Score := (List.pairwise_cons.1 hd).1 p hp'
        exact le_trans this (le_of_lt hh)
  refine ⟨ht, List.pairwise_cons.2 ⟨hafter, hd⟩, ?_⟩
  intro a ha b hb
  rcases List.mem_cons.1 hb with rfl | hb'
  · exact hbefore a ha
  · exact hcross a ha b hb'

theorem sortedDesc_insertSorted (results : List (Passage K)) (newPassage : Passage K)
    (maxResults : Int) (hs : SortedDesc results) :
    SortedDesc (insertSorted results newPassage maxResults) := by
  rw [insertSorted_eq]
  split
  · exact hs
  · exact List.Pairwise.take (sortedDesc_insert_at results newPassage hs)

theorem length_insertSorted_le (results : List (Passage K)) (newPassage : Passage K)
    (maxResults : Int) (hl : (results.length : Int) ≤ maxResults) :
    ((insertSorted results newPassage maxResults).length : Int) ≤ maxResults := by
  rw [insertSorted_eq]
  split
  · exact hl
  · rw [List.length_take]
    omega

theorem insertAll_sorted_bounded (candidates : List (Passage K)) (maxResults : Int) :
    ∀ results : List (Passage K), SortedDesc results → (results.length : Int) ≤ maxResults →
      SortedDesc (insertAll results candidates maxResults) ∧
        ((insertAll results candidates maxResults).length : Int) ≤ maxResults := by
  induction candidates with
  | nil => intro results hs hl; exact ⟨hs, hl⟩
  | cons c rest ih =>
    intro results hs hl
    exact ih _ (sortedDesc_insertSorted results c maxResults hs)
      (length_insertSorted_le results c maxResults hl)

end InsertSorted

/-- C5. For a list of passages sorted by non-increasing score with length at
most `maxResults`, any candidate and any `maxResults`, `insertSorted` returns a
list that is again sorted by non-increasing score and has length at most
`maxResults`; hence both hold after any sequence of insertions that starts from
the empty list. -/
theorem C5_insertSorted_keeps_sorted_bounded {K : Type} [LinearOrderedField K]
    (results : List (Passage K)) (newPassage : Passage K) (maxResults : Int)
    (hs : SortedDesc results) (hl : (results.length : Int) ≤ maxResults) :
    (SortedDesc (insertSorted results newPassage maxResults) ∧
      ((insertSorted results newPassage maxResults).length : Int) ≤ maxResults) ∧
    ∀ candidates : List (Passage K),
      SortedDesc (insertAll [] candidates maxResults) ∧
        ((insertAll [] candidates maxResults).length : Int) ≤ maxResults := by
  refine ⟨⟨sortedDesc_insertSorted results newPassage maxResults hs,
    length_insertSorted_le results newPassage maxResults hl⟩, fun candidates => ?_⟩
  apply insertAll_sorted_bounded candidates maxResults [] List.Pairwise.nil
  have : (0 : Int) ≤ (results.length : Int) := Int.ofNat_nonneg _
  simp only [List.length_nil, Nat.cast_zero]
  omega

theorem C5_insertSorted_keeps_sorted_bounded_witness :
    SortedDesc [examplePassage 9, examplePassage 5, examplePassage 5] ∧
    (([examplePassage 9, examplePassage 5, examplePassage 5].length : Nat) : Int) ≤ 3 ∧
    (insertSorted [examplePassage 9, examplePassage 5, examplePassage 5] (examplePassage 7) 3).map
        Passage.Score = [9, 7, 5] ∧
    ((SortedDesc
        (insertSorted [examplePassage 9, examplePassage 5, examplePassage 5] (examplePassage 7) 3) ∧
      ((insertSorted [examplePassage 9, examplePassage 5, examplePassage 5]
          (examplePassage 7) 3).length : Int) ≤ 3) ∧
    ∀ candidates : List (Passage ℚ),
      SortedDesc (insertAll [] candidates 3) ∧
        ((insertAll [] candidates 3).length : Int) ≤ 3) :=
  ⟨by unfold SortedDesc; decide!, by decide, by decide!,
    C5_insertSorted_keeps_sorted_bounded
      [examplePassage 9, examplePassage 5, examplePassage 5] (examplePassage 7) 3
      (by unfold SortedDesc; decide!) (by decide)⟩

/-- C6. `insertSorted` places the candidate at `pos`, the first index whose
existing score is strictly less than the candidate's (every entry before `pos`
scores at least as much as the candidate, the entry at `pos`, if any, scores
strictly less, so the candidate goes after equal scores); the other entries keep
their relative order, and the first `maxResults` entries of that insertion are
returned; when `pos ≥ maxResults` the candidate is discarded and the list is
returned unchanged. -/
theorem C6_insertSorted_position {K : Type} [LinearOrderedField K]
    (results : List (Passage K)) (newPassage : Passage K) (maxResults : Int) :
    ∃ pos : Nat, pos ≤ results.length ∧
      (∀ p ∈ results.take pos, p.Score ≥ newPassage.Score) ∧
      (∀ p, (results.drop pos).head? = some p → p.Score < newPassage.Score) ∧
      insertSorted results newPassage maxResults
        = if (pos : Int) ≥ maxResults then results
          else (results.take pos ++ newPassage :: results.drop pos).take maxResults.toNat := by
  refine ⟨results.findIdx (fun p => decide (newPassage.Score > p.Score)),
    List.findIdx_le_length _, ?_, ?_, insertSorted_eq results newPassage maxResults⟩
  · intro p hp
    have := findIdx_take_false _ results p hp
    simpa using this
  · intro p hp
    have := findIdx_drop_head _ results p hp
    simpa using this

/-- C7. For a list of exactly `maxResults` passages sorted by non-increasing
score and a candidate whose score is below that of the list's last entry,
`insertSorted` returns the list unchanged. -/
theorem C7_insertSorted_below_minimum_unchanged {K : Type} [LinearOrderedField K]
    (results : List (Passage K)) (newPassage last : Passage K) (maxResults : Int)
    (hs : SortedDesc results) (hlen : (results.length : Int) = maxResults)
    (hlast : results.getLast? = some last) (hlt : newPassage.Score < last.Score) :
    insertSorted results newPassage maxResults = results := by
  have hall : ∀ p ∈ results, decide (newPassage.Score > p.Score) = false := by
    intro p hp
    obtain ⟨init, rfl⟩ : ∃ init, results = init ++ [last] := by
      refine ⟨results.dropLast, ?_⟩
      have hne : results ≠ [] := by
        intro e; rw [e] at hlast; simp at hlast
      have h1 := List.dropLast_append_getLast hne
      rw [List.getLast?_eq_getLast _ hne] at hlast
      rw [← Option.some.inj hlast]
      exact h1.symm
    unfold SortedDesc at hs
    rw [List.pairwise_append] at hs
    have hp_ge : p.Score ≥ last.Score := by
      rcases List.mem_append.1 hp with h | h
      · exact hs.2.2 p h last (List.mem_singleton_self _)
      · rw [List.mem_singleton.1 h]
    have : ¬ newPassage.Score > p.Score := not_lt.2 (le_trans (le_of_lt hlt) hp_ge)
    simpa using this
  have hidx : results.findIdx (fun p => decide (newPassage.Score > p.Score)) = results.length :=
    List.findIdx_eq_length.2 hall
  rw [insertSorted_eq, hidx, if_pos (by omega)]

theorem C7_insertSorted_below_minimum_unchanged_witness :
    SortedDesc [examplePassage 9, examplePassage 5] ∧
    (([examplePassage 9, examplePassage 5].length : Nat) : Int) = 2 ∧
    [examplePassage 9, examplePassage 5].getLast? = some (examplePassage 5) ∧
    (examplePassage 4).Score < (examplePassage 5).Score ∧
    insertSorted [examplePassage 9, examplePassage 5] (examplePassage 4) 2
      = [examplePassage 9, examplePassage 5] :=
  ⟨by unfold SortedDesc; decide!, by decide, by rfl, by decide!,
    C7_insertSorted_below_minimum_unchanged [examplePassage 9, examplePassage 5]
      (examplePassage 4) (examplePassage 5) 2 (by unfold SortedDesc; decide!) (by decide)
      (by rfl) (by decide!)⟩

/-! ## Running statistics -/

section Welford

variable {K : Type} [LinearOrderedField K]

theorem updateAll_snoc (xs : List K) (x : K) :
    updateAll (xs ++ [x]) = (updateAll xs).Update x := by
  simp [updateAll, List.foldl_append]

theorem sumSqDev_snoc (xs : List K) (x c : K) :
    sumSqDev (xs ++ [x]) c = sumSqDev xs c + (x - c) ^ 2 := by
  simp [sumSqDev]

/-- Moving the centre of the squared deviations from `μ` to `c`. -/
theorem sumSqDev_shift (xs : List K) (μ c : K) :
    sumSqDev xs c
      = sumSqDev xs μ + 2 * (μ - c) * (xs.sum - (xs.length : K) * μ)
        + (xs.length : K) * (μ - c) ^ 2 := by
  induction xs with
  | nil => simp [sumSqDev]
  | cons x rest ih =>
    have h1 : sumSqDev (x :: rest) c = (x - c) ^ 2 + sumSqDev rest c := by simp [sumSqDev]
    have h2 : sumSqDev (x :: rest) μ = (x - μ) ^ 2 + sumSqDev rest μ := by simp [sumSqDev]
    rw [h1, h2, ih]
    simp only [List.sum_cons, List.length_cons, Nat.cast_add, Nat.cast_one]
    ring

/-- Welford's invariant, in a form free of division. -/
theorem updateAll_invariant (xs : List K) :
    (updateAll xs).FilesProcessed = (xs.length : Int) ∧
    (updateAll xs).Sum = xs.sum ∧
    (xs.length : K) * (updateAll xs).Mean = xs.sum ∧
    (updateAll xs).M2 = sumSqDev xs (updateAll xs).Mean := by
  induction xs using List.reverseRecOn with
  | nil => simp [updateAll, NewStats, sumSqDev]
  | append_singleton xs x ih =>
    obtain ⟨hn, hsum, hmean, hm2⟩ := ih
    rw [updateAll_snoc]
    have hn1 : ((xs.length : K) + 1) ≠ 0 := by positivity
    have hcast : (((updateAll xs).FilesProcessed + 1 : Int) : K) = (xs.length : K) + 1 := by
      rw [hn]; push_cast; rfl
    refine ⟨?_, ?_, ?_, ?_⟩
    · simp [Stats.Update, hn]
    · simp [Stats.Update, hsum]
    · simp only [Stats.Update, hcast, List.length_append, List.length_singleton, Nat.cast_add,
        Nat.cast_one, List.sum_append, List.sum_singleton]
      rw [← hmean]
      field_simp
      ring
    · simp only [Stats.Update, hcast]
      rw [sumSqDev_snoc, sumSqDev_shift xs (updateAll xs).Mean, hm2, ← hmean]
      field_simp
      ring

theorem updateAll_mean (xs : List K) (hne : xs ≠ []) :
    (updateAll xs).Mean = xs.sum / (xs.length : K) := by
  have h := (updateAll_invariant xs).2.2.1
  have hpos : (xs.length : K) ≠ 0 := by
    have : 0 < xs.length := List.length_pos.2 hne
    positivity
  rw [eq_div_iff hpos, mul_comm]
  exact h

end Welford

/-- C8. After a non-empty sequence of scores `x1..xn` has been applied by
`Update` to a `Stats` made by `NewStats` (exact arithmetic), `FilesProcessed` is
`n`, `Sum` is `x1 + ... + xn`, `Mean` is `Sum / n` and `M2` is the sum of the
squared deviations `(xi - Mean)^2`. -/
theorem C8_welford_update {K : Type} [LinearOrderedField K] (xs : List K) (hne : xs ≠ []) :
    (updateAll xs).FilesProcessed = (xs.length : Int) ∧
    (updateAll xs).Sum = xs.sum ∧
    (updateAll xs).Mean = (updateAll xs).Sum / (xs.length : K) ∧
    (updateAll xs).M2 = (xs.map (fun x => (x - (updateAll xs).Mean) ^ 2)).sum := by
  obtain ⟨hn, hsum, _, hm2⟩ := updateAll_invariant xs
  exact ⟨hn, hsum, by rw [hsum]; exact updateAll_mean xs hne, hm2⟩

theorem C8_welford_update_witness :
    ([5, 10, 15] : List ℚ) ≠ [] ∧
    (updateAll ([5, 10, 15] : List ℚ)).Mean = 10 ∧
    (updateAll ([5, 10, 15] : List ℚ)).MaxScore = 15 ∧
    (updateAll ([5, 10, 15] : List ℚ)).MinScore = 5 ∧
    (updateAll ([5, 10, 15] : List ℚ)).M2 = 50 ∧
    (updateAll ([5, 10, 15] : List ℚ)).M2 / 3 = 50 / 3 ∧
    ((4082 : ℚ) / 1000) ^ 2 < (updateAll ([5, 10, 15] : List ℚ)).M2 / 3 ∧
    (updateAll ([5, 10, 15] : List ℚ)).M2 / 3 < ((4083 : ℚ) / 1000) ^ 2 ∧
    ((updateAll ([5, 10, 15] : List ℚ)).FilesProcessed = (([5, 10, 15] : List ℚ).length : Int) ∧
      (updateAll ([5, 10, 15] : List ℚ)).Sum = ([5, 10, 15] : List ℚ).sum ∧
      (updateAll ([5, 10, 15] : List ℚ)).Mean
        = (updateAll ([5, 10, 15] : List ℚ)).Sum / (([5, 10, 15] : List ℚ).length : ℚ) ∧
      (updateAll ([5, 10, 15] : List ℚ)).M2
        = (([5, 10, 15] : List ℚ).map
            (fun x => (x - (updateAll ([5, 10, 15] : List ℚ)).Mean) ^ 2)).sum) :=
  ⟨by decide, by decide!, by decide!, by decide!, by decide!, by decide!, by decide!, by decide!,
    C8_welford_update ([5, 10, 15] : List ℚ) (by decide)⟩

/-- C9, as the code has it. For every score `s` with `-1 ≤ s ≤ MaxFloat64` (in
particular every non-negative finite score) the first `Update s` on a `Stats`
made by `NewStats` sets both `MaxScore` and `MinScore` to `s`. -/
theorem C9_first_update_sets_max_min {K : Type} [LinearOrderedField K] (s : K)
    (hlo : -1 ≤ s) (hhi : s ≤ MaxFloat64) :
    ((NewStats : Stats K).Update s).MaxScore = s ∧
      ((NewStats : Stats K).Update s).MinScore = s := by
  constructor
  · simp only [Stats.Update, NewStats]
    split
    · rfl
    · rename_i h
      have hle : s ≤ -1 := not_lt.1 h
      exact le_antisymm hlo hle
  · simp only [Stats.Update, NewStats]
    split
    · rfl
    · rename_i h
      have hge : MaxFloat64 ≤ s := not_lt.1 h
      exact le_antisymm hge hhi

theorem C9_first_update_sets_max_min_witness :
    (-1 : ℚ) ≤ 20 ∧ (20 : ℚ) ≤ MaxFloat64 ∧
    ((NewStats : Stats ℚ).Update 20).MaxScore = 20 ∧
      ((NewStats : Stats ℚ).Update 20).MinScore = 20 :=
  ⟨by decide!, by decide!, C9_first_update_sets_max_min (20 : ℚ) (by decide!) (by decide!)⟩

/-- C9 as stated fails: a first `Update (-2)` leaves `MaxScore` at the sentinel
`-1`, so not every score is taken over as the maximum. -/
theorem C9_first_update_counterexample :
    ((NewStats : Stats ℚ).Update (-2)).MaxScore = -1 ∧
    ¬ (∀ s : ℚ, ((NewStats : Stats ℚ).Update s).MaxScore = s ∧
        ((NewStats : Stats ℚ).Update s).MinScore = s) := by
  refine ⟨by decide!, fun h => ?_⟩
  have h2 := (h (-2)).1
  revert h2
  decide!

section StdDev

variable {K : Type} [LinearOrderedField K]

theorem sumSqDev_nonneg (xs : List K) (c : K) : 0 ≤ sumSqDev xs c := by
  unfold sumSqDev
  apply List.sum_nonneg
  intro y hy
  obtain ⟨x, _, rfl⟩ := List.mem_map.1 hy
  exact sq_nonneg _

end StdDev

/-- C10. `StdDev` returns `0` whenever `FilesProcessed < 2`, and otherwise the
square root of `M2 / FilesProcessed`; for the stats of at least two recorded
scores its square is their population variance: the sum of the squared
deviations from their mean divided by their number `n` (not `n - 1`). Here
`sqrt` is any exact square root on the non-negative numbers. -/
theorem C10_stddev_population {K : Type} [LinearOrderedField K] (sqrt : K → K)
    (hsqrt : ∀ v : K, 0 ≤ v → sqrt v ^ 2 = v) (s : Stats K) (xs : List K) :
    (s.FilesProcessed < 2 → s.StdDev sqrt = 0) ∧
    (2 ≤ s.FilesProcessed → s.StdDev sqrt = sqrt (s.M2 / (s.FilesProcessed : K))) ∧
    (2 ≤ xs.length →
      (updateAll xs).StdDev sqrt ^ 2
        = sumSqDev xs (xs.sum / (xs.length : K)) / (xs.length : K)) := by
  refine ⟨fun h => by simp [Stats.StdDev, h], fun h => ?_, fun h => ?_⟩
  · have : ¬ s.FilesProcessed < 2 := by omega
    simp [Stats.StdDev, this]
  · obtain ⟨hn, _, _, hm2⟩ := updateAll_invariant xs
    have hne : xs ≠ [] := by
      intro e; rw [e] at h; simp at h
    have hlt : ¬ (updateAll xs).FilesProcessed < 2 := by rw [hn]; omega
    have hcast : (((updateAll xs).FilesProcessed : Int) : K) = (xs.length : K) := by
      rw [hn]; push_cast; rfl
    simp only [Stats.StdDev, hlt, if_false, hcast]
    rw [hsqrt, hm2, updateAll_mean xs hne]
    rw [hm2]
    exact div_nonneg (sumSqDev_nonneg _ _) (Nat.cast_nonneg _)

theorem C10_stddev_population_witness :
    (∀ v : ℝ, 0 ≤ v → Real.sqrt v ^ 2 = v) ∧
    (updateAll ([1, 3] : List ℝ)).StdDev Real.sqrt = 1 ∧
    (((NewStats : Stats ℝ).Update 7).FilesProcessed < 2 →
      ((NewStats : Stats ℝ).Update 7).StdDev Real.sqrt = 0) ∧
    (2 ≤ ((NewStats : Stats ℝ).Update 7).FilesProcessed →
      ((NewStats : Stats ℝ).Update 7).StdDev Real.sqrt
        = Real.sqrt (((NewStats : Stats ℝ).Update 7).M2
            / (((NewStats : Stats ℝ).Update 7).FilesProcessed : ℝ))) ∧
    (2 ≤ ([1, 3] : List ℝ).length →
      (updateAll ([1, 3] : List ℝ)).StdDev Real.sqrt ^ 2
        = sumSqDev ([1, 3] : List ℝ) (([1, 3] : List ℝ).sum / (([1, 3] : List ℝ).length : ℝ))
            / (([1, 3] : List ℝ).length : ℝ)) :=
  ⟨fun v hv => Real.sq_sqrt hv,
    by norm_num [updateAll, Stats.Update, NewStats, Stats.StdDev],
    C10_stddev_population Real.sqrt (fun v hv => Real.sq_sqrt hv)
      ((NewStats : Stats ℝ).Update 7) ([1, 3] : List ℝ)⟩

/-! ## Bigram extraction and word normalisation -/

section Extract

theorem range_map_pairs (l : List Char) :
    (List.range (l.length - 1)).map (fun i => String.mk ((l.drop i).take 2))
      = List.zipWith (fun a b => String.mk [a, b]) l l.tail := by
  apply List.ext_getElem
  · simp
  · intro i h1 h2
    simp only [List.length_map, List.length_range] at h1
    have hi : i < l.length := by omega
    have hi1 : i + 1 < l.length := by omega
    simp only [List.getElem_map, List.getElem_range, List.getElem_zipWith, List.getElem_tail]
    congr 1
    rw [← List.getElem_cons_drop l i hi, ← List.getElem_cons_drop l (i + 1) hi1]
    rfl

theorem getD_last_cons (c : Char) (cs : List Char) :
    (c :: cs).getD ((c :: cs).length - 1) ' ' = (c :: cs).getLast (List.cons_ne_nil c cs) := by
  rw [List.getLast_eq_getElem]
  simp [List.getD_eq_getElem?_getD]

theorem getD_snoc_last (p : List Char) (c : Char) :
    (p ++ [c]).getD ((p ++ [c]).length - 1) ' ' = c := by
  simp [List.getD_eq_getElem?_getD]

theorem take_snoc_init (p : List Char) (c : Char) :
    (p ++ [c]).take ((p ++ [c]).length - 1) = p := by
  simp

theorem dropTerminalPunctuation_snoc (p : List Char) (c : Char) :
    dropTerminalPunctuation (p ++ [c])
      = if ".,;:!?".data.contains c then p else p ++ [c] := by
  unfold dropTerminalPunctuation
  rw [if_neg (by simp), getD_snoc_last, take_snoc_init]

theorem dropTerminalPunctuation_nil : dropTerminalPunctuation [] = [] := by
  simp [dropTerminalPunctuation]

theorem normalizeWord_eq (w : String) :
    normalizeWord w = String.mk (collapseCommonApostraphes (dropTerminalPunctuation w.data)) := by
  simp [normalizeWord]

theorem getD_append_at (p q : List Char) (i : Nat) :
    (p ++ q).getD (p.length + i) ' ' = q.getD i ' ' := by
  rw [List.getD_append_right _ _ _ _ (by omega)]
  congr 1
  omega

/-- The first rule of `collapseCommonApostraphes`: apostrophe, then one of
`m s d t`. -/
theorem collapse_apostrophe_letter (p : List Char) (a c : Char) (ha : isApostrophe a = true)
    (hc : c ∈ ['m', 's', 'd', 't']) :
    collapseCommonApostraphes (p ++ [a, c]) = p ++ [c] := by
  have hlen : (p ++ [a, c]).length = p.length + 2 := by simp
  have h2 : (p ++ [a, c]).getD (p.length + 2 - 2) ' ' = a := by
    have := getD_append_at p [a, c] 0
    simpa using this
  have h1 : (p ++ [a, c]).getD (p.length + 2 - 1) ' ' = c := by
    have := getD_append_at p [a, c] 1
    simpa using this
  have ht : (p ++ [a, c]).take (p.length + 2 - 2) = p := by
    simp
  have hcc : ['m', 's', 'd', 't'].contains c = true := by simpa using hc
  unfold collapseCommonApostraphes
  rw [hlen, if_neg (by omega)]
  simp only [h2, h1, ht, ha, hcc]
  simp

/-- The second rule of `collapseCommonApostraphes`: a non-empty prefix, an
apostrophe, then `re`, `ve` or `ll`. -/
theorem collapse_apostrophe_pair (p : List Char) (a x y : Char) (hp : p ≠ [])
    (ha : isApostrophe a = true) (hs : String.mk [x, y] ∈ ["re", "ve", "ll"]) :
    collapseCommonApostraphes (p ++ [a, x, y]) = p ++ [x, y] := by
  have hpl : 0 < p.length := List.length_pos.2 hp
  have hlen : (p ++ [a, x, y]).length = p.length + 3 := by simp
  have h3 : (p ++ [a, x, y]).getD (p.length + 3 - 3) ' ' = a := by
    have := getD_append_at p [a, x, y] 0
    simpa using this
  have h2 : (p ++ [a, x, y]).getD (p.length + 3 - 2) ' ' = x := by
    have := getD_append_at p [a, x, y] 1
    simpa using this
  have ht : (p ++ [a, x, y]).take (p.length + 3 - 3) = p := by
    simp
  have hd : (p ++ [a, x, y]).drop (p.length + 3 - 2) = [x, y] := by
    rw [List.drop_append_eq_append_drop]
    simp
  have hx : isApostrophe x = false := by
    have : x = 'r' ∨ x = 'v' ∨ x = 'l' := by
      simp only [List.mem_cons, List.mem_singleton, List.not_mem_nil, or_false] at hs
      rcases hs with h | h | h
      · have := congrArg String.data h
        simp at this
        exact Or.inl this.1
      · have := congrArg String.data h
        simp at this
        exact Or.inr (Or.inl this.1)
      · have := congrArg String.data h
        simp at this
        exact Or.inr (Or.inr this.1)
    rcases this with rfl | rfl | rfl <;> decide
  have hcc : ["re", "ve", "ll"].contains (String.mk [x, y]) = true := by simpa using hs
  have h4 : 4 ≤ p.length + 3 := by omega
  unfold collapseCommonApostraphes
  rw [hlen, if_neg (by omega)]
  simp only [h3, h2, ht, hd, ha, hx, hcc, h4]
  simp

/-- A word ending in one of `m s d t` whose previous character is no apostrophe
is left alone by `collapseCommonApostraphes`. -/
theorem collapse_unchanged (p : List Char) (c : Char) (hc : c ∈ ['m', 's', 'd', 't'])
    (hp : ∀ x, p.getLast? = some x → isApostrophe x = false) :
    collapseCommonApostraphes (p ++ [c]) = p ++ [c] := by
  rcases List.eq_nil_or_concat p with rfl | ⟨q, x, hq⟩
  · simp [collapseCommonApostraphes]
  · rw [List.concat_eq_append] at hq
    subst hq
    have hx : isApostrophe x = false := hp x (by simp)
    have hlen : (q ++ [x] ++ [c]).length = q.length + 2 := by simp
    have e : q ++ [x] ++ [c] = q ++ [x, c] := by simp
    have h2 : (q ++ [x] ++ [c]).getD (q.length + 2 - 2) ' ' = x := by
      rw [e]
      have := getD_append_at q [x, c] 0
      simpa using this
    have hd : (q ++ [x] ++ [c]).drop (q.length + 2 - 2) = [x, c] := by
      rw [e, List.drop_append_eq_append_drop]
      simp
    have hnot : ["re", "ve", "ll"].contains (String.mk [x, c]) = false := by
      have hne : String.mk [x, c] ∉ ["re", "ve", "ll"] := by
        intro hmem
        simp only [List.mem_cons, List.mem_singleton, List.not_mem_nil, or_false] at hmem
        have hce : c = 'e' ∨ c = 'l' := by
          rcases hmem with h | h | h
          · have := congrArg String.data h
            simp at this
            exact Or.inl this.2
          · have := congrArg String.data h
            simp at this
            exact Or.inl this.2
          · have := congrArg String.data h
            simp at this
            exact Or.inr this.2
        simp only [List.mem_cons, List.mem_singleton, List.not_mem_nil, or_false] at hc
        rcases hce with rfl | rfl <;> rcases hc with h | h | h | h <;> exact absurd h (by decide)
      simpa using hne
    unfold collapseCommonApostraphes
    rw [hlen, if_neg (by omega)]
    simp only [h2, hd, hx, hnot]
    simp

theorem isApostrophe_iff (a : Char) : isApostrophe a = true ↔ a ∈ apostropheVariants := by
  simp [isApostrophe, apostropheVariants]

theorem punct_contains_iff (c : Char) :
    ".,;:!?".data.contains c = true ↔ c ∈ terminalPunctuation := by
  have : ".,;:!?".data = terminalPunctuation := by decide
  rw [this]
  simp

theorem not_punct_of_letter {c : Char} (hc : c ∈ ['m', 's', 'd', 't']) :
    ".,;:!?".data.contains c = false := by
  simp only [List.mem_cons, List.mem_singleton, List.not_mem_nil, or_false] at hc
  rcases hc with rfl | rfl | rfl | rfl <;> decide

theorem extract_eq_of_normalize_eq {w₁ w₂ : String} (h : normalizeWord w₁ = normalizeWord w₂) :
    extractBigramsFromWord w₁ = extractBigramsFromWord w₂ := by
  unfold extractBigramsFromWord
  rw [h]

end Extract

/-- C11. For a word whose normalized form has the characters `c1..cn`, `n ≥ 1`,
`extractBigramsFromWord` returns exactly `n + 1` bigrams in this order: `_c1`,
then `ci c(i+1)` for each adjacent pair, then `cn_`; for a word whose
normalized form is empty it returns the empty sequence. -/
theorem C11_extract_bigrams_shape (word : String) :
    ((normalizeWord word).data = [] → extractBigramsFromWord word = []) ∧
    (∀ (c : Char) (cs : List Char), (normalizeWord word).data = c :: cs →
      extractBigramsFromWord word
        = String.mk ['_', c] ::
            (List.zipWith (fun a b => String.mk [a, b]) (c :: cs) cs
              ++ [String.mk [(c :: cs).getLast (List.cons_ne_nil c cs), '_']]) ∧
      (extractBigramsFromWord word).length = (c :: cs).length + 1) := by
  constructor
  · intro h
    simp [extractBigramsFromWord, h]
  · intro c cs h
    have hform : extractBigramsFromWord word
        = String.mk ['_', c] ::
            (List.zipWith (fun a b => String.mk [a, b]) (c :: cs) cs
              ++ [String.mk [(c :: cs).getLast (List.cons_ne_nil c cs), '_']]) := by
      unfold extractBigramsFromWord
      simp only [h]
      rw [if_neg (by simp), range_map_pairs, getD_last_cons]
      simp
    refine ⟨hform, ?_⟩
    rw [hform]
    simp

/-- C12. For a word `p + a + c` where `a` is one of the five apostrophe
variants, `c` is one of `m s d t` and the prefix `p` does not itself end in an
apostrophe variant, `extractBigramsFromWord (p + a + c)` equals
`extractBigramsFromWord (p + c)`. -/
theorem C12_extract_contraction (p : List Char) (a c : Char) (ha : a ∈ apostropheVariants)
    (hc : c ∈ ['m', 's', 'd', 't'])
    (hp : ∀ x, p.getLast? = some x → x ∉ apostropheVariants) :
    extractBigramsFromWord (String.mk (p ++ [a, c]))
      = extractBigramsFromWord (String.mk (p ++ [c])) := by
  apply extract_eq_of_normalize_eq
  have ha' : isApostrophe a = true := (isApostrophe_iff a).2 ha
  have hp' : ∀ x, p.getLast? = some x → isApostrophe x = false := by
    intro x hx
    have := hp x hx
    rw [← isApostrophe_iff] at this
    simpa using this
  have e : p ++ [a, c] = (p ++ [a]) ++ [c] := by simp
  rw [normalizeWord_eq, normalizeWord_eq]
  simp only []
  rw [e, dropTerminalPunctuation_snoc, dropTerminalPunctuation_snoc, not_punct_of_letter hc]
  simp only [Bool.false_eq_true, if_false]
  rw [← e, collapse_apostrophe_letter p a c ha' hc, collapse_unchanged p c hc hp']

theorem C12_extract_contraction_witness :
    Char.ofNat 0x27 ∈ apostropheVariants ∧ 't' ∈ ['m', 's', 'd', 't'] ∧
    (∀ x, ['d', 'o', 'n'].getLast? = some x → x ∉ apostropheVariants) ∧
    extractBigramsFromWord (String.mk (['d', 'o', 'n'] ++ [Char.ofNat 0x27, 't']))
      = ["_d", "do", "on", "nt", "t_"] ∧
    extractBigramsFromWord (String.mk (['d', 'o', 'n'] ++ [Char.ofNat 0x27, 't']))
      = extractBigramsFromWord (String.mk (['d', 'o', 'n'] ++ ['t'])) :=
  ⟨by decide, by decide, by decide, by decide,
    C12_extract_contraction ['d', 'o', 'n'] (Char.ofNat 0x27) 't' (by decide) (by decide)
      (by decide)⟩

/-- C13, as the code has it. For a word of at least four characters (after the
trailing-punctuation step), that is one with a non-empty prefix `p`, whose
third-from-last character is an apostrophe variant and whose final two
characters spell `re`, `ve` or `ll`, `normalizeWord` removes that apostrophe and
keeps the prefix and the two-letter suffix unchanged. -/
theorem C13_normalize_long_contraction (w : String) (p : List Char) (a x y : Char)
    (hw : dropTerminalPunctuation w.data = p ++ [a, x, y]) (hp : p ≠ [])
    (ha : a ∈ apostropheVariants) (hs : String.mk [x, y] ∈ ["re", "ve", "ll"]) :
    normalizeWord w = String.mk (p ++ [x, y]) := by
  rw [normalizeWord_eq, hw, collapse_apostrophe_pair p a x y hp ((isApostrophe_iff a).2 ha) hs]

theorem C13_normalize_long_contraction_witness :
    dropTerminalPunctuation (String.mk ['w', 'e', Char.ofNat 0x2019, 'l', 'l', ',']).data
      = ['w', 'e'] ++ [Char.ofNat 0x2019, 'l', 'l'] ∧
    ['w', 'e'] ≠ [] ∧ Char.ofNat 0x2019 ∈ apostropheVariants ∧
    String.mk ['l', 'l'] ∈ ["re", "ve", "ll"] ∧
    normalizeWord (String.mk ['w', 'e', Char.ofNat 0x2019, 'l', 'l', ','])
      = String.mk (['w', 'e'] ++ ['l', 'l']) :=
  ⟨by decide, by decide, by decide, by decide,
    C13_normalize_long_contraction (String.mk ['w', 'e', Char.ofNat 0x2019, 'l', 'l', ','])
      ['w', 'e'] (Char.ofNat 0x2019) 'l' 'l' (by decide) (by decide) (by decide) (by decide)⟩

/-- C13 as stated fails: the three-character word apostrophe, `r`, `e` has an
apostrophe third from last and ends in `re`, yet `normalizeWord` returns it
unchanged, because the rule asks for at least four characters. -/
theorem C13_normalize_contraction_counterexample :
    normalizeWord (String.mk [Char.ofNat 0x27, 'r', 'e']) = String.mk [Char.ofNat 0x27, 'r', 'e'] ∧
    ¬ (∀ (w : String) (p : List Char) (a x y : Char),
        dropTerminalPunctuation w.data = p ++ [a, x, y] → a ∈ apostropheVariants →
        String.mk [x, y] ∈ ["re", "ve", "ll"] → normalizeWord w = String.mk (p ++ [x, y])) := by
  refine ⟨by decide, fun h => ?_⟩
  have h1 := h (String.mk [Char.ofNat 0x27, 'r', 'e']) [] (Char.ofNat 0x27) 'r' 'e'
    (by decide) (by decide) (by decide)
  revert h1
  decide

/-- C14. `normalizeWord w` is `collapseCommonApostraphes` applied to
`dropTerminalPunctuation w`; `dropTerminalPunctuation` removes exactly the last
character when it is one of `. , ; : ! ?` and otherwise returns the word
unchanged, never more than one character (`a..` becomes `a.`); and since it runs
first, `don` + apostrophe + `t.` normalizes to `dont`. -/
theorem C14_normalize_pipeline (w : String) :
    normalizeWord w = String.mk (collapseCommonApostraphes (dropTerminalPunctuation w.data)) ∧
    (∀ (p : List Char) (c : Char), c ∈ terminalPunctuation →
      dropTerminalPunctuation (p ++ [c]) = p) ∧
    (∀ (p : List Char) (c : Char), c ∉ terminalPunctuation →
      dropTerminalPunctuation (p ++ [c]) = p ++ [c]) ∧
    dropTerminalPunctuation [] = [] ∧
    dropTerminalPunctuation ['a', '.', '.'] = ['a', '.'] ∧
    normalizeWord (String.mk ['d', 'o', 'n', Char.ofNat 0x27, 't', '.']) = "dont" := by
  refine ⟨normalizeWord_eq w, ?_, ?_, dropTerminalPunctuation_nil, by decide, by decide⟩
  · intro p c hc
    rw [dropTerminalPunctuation_snoc, if_pos ((punct_contains_iff c).2 hc)]
  · intro p c hc
    have : ¬ ".,;:!?".data.contains c = true := fun h => hc ((punct_contains_iff c).1 h)
    rw [dropTerminalPunctuation_snoc, if_neg this]

/-! ## Window size, text and eviction -/

section SizeText

variable {K : Type}

theorem foldl_length_sum (ws : List String) (a : Int) :
    ws.foldl (fun totalSize word => totalSize + (word.length : Int)) a
      = a + ((ws.map String.length).sum : Nat) := by
  induction ws generalizing a with
  | nil => simp
  | cons x rest ih =>
    rw [List.foldl_cons, ih]
    simp only [List.map_cons, List.sum_cons, Nat.cast_add]
    ring

theorem size_eq (w : Window K) :
    w.Size = if w.words = [] then 0
      else (((w.words.map String.length).sum : Nat) : Int) + ((w.words.length : Int) - 1) := by
  unfold Window.Size
  by_cases h : w.words = []
  · simp [h]
  · have hl : ¬ w.words.length = 0 := fun e => h (List.length_eq_zero.1 e)
    rw [if_neg hl, if_neg h, foldl_length_sum]
    simp

theorem intercalate_go_length (s : String) (ws : List String) (acc : String) :
    (String.intercalate.go acc s ws).length
      = acc.length + (ws.map (fun x => s.length + x.length)).sum := by
  induction ws generalizing acc with
  | nil => simp [String.intercalate.go]
  | cons x rest ih =>
    rw [String.intercalate.go, ih]
    simp only [String.length_append, List.map_cons, List.sum_cons]
    omega

theorem sum_sep_length (ws : List String) :
    (ws.map (fun y => " ".length + y.length)).sum = (ws.map String.length).sum + ws.length := by
  induction ws with
  | nil => simp
  | cons y ys ih =>
    have h1 : " ".length = 1 := by decide
    simp only [List.map_cons, List.sum_cons, List.length_cons]
    rw [ih, h1]
    omega

theorem text_length (w : Window K) :
    (w.Text.length : Int) = if w.words = [] then 0
      else (((w.words.map String.length).sum : Nat) : Int) + ((w.words.length : Int) - 1) := by
  unfold Window.Text
  cases hw : w.words with
  | nil => simp [String.intercalate]
  | cons x rest =>
    rw [if_neg (List.cons_ne_nil _ _), String.intercalate, intercalate_go_length]
    rw [sum_sep_length]
    simp only [List.map_cons, List.sum_cons, List.length_cons, Nat.cast_add, Nat.cast_one]
    ring

theorem size_ge_last (w : Window K) (ws : List String) (word : String)
    (hw : w.words = ws ++ [word]) : (word.length : Int) ≤ w.Size := by
  rw [size_eq, hw, if_neg (by simp)]
  simp only [List.map_append, List.sum_append, List.map_cons, List.map_nil, List.sum_cons,
    List.sum_nil, List.length_append, List.length_singleton, Nat.cast_add, Nat.cast_one,
    Nat.cast_zero]
  have h1 : (0 : Int) ≤ ((ws.map String.length).sum : Nat) := Int.ofNat_nonneg _
  have h2 : (0 : Int) ≤ (ws.length : Nat) := Int.ofNat_nonneg _
  omega

/-- Eviction when the last held word alone exceeds the limit and no earlier
held word is empty: every word goes, the oversized one included. -/
theorem evictLoop_oversized (maxChars : Int) (word : String)
    (hbig : (word.length : Int) > maxChars) (ws : List String) :
    ∀ (fuel : Nat) (w : Window K), w.words = ws ++ [word] → (∀ x ∈ ws, x ≠ "") →
      ws.length + 2 ≤ fuel → (Window.evictLoop maxChars fuel w).words = [] := by
  induction ws with
  | nil =>
    intro fuel w hw _ hfuel
    obtain ⟨n, rfl⟩ : ∃ n, fuel = n + 2 := ⟨fuel - 2, by simp at hfuel; omega⟩
    have hsz : w.Size > maxChars := lt_of_lt_of_le hbig (size_ge_last w [] word hw)
    have hwords : w.shiftWord.1.words = [] := by rw [shiftWord_words, hw]; rfl
    rw [Window.evictLoop]
    dsimp only
    rw [if_pos hsz]
    split
    · exact hwords
    · rw [Window.evictLoop]
      dsimp only
      split
      · have h2 : w.shiftWord.1.shiftWord.1.words = [] := by
          rw [shiftWord_words, hwords]; rfl
        have h3 : w.shiftWord.1.shiftWord.2 = "" := by
          rw [shiftWord_snd, hwords]; rfl
        rw [if_pos h3]
        exact h2
      · exact hwords
  | cons x rest ih =>
    intro fuel w hw hne hfuel
    obtain ⟨n, rfl⟩ : ∃ n, fuel = n + 1 := ⟨fuel - 1, by simp at hfuel; omega⟩
    have hsz : w.Size > maxChars := lt_of_lt_of_le hbig (size_ge_last w (x :: rest) word hw)
    have hwords : w.shiftWord.1.words = rest ++ [word] := by rw [shiftWord_words, hw]; rfl
    have hx : w.shiftWord.2 = x := by rw [shiftWord_snd, hw]; rfl
    have hxne : x ≠ "" := hne x (List.mem_cons_self _ _)
    rw [Window.evictLoop]
    dsimp only
    rw [if_pos hsz, hx, if_neg hxne]
    apply ih n _ hwords (fun y hy => hne y (List.mem_cons_of_mem _ hy))
    simp at hfuel ⊢
    omega

end SizeText

/-- C15. For every window, `Size` is `0` when no words are held and otherwise
the sum of the held words' character counts plus the number of held words minus
one; consequently `Size` equals the number of characters of `Text`, the held
words joined by single spaces. -/
theorem C15_size_counts_text {K : Type} (w : Window K) :
    (w.words = [] → w.Size = 0) ∧
    (w.words ≠ [] →
      w.Size = (((w.words.map String.length).sum : Nat) : Int) + ((w.words.length : Int) - 1)) ∧
    w.Size = (w.Text.length : Int) := by
  refine ⟨fun h => ?_, fun h => ?_, ?_⟩
  · rw [size_eq, if_pos h]
  · rw [size_eq, if_neg h]
  · rw [size_eq, text_length]

/-- C17, as the code has it. For a window with params whose held words are all
non-empty and a word whose own character length exceeds `MaxChars`, after
`AddWord word` the window holds no words: the oversized word is evicted with
the rest. -/
theorem C17_AddWord_oversized_empties {K : Type} (w : Window K) (p : WindowParams K)
    (word : String) (hp : w.params = some p) (hne : ∀ x ∈ w.words, x ≠ "")
    (hbig : (word.length : Int) > p.MaxChars) :
    (w.AddWord word).words = [] := by
  rw [AddWord_some hp]
  apply evictLoop_oversized p.MaxChars word hbig w.words _ _ (words_pushWord w word) hne
  rw [words_pushWord]
  simp

theorem C17_AddWord_oversized_empties_witness :
    (feedWords (some exampleParams) ["to", "be"]).params = some exampleParams ∧
    (∀ x ∈ (feedWords (some exampleParams) ["to", "be"]).words, x ≠ "") ∧
    (("oversized".length : Nat) : Int) > exampleParams.MaxChars ∧
    (feedWords (some exampleParams) ["to", "be"]).words = ["to", "be"] ∧
    ((feedWords (some exampleParams) ["to", "be"]).AddWord "oversized").words = [] :=
  ⟨feedWords_params _ _, by decide, by decide, by decide,
    C17_AddWord_oversized_empties (feedWords (some exampleParams) ["to", "be"]) exampleParams
      "oversized" (feedWords_params _ _) (by decide) (by decide)⟩

/-- C17 as stated fails: adding the nine-character word `oversized` to an empty
window with `MaxChars = 5` leaves the window empty, not holding that word. -/
theorem C17_AddWord_oversized_counterexample :
    (("oversized".length : Nat) : Int) > exampleParams.MaxChars ∧
    ((NewWindow (some exampleParams)).AddWord "oversized").words = [] ∧
    ¬ (∀ (w : Window ℚ) (p : WindowParams ℚ) (word : String), w.params = some p →
        (word.length : Int) > p.MaxChars → (w.AddWord word).words = [word]) := by
  refine ⟨by decide, by decide, fun h => ?_⟩
  have h1 := h (NewWindow (some exampleParams)) exampleParams "oversized" rfl (by decide)
  revert h1
  decide

/-- C20. `shiftWord` on a window holding no words returns the empty string and
leaves the window, its words and bigram map included, unchanged; on a window
holding `w1..wn`, `n ≥ 1`, it returns `w1` and leaves exactly `w2..wn` held, in
the same order. -/
theorem C20_shiftWord_result {K : Type} (w : Window K) :
    (w.words = [] → w.shiftWord = (w, "")) ∧
    (∀ (w1 : String) (rest : List String), w.words = w1 :: rest →
      w.shiftWord.2 = w1 ∧ w.shiftWord.1.words = rest) := by
  refine ⟨fun h => ?_, fun w1 rest h => ⟨?_, ?_⟩⟩
  · simp [Window.shiftWord, h]
  · rw [shiftWord_snd, h]; rfl
  · rw [shiftWord_words, h]; rfl

/-! ## Loading the weight table -/

section MapFolds

variable {V A : Type}

theorem find?_append (m₁ m₂ : GoMap V) (k : String) :
    GoMap.find? (m₁ ++ m₂) k = (GoMap.find? m₁ k).or (GoMap.find? m₂ k) := by
  unfold GoMap.find?
  exact List.lookup_append

theorem find?_isSome_iff (m : GoMap V) (k : String) :
    (GoMap.find? m k).isSome = true ↔ ∃ v, (k, v) ∈ m := by
  induction m with
  | nil => simp [GoMap.find?_nil]
  | cons e rest ih =>
    obtain ⟨k₀, v₀⟩ := e
    rw [GoMap.find?_cons]
    by_cases h : k = k₀
    · subst h
      simp
    · simp only [h, if_false, ih, List.mem_cons, Prod.mk.injEq, false_and, false_or]

theorem mem_keys_iff (m : GoMap V) (k : String) : k ∈ GoMap.keys m ↔ ∃ v, (k, v) ∈ m := by
  simp [GoMap.keys]

/-- Reading a key after a run of assignments: the last assignment to the key
wins, and without one the old entry stays. -/
theorem find?_foldl_set (g : A → V) (es : List (String × A)) (m : GoMap V) (k : String) :
    GoMap.find? (es.foldl (fun m e => GoMap.set m e.1 (g e.2)) m) k
      = ((GoMap.find? es.reverse k).map g).or (GoMap.find? m k) := by
  induction es generalizing m with
  | nil => simp [GoMap.find?_nil]
  | cons e rest ih =>
    obtain ⟨k₀, a₀⟩ := e
    rw [List.foldl_cons, ih, List.reverse_cons, find?_append]
    cases hrest : GoMap.find? rest.reverse k with
    | some a => simp
    | none =>
      simp only [Option.map_none', Option.none_or, GoMap.find?_cons, GoMap.find?_nil]
      by_cases h : k = k₀
      · subst h
        simp [GoMap.find?_set_self]
      · simp [h, GoMap.find?_set_ne _ _ h]

theorem nodup_keys_foldl_set (g : A → V) (es : List (String × A)) (m : GoMap V)
    (h : (GoMap.keys m).Nodup) :
    (GoMap.keys (es.foldl (fun m e => GoMap.set m e.1 (g e.2)) m)).Nodup := by
  induction es generalizing m with
  | nil => exact h
  | cons e rest ih =>
    rw [List.foldl_cons]
    exact ih _ (GoMap.nodup_keys_set _ _ h)

theorem set_mid (a b : GoMap V) (k : String) (v v' : V) (h : k ∉ GoMap.keys a) :
    GoMap.set (a ++ (k, v) :: b) k v' = a ++ (k, v') :: b := by
  induction a with
  | nil => simp [GoMap.set]
  | cons e rest ih =>
    obtain ⟨k₀, v₀⟩ := e
    have h₀ : ¬ k₀ = k := fun c => h (by simp [GoMap.keys, c])
    have hr : k ∉ GoMap.keys rest := fun c => h (by simp [GoMap.keys] at c ⊢; exact Or.inr c)
    simp [GoMap.set, h₀, ih hr]

theorem foldl_set_values (f : V → V) (suf pre : GoMap V)
    (h : (GoMap.keys (pre ++ suf)).Nodup) :
    suf.foldl (fun m e => GoMap.set m e.1 (f e.2)) (pre ++ suf)
      = pre ++ suf.map (fun e => (e.1, f e.2)) := by
  induction suf generalizing pre with
  | nil => simp
  | cons e rest ih =>
    obtain ⟨k₀, v₀⟩ := e
    have hk : k₀ ∉ GoMap.keys pre := by
      intro hmem
      simp only [GoMap.keys, List.map_append, List.map_cons] at h hmem
      exact (List.nodup_append.1 h).2.2 hmem (List.mem_cons_self _ _)
    rw [List.foldl_cons, set_mid pre rest k₀ v₀ (f v₀) hk]
    have e1 : pre ++ (k₀, f v₀) :: rest = (pre ++ [(k₀, f v₀)]) ++ rest := by simp
    rw [e1, ih]
    · simp
    · simpa [GoMap.keys] using h

theorem mapValuesInPlace_eq (f : V → V) (m : GoMap V) (h : (GoMap.keys m).Nodup) :
    mapValuesInPlace f m = m.map (fun e => (e.1, f e.2)) := by
  unfold mapValuesInPlace
  have := foldl_set_values f m [] (by simpa using h)
  simpa using this

theorem find?_map_values (f : V → V) (m : GoMap V) (k : String) :
    GoMap.find? (m.map (fun e => (e.1, f e.2))) k = (GoMap.find? m k).map f := by
  induction m with
  | nil => simp [GoMap.find?_nil]
  | cons e rest ih =>
    obtain ⟨k₀, v₀⟩ := e
    simp only [List.map_cons, GoMap.find?_cons, ih]
    split <;> simp

theorem keys_map_values (f : V → V) (m : GoMap V) :
    GoMap.keys (m.map (fun e => (e.1, f e.2))) = GoMap.keys m := by
  simp [GoMap.keys, List.map_map, Function.comp_def]

theorem filterMap_filter_isSome {α β : Type} (f : α → Option β) (l : List α) :
    (l.filter (fun x => (f x).isSome)).filterMap f = l.filterMap f := by
  induction l with
  | nil => rfl
  | cons x rest ih =>
    cases hx : f x with
    | none => simp [List.filter_cons, List.filterMap_cons, hx, ih]
    | some y => simp [List.filter_cons, List.filterMap_cons, hx, ih]

end MapFolds

section WrapInt

theorem wrapInt64_of_range (x : Int) (h1 : -(2 : Int) ^ 63 ≤ x) (h2 : x ≤ (2 : Int) ^ 63 - 1) :
    wrapInt64 x = x := by
  unfold wrapInt64
  norm_num at h1 h2 ⊢
  omega

theorem wrapInt64_add_left (a b : Int) : wrapInt64 (wrapInt64 a + b) = wrapInt64 (a + b) := by
  unfold wrapInt64
  norm_num
  omega

theorem wrapInt64_idem (a : Int) : wrapInt64 (wrapInt64 a) = wrapInt64 a := by
  have h := wrapInt64_add_left a 0
  simpa using h

end WrapInt

section Weights

variable {K : Type} [LinearOrderedField K]

theorem loadStep_eq (st : GoMap K × Int) (line : String) :
    loadStep st line
      = match wellFormed line with
        | none => st
        | some e => (GoMap.set st.1 e.1 (e.2 : K), wrapInt64 (st.2 + e.2)) := by
  unfold loadStep wellFormed
  rcases hparts : splitTab line.data with _ | ⟨x, _ | ⟨y, _ | ⟨z, rest⟩⟩⟩
  · simp
  · simp
  · simp only [List.length_cons, List.length_nil, ne_eq, not_true_eq_false, if_false]
    cases hat : atoi (trimSpace y) with
    | none => simp [hat]
    | some count => simp [hat]
  · simp

theorem foldl_loadStep (lines : List String) (st : GoMap K × Int)
    (hst : wrapInt64 st.2 = st.2) :
    lines.foldl loadStep st
      = ((wellFormedEntries lines).foldl (fun m e => GoMap.set m e.1 (e.2 : K)) st.1,
          wrapInt64 (st.2 + ((wellFormedEntries lines).map Prod.snd).sum)) := by
  induction lines generalizing st with
  | nil => simp [wellFormedEntries, hst]
  | cons line rest ih =>
    rw [List.foldl_cons, loadStep_eq]
    unfold wellFormedEntries
    rw [List.filterMap_cons]
    cases hwf : wellFormed line with
    | none => exact ih st hst
    | some e =>
      have h := ih (GoMap.set st.1 e.1 (e.2 : K), wrapInt64 (st.2 + e.2)) (wrapInt64_idem _)
      unfold wellFormedEntries at h
      simp only [List.foldl_cons, List.map_cons, List.sum_cons]
      rw [h, wrapInt64_add_left, add_assoc]

/-- The table as read, before any transform: the assignments of the
well-formed lines in order, and the wrapped sum of their counts. -/
theorem load_raw (lines : List String) :
    lines.foldl loadStep (([] : GoMap K), (0 : Int))
      = ((wellFormedEntries lines).foldl (fun m e => GoMap.set m e.1 (e.2 : K)) [],
          wrapInt64 ((wellFormedEntries lines).map Prod.snd).sum) := by
  have h0 : wrapInt64 (0 : Int) = 0 := by decide
  rw [foldl_loadStep lines (([] : GoMap K), (0 : Int)) h0]
  simp

theorem load_total (log1p nonFinite : K → K) (lines : List String)
    (transform : WeightTransform) :
    (LoadBigramWeights log1p nonFinite lines transform).Total
      = wrapInt64 ((wellFormedEntries lines).map Prod.snd).sum := by
  unfold LoadBigramWeights
  simp only [load_raw]

theorem load_weights (log1p nonFinite : K → K) (lines : List String)
    (transform : WeightTransform) :
    (LoadBigramWeights log1p nonFinite lines transform).Weights
      = ((wellFormedEntries lines).foldl (fun m e => GoMap.set m e.1 (e.2 : K)) []).map
          (fun e =>
            (e.1,
              transformWeight log1p nonFinite transform
                ((wrapInt64 ((wellFormedEntries lines).map Prod.snd).sum : Int) : K) e.2)) := by
  have hnd : (GoMap.keys ((wellFormedEntries lines).foldl
      (fun m e => GoMap.set m e.1 (e.2 : K)) ([] : GoMap K))).Nodup :=
    nodup_keys_foldl_set (fun c : Int => (c : K)) _ [] List.nodup_nil
  unfold LoadBigramWeights
  simp only [load_raw]
  cases transform with
  | Raw => simp [transformWeight]
  | Log1p => simp only [mapValuesInPlace_eq _ _ hnd, transformWeight]
  | Normal => simp only [mapValuesInPlace_eq _ _ hnd, transformWeight]

theorem load_find? (log1p nonFinite : K → K) (lines : List String)
    (transform : WeightTransform) (k : String) :
    GoMap.find? (LoadBigramWeights log1p nonFinite lines transform).Weights k
      = (GoMap.find? (wellFormedEntries lines).reverse k).map
          (fun c : Int =>
            transformWeight log1p nonFinite transform
              ((wrapInt64 ((wellFormedEntries lines).map Prod.snd).sum : Int) : K) (c : K)) := by
  rw [load_weights, find?_map_values, find?_foldl_set (fun c : Int => (c : K))]
  simp [GoMap.find?_nil, Option.map_map, Function.comp_def]

theorem load_keys (log1p nonFinite : K → K) (lines : List String)
    (transform : WeightTransform) (k : String) :
    k ∈ GoMap.keys (LoadBigramWeights log1p nonFinite lines transform).Weights
      ↔ ∃ c, (k, c) ∈ wellFormedEntries lines := by
  rw [mem_keys_iff, ← find?_isSome_iff, load_find?, Option.isSome_map', find?_isSome_iff]
  simp

theorem load_filter_wellFormed (log1p nonFinite : K → K) (lines : List String)
    (transform : WeightTransform) :
    LoadBigramWeights log1p nonFinite (lines.filter (fun l => (wellFormed l).isSome)) transform
      = LoadBigramWeights log1p nonFinite lines transform := by
  have h : wellFormedEntries (lines.filter (fun l => (wellFormed l).isSome))
      = wellFormedEntries lines := filterMap_filter_isSome wellFormed lines
  unfold LoadBigramWeights
  simp only [load_raw, h]

end Weights

/-- C18 (amended). For every weight source and every transform,
`LoadBigramWeights` sets `Total` to the sum of the counts of the well-formed
lines (exactly two tab-separated fields, the second parsing as an integer
after trimming white space) wrapped to a 64-bit `int`, which is the integer
sum itself whenever that sum lies between `-2^63` and `2^63 - 1`; `Total` is
the same for `Raw`, `Log1p` and `Normal`; and malformed lines contribute
nothing: the result is that of the source with the malformed lines removed,
and the keys of `Weights` are exactly the bigrams of the well-formed lines. -/
theorem C18_load_total_wellformed {K : Type} [LinearOrderedField K] (log1p nonFinite : K → K)
    (lines : List String) (transform : WeightTransform) :
    (LoadBigramWeights log1p nonFinite lines transform).Total
      = wrapInt64 ((wellFormedEntries lines).map Prod.snd).sum ∧
    (-(2 : Int) ^ 63 ≤ ((wellFormedEntries lines).map Prod.snd).sum ∧
        ((wellFormedEntries lines).map Prod.snd).sum ≤ (2 : Int) ^ 63 - 1 →
      (LoadBigramWeights log1p nonFinite lines transform).Total
        = ((wellFormedEntries lines).map Prod.snd).sum) ∧
    (∀ other : WeightTransform,
      (LoadBigramWeights log1p nonFinite lines other).Total
        = (LoadBigramWeights log1p nonFinite lines transform).Total) ∧
    LoadBigramWeights log1p nonFinite (lines.filter (fun l => (wellFormed l).isSome)) transform
      = LoadBigramWeights log1p nonFinite lines transform ∧
    (∀ k : String, k ∈ GoMap.keys (LoadBigramWeights log1p nonFinite lines transform).Weights
      ↔ ∃ c, (k, c) ∈ wellFormedEntries lines) := by
  refine ⟨load_total log1p nonFinite lines transform, fun hr => ?_, fun other => ?_,
    load_filter_wellFormed log1p nonFinite lines transform,
    load_keys log1p nonFinite lines transform⟩
  · rw [load_total, wrapInt64_of_range _ hr.1 hr.2]
  · rw [load_total, load_total]

theorem C18_load_total_wellformed_witness :
    wellFormedEntries ["he\t10", "no tab", "el\t 5 ", "lo\ttwo", "he\t3", "a\tb\tc"]
      = [("he", 10), ("el", 5), ("he", 3)] ∧
    (LoadBigramWeights (fun x : ℚ => x) (fun x : ℚ => x)
        ["he\t10", "no tab", "el\t 5 ", "lo\ttwo", "he\t3", "a\tb\tc"] .Log1p).Total = 18 ∧
    ((LoadBigramWeights (fun x : ℚ => x) (fun x : ℚ => x)
        ["he\t10", "no tab", "el\t 5 ", "lo\ttwo", "he\t3", "a\tb\tc"] .Log1p).Total
      = ((wellFormedEntries
          ["he\t10", "no tab", "el\t 5 ", "lo\ttwo", "he\t3", "a\tb\tc"]).map Prod.snd).sum) :=
  ⟨by decide, by decide,
    (C18_load_total_wellformed (fun x : ℚ => x) (fun x : ℚ => x)
      ["he\t10", "no tab", "el\t 5 ", "lo\ttwo", "he\t3", "a\tb\tc"] .Log1p).2.1
      ⟨by decide, by decide⟩⟩

/-- C18 (counterexample). Two well-formed lines with the count `2^63 - 1`: the
integer sum of the counts is `2^64 - 2`, but the 64-bit `total` wraps and
`Total` is `-2`. -/
theorem C18_total_wraps_counterexample :
    wellFormedEntries ["he\t9223372036854775807", "el\t9223372036854775807"]
      = [("he", 9223372036854775807), ("el", 9223372036854775807)] ∧
    ((wellFormedEntries ["he\t9223372036854775807", "el\t9223372036854775807"]).map
        Prod.snd).sum = 18446744073709551614 ∧
    (LoadBigramWeights (fun x : ℚ => x) (fun x : ℚ => x)
        ["he\t9223372036854775807", "el\t9223372036854775807"] .Raw).Total = -2 := by
  refine ⟨by decide, by decide, by decide⟩

/-- C19 (amended). Under the `Raw` transform every bigram's weight equals its
raw count, and under the `Normal` transform, when `Total` is not zero, its
count divided by `Total` (exact arithmetic), where the count of a bigram that
occurs on several lines is the one on the last such line and a bigram on no
well-formed line has no weight; `Total` is the sum of the counts of all
well-formed lines wrapped to a 64-bit `int`, the sum itself whenever it lies
between `-2^63` and `2^63 - 1`. -/
theorem C19_raw_and_normal_weights {K : Type} [LinearOrderedField K] (log1p nonFinite : K → K)
    (lines : List String) (k : String) :
    GoMap.find? (LoadBigramWeights log1p nonFinite lines .Raw).Weights k
      = (GoMap.find? (wellFormedEntries lines).reverse k).map (fun c : Int => (c : K)) ∧
    ((LoadBigramWeights log1p nonFinite lines .Normal).Total ≠ 0 →
      GoMap.find? (LoadBigramWeights log1p nonFinite lines .Normal).Weights k
        = (GoMap.find? (wellFormedEntries lines).reverse k).map
            (fun c : Int =>
              (c : K) / (((LoadBigramWeights log1p nonFinite lines .Normal).Total : Int) : K))) ∧
    (LoadBigramWeights log1p nonFinite lines .Normal).Total
      = wrapInt64 ((wellFormedEntries lines).map Prod.snd).sum ∧
    (-(2 : Int) ^ 63 ≤ ((wellFormedEntries lines).map Prod.snd).sum ∧
        ((wellFormedEntries lines).map Prod.snd).sum ≤ (2 : Int) ^ 63 - 1 →
      (LoadBigramWeights log1p nonFinite lines .Normal).Total
        = ((wellFormedEntries lines).map Prod.snd).sum) := by
  refine ⟨?_, fun hne => ?_, load_total log1p nonFinite lines .Normal, fun hr => ?_⟩
  · rw [load_find?]
    rfl
  · rw [load_total] at hne
    have hK : ((wrapInt64 ((wellFormedEntries lines).map Prod.snd).sum : Int) : K) ≠ 0 := by
      exact_mod_cast hne
    rw [load_find?, load_total]
    simp only [transformWeight, if_neg hK]
  · rw [load_total, wrapInt64_of_range _ hr.1 hr.2]

theorem C19_raw_and_normal_weights_witness :
    (LoadBigramWeights (fun x : ℚ => x) (fun x : ℚ => x)
        ["he\t10", "no tab", "el\t 5 ", "he\t3"] .Raw).Weights
      = [("he", 3), ("el", 5)] ∧
    (LoadBigramWeights (fun x : ℚ => x) (fun x : ℚ => x)
        ["he\t10", "no tab", "el\t 5 ", "he\t3"] .Normal).Weights
      = [("he", 3 / 18), ("el", 5 / 18)] ∧
    (LoadBigramWeights (fun x : ℚ => x) (fun x : ℚ => x)
        ["he\t10", "no tab", "el\t 5 ", "he\t3"] .Normal).Total = 18 ∧
    GoMap.find?
        (LoadBigramWeights (fun x : ℚ => x) (fun x : ℚ => x)
          ["he\t10", "no tab", "el\t 5 ", "he\t3"] .Normal).Weights "he"
      = (GoMap.find? (wellFormedEntries ["he\t10", "no tab", "el\t 5 ", "he\t3"]).reverse "he").map
          (fun c : Int => (c : ℚ) /
            (((LoadBigramWeights (fun x : ℚ => x) (fun x : ℚ => x)
                ["he\t10", "no tab", "el\t 5 ", "he\t3"] .Normal).Total : Int) : ℚ)) :=
  ⟨by decide!, by decide!, by decide,
    (C19_raw_and_normal_weights (fun x : ℚ => x) (fun x : ℚ => x)
      ["he\t10", "no tab", "el\t 5 ", "he\t3"] "he").2.1 (by decide)⟩

/-- C19 (counterexample). Three well-formed lines with the count `2^62`: the
sum of the counts is `3 * 2^62`, so the claim gives every bigram the `Normal`
weight `1/3`; the 64-bit `total` wraps to `-2^62` and the weight is `-1`. -/
theorem C19_normal_weight_counterexample :
    ((wellFormedEntries
        ["he\t4611686018427387904", "el\t4611686018427387904",
          "lo\t4611686018427387904"]).map Prod.snd).sum = 13835058055282163712 ∧
    (LoadBigramWeights (fun x : ℚ => x) (fun x : ℚ => x)
        ["he\t4611686018427387904", "el\t4611686018427387904",
          "lo\t4611686018427387904"] .Normal).Total = -4611686018427387904 ∧
    GoMap.find?
        (LoadBigramWeights (fun x : ℚ => x) (fun x : ℚ => x)
          ["he\t4611686018427387904", "el\t4611686018427387904",
            "lo\t4611686018427387904"] .Normal).Weights "he" = some (-1) ∧
    (4611686018427387904 : ℚ) / 13835058055282163712 = 1 / 3 := by
  refine ⟨by decide, by decide, by decide!, by decide!⟩

/-! ## Aliasing: a clone shares no memory with its original -/

section Memory

variable {K : Type}

theorem array_set_ne (h : Heap) (i j : Nat) (a : List String) (hij : i ≠ j) :
    Heap.array { h with arrays := h.arrays.set j a } i = h.array i := by
  simp [Heap.array, List.getD_eq_getElem?_getD, List.getElem?_set_ne (Ne.symm hij)]

theorem array_append_lt (h : Heap) (i : Nat) (a : List String) (hi : i < h.arrays.length) :
    Heap.array { h with arrays := h.arrays ++ [a] } i = h.array i := by
  simp [Heap.array, List.getD_eq_getElem?_getD, List.getElem?_append_left hi]

theorem map_setMap_ne (h : Heap) (i j : Nat) (m : GoMap Int) (hij : i ≠ j) :
    (h.setMap j m).map i = h.map i := by
  simp [Heap.setMap, Heap.map, List.getD_eq_getElem?_getD, List.getElem?_set_ne (Ne.symm hij)]

theorem map_setMap_self (h : Heap) (j : Nat) (m : GoMap Int) (hj : j < h.maps.length) :
    (h.setMap j m).map j = m := by
  simp [Heap.setMap, Heap.map, List.getD_eq_getElem?_getD, hj]

theorem map_allocMap_lt (h : Heap) (i : Nat) (hi : i < h.maps.length) :
    h.allocMap.1.map i = h.map i := by
  simp [Heap.allocMap, Heap.map, List.getD_eq_getElem?_getD, List.getElem?_append_left hi]

theorem map_allocMap_new (h : Heap) : h.allocMap.1.map h.allocMap.2 = [] := by
  simp [Heap.allocMap, Heap.map, List.getD_eq_getElem?_getD]

theorem ownWrites_refl (h : Heap) (c : WindowRef K) : OwnWrites h c h c :=
  ⟨le_refl _, le_refl _, fun _ _ _ => rfl, fun _ _ _ => rfl, Or.inl rfl, Or.inl rfl⟩

theorem ownWrites_trans {h h₁ h₂ : Heap} {c c₁ c₂ : WindowRef K}
    (a : OwnWrites h c h₁ c₁) (b : OwnWrites h₁ c₁ h₂ c₂) : OwnWrites h c h₂ c₂ := by
  obtain ⟨al, aml, aa, am, aid, amid⟩ := a
  obtain ⟨bl, bml, ba, bm, bid, bmid⟩ := b
  refine ⟨le_trans al bl, le_trans aml bml, ?_, ?_, ?_, ?_⟩
  · intro i hi hne
    rw [ba i (lt_of_lt_of_le hi al) ?_, aa i hi hne]
    rcases aid with e | e
    · rw [e]; exact hne
    · omega
  · intro j hj hne
    rw [bm j (lt_of_lt_of_le hj aml) ?_, am j hj hne]
    rcases amid with e | ⟨j', e, hj'⟩
    · rw [e]; exact hne
    · rw [e]
      intro hc
      have : j' = j := Option.some.inj hc
      omega
  · rcases bid with e | e
    · rw [e]
      exact aid
    · exact Or.inr (le_trans al e)
  · rcases bmid with e | ⟨j, e, hj⟩
    · rw [e]
      exact amid
    · exact Or.inr ⟨j, e, le_trans aml hj⟩

/-- What `OwnWrites` is for: a struct apart from the mutated one shows the same
window afterwards, and is still apart. -/
theorem apart_step {h h' : Heap} {c c' w : WindowRef K} (s : OwnWrites h c h' c')
    (a : Apart h w c) : w.view h' = w.view h ∧ Apart h' w c' := by
  obtain ⟨sl, sml, sa, sm, sid, smid⟩ := s
  obtain ⟨wa, wm, wne, wmne⟩ := a
  refine ⟨?_, lt_of_lt_of_le wa sl, fun i hi => lt_of_lt_of_le (wm i hi) sml, ?_, ?_⟩
  · have harr : h'.array w.words.arr = h.array w.words.arr := sa _ wa wne
    unfold WindowRef.view Heap.sliceView
    rw [harr]
    cases hb : w.bigrams with
    | none => rfl
    | some i =>
      have : h'.map i = h.map i := sm i (wm i hb) (fun e => wmne i hb e)
      simp [this]
  · rcases sid with e | e
    · rw [e]; exact wne
    · omega
  · intro i hi
    rcases smid with e | ⟨j, e, hj⟩
    · rw [e]; exact wmne i hi
    · rw [e]
      intro hc
      have : j = i := Option.some.inj hc
      have := wm i hi
      omega

theorem append_spec (grow : Nat → Nat) (h : Heap) (s : Slice) (x : String) :
    (h.append grow s x).1.maps = h.maps ∧
    h.arrays.length ≤ (h.append grow s x).1.arrays.length ∧
    (∀ i, i < h.arrays.length → i ≠ s.arr → (h.append grow s x).1.array i = h.array i) ∧
    ((h.append grow s x).2.arr = s.arr ∨ h.arrays.length ≤ (h.append grow s x).2.arr) := by
  unfold Heap.append
  split
  · refine ⟨rfl, by simp, fun i _ hne => array_set_ne h i s.arr _ hne, Or.inl rfl⟩
  · refine ⟨rfl, by simp, fun i hi _ => array_append_lt h i _ hi, Or.inr (le_refl _)⟩

theorem arrays_setMap (h : Heap) (i : Nat) (m : GoMap Int) : (h.setMap i m).arrays = h.arrays :=
  rfl

theorem arrays_allocMap (h : Heap) : h.allocMap.1.arrays = h.arrays := rfl

theorem array_setMap (h : Heap) (i j : Nat) (m : GoMap Int) : (h.setMap i m).array j = h.array j :=
  rfl

theorem array_allocMap (h : Heap) (j : Nat) : h.allocMap.1.array j = h.array j := rfl

theorem maps_length_setMap (h : Heap) (i : Nat) (m : GoMap Int) :
    (h.setMap i m).maps.length = h.maps.length := by
  simp [Heap.setMap]

theorem maps_length_allocMap (h : Heap) : h.allocMap.1.maps.length = h.maps.length + 1 := by
  simp [Heap.allocMap]

theorem allocMap_snd (h : Heap) : h.allocMap.2 = h.maps.length := rfl

/-- Writing the map of `c`, or a fresh one when `c` has none, after a step that
kept all maps: the pattern shared by `pushWord` and `shiftWord`. -/
theorem ownWrites_of_parts {h h₁ : Heap} {c : WindowRef K} (words : Slice)
    (hmaps : h₁.maps = h.maps) (hlen : h.arrays.length ≤ h₁.arrays.length)
    (harr : ∀ i, i < h.arrays.length → i ≠ c.words.arr → h₁.array i = h.array i)
    (hid : words.arr = c.words.arr ∨ h.arrays.length ≤ words.arr)
    (f : GoMap Int → GoMap Int) :
    OwnWrites h c
      ((match c.bigrams with
          | none => h₁.allocMap
          | some i => (h₁, i)).1.setMap
        (match c.bigrams with
          | none => h₁.allocMap
          | some i => (h₁, i)).2
        (f ((match c.bigrams with
          | none => h₁.allocMap
          | some i => (h₁, i)).1.map
            (match c.bigrams with
          | none => h₁.allocMap
          | some i => (h₁, i)).2)))
      { words := words,
        bigrams := some (match c.bigrams with
          | none => h₁.allocMap
          | some i => (h₁, i)).2,
        params := c.params } ∧
    OwnWrites h c
      (match c.bigrams with
          | none => h₁.allocMap
          | some i => (h₁, i)).1
      { words := words,
        bigrams := some (match c.bigrams with
          | none => h₁.allocMap
          | some i => (h₁, i)).2,
        params := c.params } := by
  cases hb : c.bigrams with
  | none =>
    simp only []
    constructor
    · refine ⟨by rw [arrays_setMap, arrays_allocMap]; exact hlen,
        by rw [maps_length_setMap, maps_length_allocMap, hmaps]; omega,
        fun i hi hne => by rw [array_setMap, array_allocMap]; exact harr i hi hne,
        fun j hj _ => ?_, hid, Or.inr ⟨h₁.maps.length, rfl, by rw [hmaps]⟩⟩
      rw [allocMap_snd, map_setMap_ne _ _ _ _ (by rw [hmaps]; omega),
        map_allocMap_lt _ _ (by rw [hmaps]; exact hj)]
      simp [Heap.map, hmaps]
    · refine ⟨by rw [arrays_allocMap]; exact hlen,
        by rw [maps_length_allocMap, hmaps]; omega,
        fun i hi hne => by rw [array_allocMap]; exact harr i hi hne,
        fun j hj _ => ?_, hid, Or.inr ⟨h₁.maps.length, rfl, by rw [hmaps]⟩⟩
      rw [map_allocMap_lt _ _ (by rw [hmaps]; exact hj)]
      simp [Heap.map, hmaps]
  | some i =>
    simp only []
    constructor
    · refine ⟨by rw [arrays_setMap]; exact hlen,
        by rw [maps_length_setMap, hmaps],
        fun i' hi hne => by rw [array_setMap]; exact harr i' hi hne,
        fun j _ hne => ?_, hid, Or.inl hb.symm⟩
      rw [map_setMap_ne _ _ _ _ (fun e => hne (by rw [e]; exact hb))]
      simp [Heap.map, hmaps]
    · refine ⟨hlen, by rw [hmaps], harr, fun j _ _ => by simp [Heap.map, hmaps], hid,
        Or.inl hb.symm⟩

theorem ownWrites_pushWord (grow : Nat → Nat) (h : Heap) (c : WindowRef K) (word : String) :
    OwnWrites h c (c.pushWord grow h word).1 (c.pushWord grow h word).2 := by
  obtain ⟨hmaps, hlen, harr, hid⟩ := append_spec grow h c.words word
  have key := ownWrites_of_parts (h.append grow c.words word).2 hmaps hlen harr hid
    (fun m => (extractBigramsFromWord word).foldl (fun m bg => m.set bg (m.get bg + 1)) m)
  unfold WindowRef.pushWord
  dsimp only
  split
  · exact key.2
  · exact key.1

theorem ownWrites_shiftWord (h : Heap) (c : WindowRef K) :
    OwnWrites h c (c.shiftWord h).1 (c.shiftWord h).2.1 := by
  unfold WindowRef.shiftWord
  split
  · exact ownWrites_refl h c
  · have key := @ownWrites_of_parts K h h c
      { arr := c.words.arr, off := c.words.off + 1, len := c.words.len - 1 } rfl (le_refl _)
      (fun _ _ _ => rfl) (Or.inl rfl)
      (fun m => (extractBigramsFromWord
        ((h.array c.words.arr).getD c.words.off "")).foldl Window.decrBigram m)
    cases hb : c.bigrams with
    | none =>
      rw [hb] at key
      exact key.2
    | some i =>
      rw [hb] at key
      dsimp only
      split
      · exact key.2
      · exact key.1

theorem ownWrites_evictLoop (maxChars : Int) (fuel : Nat) (h : Heap) (c : WindowRef K) :
    OwnWrites h c (WindowRef.evictLoop maxChars fuel h c).1
      (WindowRef.evictLoop maxChars fuel h c).2 := by
  induction fuel generalizing h c with
  | zero => exact ownWrites_refl h c
  | succ n ih =>
    rw [WindowRef.evictLoop]
    dsimp only
    split
    · split
      · exact ownWrites_shiftWord h c
      · exact ownWrites_trans (ownWrites_shiftWord h c) (ih _ _)
    · exact ownWrites_refl h c

theorem ownWrites_AddWord (grow : Nat → Nat) (h : Heap) (c : WindowRef K) (word : String) :
    OwnWrites h c (c.AddWord grow h word).1 (c.AddWord grow h word).2 := by
  unfold WindowRef.AddWord
  split
  · exact ownWrites_refl h c
  · exact ownWrites_trans (ownWrites_pushWord grow h c word) (ownWrites_evictLoop _ _ _ _)

theorem ownWrites_mutate (grow : Nat → Nat) (hc : Heap × WindowRef K) (op : Mutation) :
    OwnWrites hc.1 hc.2 (mutate grow hc op).1 (mutate grow hc op).2 := by
  cases op with
  | push word => exact ownWrites_pushWord grow hc.1 hc.2 word
  | shift => exact ownWrites_shiftWord hc.1 hc.2
  | add word => exact ownWrites_AddWord grow hc.1 hc.2 word

theorem ownWrites_mutateAll (grow : Nat → Nat) (ops : List Mutation) (hc : Heap × WindowRef K) :
    OwnWrites hc.1 hc.2 (mutateAll grow hc ops).1 (mutateAll grow hc ops).2 := by
  induction ops generalizing hc with
  | nil => exact ownWrites_refl _ _
  | cons op rest ih =>
    unfold mutateAll
    rw [List.foldl_cons]
    exact ownWrites_trans (ownWrites_mutate grow hc op) (ih _)

theorem Clone_memory (h : Heap) (w : WindowRef K) :
    (w.Clone h).1.arrays.length = h.arrays.length + 1 ∧
    (w.Clone h).1.maps.length = h.maps.length + 1 ∧
    (∀ i, i < h.arrays.length → (w.Clone h).1.array i = h.array i) ∧
    (∀ j, j < h.maps.length → (w.Clone h).1.map j = h.map j) ∧
    (w.Clone h).2.words = { arr := h.arrays.length, off := 0, len := w.words.len } ∧
    (w.Clone h).2.bigrams = some h.maps.length ∧
    (w.Clone h).2.params = w.params := by
  unfold WindowRef.Clone
  dsimp only
  refine ⟨by simp [Heap.setMap, Heap.allocMap], by simp [Heap.setMap, Heap.allocMap],
    fun i hi => ?_, fun j hj => ?_, rfl, rfl, rfl⟩
  · rw [array_setMap, array_allocMap]
    exact array_append_lt h i _ hi
  · rw [allocMap_snd, map_setMap_ne _ _ _ _ (by simp; omega), map_allocMap_lt _ _ (by simpa using hj)]
    rfl

theorem sliceView_length (h : Heap) (s : Slice) (hs : s.off + s.len ≤ (h.array s.arr).length) :
    (h.sliceView s).length = s.len := by
  simp [Heap.sliceView]
  omega

/-- The clone shows the words of the original, a map with the entries of the
original's map (none for a nil map), and the original's params. -/
theorem Clone_view (h : Heap) (w : WindowRef K) (hwf : WellFormed h w) :
    (w.Clone h).2.view (w.Clone h).1
      = { words := (w.view h).words, bigrams := some ((w.view h).bigrams.getD []),
          params := w.params } := by
  obtain ⟨_, hslice, hmap⟩ := hwf
  have hlen := sliceView_length h w.words hslice
  unfold WindowRef.Clone WindowRef.view
  dsimp only
  have hwords : Heap.sliceView
      ((Heap.allocMap { h with arrays := h.arrays ++
          [goCopy (List.replicate w.words.len "") (h.sliceView w.words)] }).1.setMap
        (Heap.allocMap { h with arrays := h.arrays ++
          [goCopy (List.replicate w.words.len "") (h.sliceView w.words)] }).2
        ((match w.bigrams with
          | none => ([] : GoMap Int)
          | some i => (Heap.allocMap { h with arrays := h.arrays ++
              [goCopy (List.replicate w.words.len "") (h.sliceView w.words)] }).1.map i).foldl
          (fun (m : GoMap Int) (e : String × Int) => GoMap.set m e.1 e.2)
          ((Heap.allocMap { h with arrays := h.arrays ++
            [goCopy (List.replicate w.words.len "") (h.sliceView w.words)] }).1.map
            (Heap.allocMap { h with arrays := h.arrays ++
              [goCopy (List.replicate w.words.len "") (h.sliceView w.words)] }).2)))
      { arr := h.arrays.length, off := 0, len := w.words.len } = h.sliceView w.words := by
    have harr : Heap.array { h with arrays := h.arrays ++
        [goCopy (List.replicate w.words.len "") (h.sliceView w.words)] } h.arrays.length
        = h.sliceView w.words := by
      simp [Heap.array, List.getD_eq_getElem?_getD, goCopy, hlen]
    unfold Heap.sliceView at harr ⊢
    rw [array_setMap, array_allocMap, harr]
    simp only [List.drop_zero]
    rw [List.take_of_length_le]
    unfold Heap.sliceView at hlen
    omega
  rw [hwords]
  congr 1
  simp only [Option.map_some']
  congr 1
  rw [map_setMap_self _ _ _ (by simp [Heap.allocMap]), map_allocMap_new]
  cases hb : w.bigrams with
  | none => simp
  | some i =>
    rw [hb] at hmap
    have hi : (Heap.allocMap { h with arrays := h.arrays ++
        [goCopy (List.replicate w.words.len "") (h.sliceView w.words)] }).1.map i = h.map i := by
      rw [map_allocMap_lt _ _ (by simpa using hmap.1)]
      rfl
    simp only [hi, Option.map_some', Option.getD_some]
    have := foldl_set_eq_append (h.map i) [] (by simpa using hmap.2)
    simpa using this

theorem Clone_apart (h : Heap) (w : WindowRef K) (hwf : WellFormed h w) :
    w.view (w.Clone h).1 = w.view h ∧
    Apart (w.Clone h).1 w (w.Clone h).2 ∧ Apart (w.Clone h).1 (w.Clone h).2 w := by
  obtain ⟨harr, _, hmap⟩ := hwf
  obtain ⟨cal, cml, ca, cm, cw, cb, _⟩ := Clone_memory h w
  have hmlt : ∀ i, w.bigrams = some i → i < h.maps.length := by
    intro i hi
    rw [hi] at hmap
    exact hmap.1
  refine ⟨?_, ⟨by omega, fun i hi => by have := hmlt i hi; omega, ?_, ?_⟩,
    ⟨by rw [cw, cal]; simp, ?_, ?_, ?_⟩⟩
  · unfold WindowRef.view Heap.sliceView
    rw [ca _ harr]
    cases hb : w.bigrams with
    | none => rfl
    | some i => simp [cm i (hmlt i hb)]
  · rw [cw]
    simp
    omega
  · intro i hi
    rw [cb]
    intro hc
    have : h.maps.length = i := Option.some.inj hc
    have := hmlt i hi
    omega
  · intro i hi
    rw [cb] at hi
    have : h.maps.length = i := Option.some.inj hi
    omega
  · rw [cw]
    simp
    omega
  · intro i hi
    rw [cb] at hi
    have e : h.maps.length = i := Option.some.inj hi
    intro hc
    have := hmlt i hc
    omega

theorem set_slice_end (a : List String) (o n : Nat) (x : String) (hn : o + n < a.length) :
    ((a.set (o + n) x).drop o).take (n + 1) = (a.drop o).take n ++ [x] := by
  rw [List.set_eq_take_cons_drop x hn, List.drop_append_eq_append_drop,
    List.take_append_eq_append_take]
  have h1 : (List.take (o + n) a).length = o + n := by simp; omega
  have h2 : o - (List.take (o + n) a).length = 0 := by omega
  have h3 : (List.drop o (List.take (o + n) a)).length = n := by simp; omega
  rw [h2, h3, List.drop_zero, List.take_of_length_le (by omega)]
  have h4 : n + 1 - n = 1 := by omega
  rw [h4, List.drop_take]
  simp

/-- `append` in memory shows the old elements followed by the new one, within
the bounds of its array. -/
theorem append_view (grow : Nat → Nat) (h : Heap) (s : Slice) (x : String)
    (harr : s.arr < h.arrays.length) (hs : s.off + s.len ≤ (h.array s.arr).length) :
    (h.append grow s x).1.sliceView (h.append grow s x).2 = h.sliceView s ++ [x] ∧
    (h.append grow s x).2.arr < (h.append grow s x).1.arrays.length ∧
    (h.append grow s x).2.off + (h.append grow s x).2.len
      ≤ ((h.append grow s x).1.array (h.append grow s x).2.arr).length := by
  unfold Heap.append
  split
  · rename_i hlt
    have hself : Heap.array
        { h with arrays := (h.arrays.set s.arr ((h.array s.arr).set (s.off + s.len) x)) } s.arr
        = (h.array s.arr).set (s.off + s.len) x := by
      simp [Heap.array, List.getD_eq_getElem?_getD, harr]
    refine ⟨?_, by simpa using harr, ?_⟩
    · unfold Heap.sliceView
      dsimp only
      rw [hself]
      exact set_slice_end _ _ _ _ hlt
    · dsimp only
      rw [hself]
      simp
      omega
  · have hlen := sliceView_length h s hs
    have hself : Heap.array
        { h with arrays := (h.arrays ++ [h.sliceView s ++ [x] ++ List.replicate (grow s.len) ""]) }
        h.arrays.length
        = h.sliceView s ++ [x] ++ List.replicate (grow s.len) "" := by
      simp [Heap.array, List.getD_eq_getElem?_getD]
    refine ⟨?_, by simp, ?_⟩
    · unfold Heap.sliceView at hself ⊢
      dsimp only
      rw [hself, List.drop_zero, List.append_assoc, List.take_append_eq_append_take]
      unfold Heap.sliceView at hlen
      rw [List.take_of_length_le (by omega), hlen]
      simp
    · dsimp only
      rw [hself]
      simp [hlen]

theorem sliceView_setMap (h : Heap) (i : Nat) (m : GoMap Int) (s : Slice) :
    (h.setMap i m).sliceView s = h.sliceView s := rfl

theorem sliceView_allocMap (h : Heap) (s : Slice) : h.allocMap.1.sliceView s = h.sliceView s :=
  rfl

theorem nodup_keys_foldl_incr (bs : List String) (m : GoMap Int) (h : (GoMap.keys m).Nodup) :
    (GoMap.keys (bs.foldl (fun m bg => GoMap.set m bg (GoMap.get m bg + 1)) m)).Nodup := by
  induction bs generalizing m with
  | nil => exact h
  | cons b rest ih =>
    rw [List.foldl_cons]
    exact ih _ (GoMap.nodup_keys_set _ _ h)

theorem nodup_keys_foldl_decr (bs : List String) (m : GoMap Int) (h : (GoMap.keys m).Nodup) :
    (GoMap.keys (bs.foldl Window.decrBigram m)).Nodup := by
  induction bs generalizing m with
  | nil => exact h
  | cons b rest ih =>
    rw [List.foldl_cons]
    apply ih
    unfold Window.decrBigram
    dsimp only
    split
    · exact GoMap.nodup_keys_delete _ (GoMap.nodup_keys_set _ _ h)
    · exact GoMap.nodup_keys_set _ _ h

/-- `pushWord` in memory does to the window shown what `pushWord` does to the
window value, and leaves the struct well formed. -/
theorem pushWord_refines (grow : Nat → Nat) (h : Heap) (w : WindowRef K) (word : String)
    (hwf : WellFormed h w) :
    (w.pushWord grow h word).2.view (w.pushWord grow h word).1 = (w.view h).pushWord word ∧
    WellFormed (w.pushWord grow h word).1 (w.pushWord grow h word).2 := by
  obtain ⟨harr, hslice, hmap⟩ := hwf
  obtain ⟨hview, harr', hslice'⟩ := append_view grow h w.words word harr hslice
  obtain ⟨hmaps, _, _, _⟩ := append_spec grow h w.words word
  have hmapfn : ∀ i, (h.append grow w.words word).1.map i = h.map i := by
    intro i
    simp [Heap.map, hmaps]
  unfold WindowRef.pushWord Window.pushWord
  dsimp only
  cases hb : w.bigrams with
  | none =>
    have hvb : (w.view h).bigrams = none := by simp [WindowRef.view, hb]
    have hvw : (w.view h).words = h.sliceView w.words := rfl
    simp only [hvb, hvw]
    split
    · refine ⟨?_, harr', hslice', ?_⟩
      · simp only [WindowRef.view, sliceView_allocMap, hview, Option.map_some',
          map_allocMap_new]
      · have hnew := map_allocMap_new (h.append grow w.words word).1
        rw [allocMap_snd] at hnew
        simp only [maps_length_allocMap, allocMap_snd, hnew]
        exact ⟨by omega, List.nodup_nil⟩
    · refine ⟨?_, harr', hslice', ?_⟩
      · simp only [WindowRef.view, sliceView_setMap, sliceView_allocMap, hview, Option.map_some']
        rw [map_setMap_self _ _ _ (by rw [maps_length_allocMap, allocMap_snd]; omega),
          map_allocMap_new]
      · simp only [maps_length_setMap, maps_length_allocMap]
        rw [map_setMap_self _ _ _ (by rw [maps_length_allocMap, allocMap_snd]; omega),
          map_allocMap_new]
        exact ⟨by rw [allocMap_snd]; omega, nodup_keys_foldl_incr _ _ List.nodup_nil⟩
  | some i =>
    rw [hb] at hmap
    have hi : i < (h.append grow w.words word).1.maps.length := by rw [hmaps]; exact hmap.1
    have hvb : (w.view h).bigrams = some (h.map i) := by simp [WindowRef.view, hb]
    have hvw : (w.view h).words = h.sliceView w.words := rfl
    simp only [hvb, hvw]
    split
    · refine ⟨?_, harr', hslice', ?_⟩
      · simp only [WindowRef.view, hview, Option.map_some', hmapfn]
      · simp only [hmapfn]
        exact ⟨hi, hmap.2⟩
    · refine ⟨?_, harr', hslice', ?_⟩
      · simp only [WindowRef.view, sliceView_setMap, hview, Option.map_some']
        rw [map_setMap_self _ _ _ hi, hmapfn]
      · simp only [maps_length_setMap]
        rw [map_setMap_self _ _ _ hi, hmapfn]
        exact ⟨hi, nodup_keys_foldl_incr _ _ hmap.2⟩

theorem sliceView_nil (h : Heap) (s : Slice) (hs : s.len = 0) : h.sliceView s = [] := by
  simp [Heap.sliceView, hs]

theorem sliceView_cons (h : Heap) (s : Slice) (hlen : s.len ≠ 0)
    (hs : s.off + s.len ≤ (h.array s.arr).length) :
    h.sliceView s
      = (h.array s.arr).getD s.off "" ::
          h.sliceView { arr := s.arr, off := s.off + 1, len := s.len - 1 } := by
  unfold Heap.sliceView
  have hoff : s.off < (h.array s.arr).length := by omega
  obtain ⟨n, hn⟩ : ∃ n, s.len = n + 1 := ⟨s.len - 1, by omega⟩
  rw [hn, ← List.getElem_cons_drop _ _ hoff, List.take_succ_cons]
  simp [List.getD_eq_getElem?_getD, hoff]

/-- `shiftWord` in memory does to the window shown what `shiftWord` does to the
window value, returns the same string, and leaves the struct well formed. -/
theorem shiftWord_refines (h : Heap) (w : WindowRef K) (hwf : WellFormed h w) :
    (w.shiftWord h).2.1.view (w.shiftWord h).1 = (w.view h).shiftWord.1 ∧
    (w.shiftWord h).2.2 = (w.view h).shiftWord.2 ∧
    WellFormed (w.shiftWord h).1 (w.shiftWord h).2.1 := by
  obtain ⟨harr, hslice, hmap⟩ := hwf
  unfold WindowRef.shiftWord Window.shiftWord
  by_cases hlen : w.words.len = 0
  · have hvw : (w.view h).words = [] := sliceView_nil h w.words hlen
    rw [if_pos hlen]
    simp only [hvw]
    exact ⟨by first | rfl | trivial, by first | rfl | trivial, harr, hslice, hmap⟩
  · have hvw : (w.view h).words
        = (h.array w.words.arr).getD w.words.off "" ::
            h.sliceView { arr := w.words.arr, off := w.words.off + 1, len := w.words.len - 1 } :=
      sliceView_cons h w.words hlen hslice
    have hslice' : w.words.off + 1 + (w.words.len - 1) ≤ (h.array w.words.arr).length := by omega
    rw [if_neg hlen]
    simp only [hvw]
    cases hb : w.bigrams with
    | none =>
      have hvb : (w.view h).bigrams = none := by simp [WindowRef.view, hb]
      have hnew := map_allocMap_new h
      rw [allocMap_snd] at hnew
      simp only [hvb]
      refine ⟨?_, by first | rfl | trivial, harr, hslice', ?_⟩
      · simp only [WindowRef.view, sliceView_allocMap, Option.map_some', allocMap_snd, hnew]
      · simp only [maps_length_allocMap, allocMap_snd, hnew]
        exact ⟨by omega, List.nodup_nil⟩
    | some i =>
      rw [hb] at hmap
      have hvb : (w.view h).bigrams = some (h.map i) := by simp [WindowRef.view, hb]
      simp only [hvb]
      split
      · exact ⟨rfl, rfl, harr, hslice', hmap⟩
      · refine ⟨?_, rfl, harr, hslice', ?_⟩
        · simp only [WindowRef.view, sliceView_setMap, Option.map_some']
          rw [map_setMap_self _ _ _ hmap.1]
        · simp only [maps_length_setMap]
          rw [map_setMap_self _ _ _ hmap.1]
          exact ⟨hmap.1, nodup_keys_foldl_decr _ _ hmap.2⟩

theorem evictLoop_refines (maxChars : Int) (fuel : Nat) (h : Heap) (w : WindowRef K)
    (hwf : WellFormed h w) :
    (WindowRef.evictLoop maxChars fuel h w).2.view (WindowRef.evictLoop maxChars fuel h w).1
      = Window.evictLoop maxChars fuel (w.view h) ∧
    WellFormed (WindowRef.evictLoop maxChars fuel h w).1
      (WindowRef.evictLoop maxChars fuel h w).2 := by
  induction fuel generalizing h w with
  | zero => exact ⟨rfl, hwf⟩
  | succ n ih =>
    obtain ⟨hv, hs, hwf'⟩ := shiftWord_refines h w hwf
    rw [WindowRef.evictLoop, Window.evictLoop]
    dsimp only
    split
    · rw [hs]
      split
      · exact ⟨hv, hwf'⟩
      · rw [← hv]
        exact ih _ _ hwf'
    · exact ⟨rfl, hwf⟩

theorem AddWord_refines (grow : Nat → Nat) (h : Heap) (w : WindowRef K) (word : String)
    (hwf : WellFormed h w) :
    (w.AddWord grow h word).2.view (w.AddWord grow h word).1 = (w.view h).AddWord word ∧
    WellFormed (w.AddWord grow h word).1 (w.AddWord grow h word).2 := by
  unfold WindowRef.AddWord Window.AddWord
  have hp : (w.view h).params = w.params := rfl
  rw [hp]
  cases hpar : w.params with
  | none => exact ⟨rfl, hwf⟩
  | some p =>
    dsimp only
    obtain ⟨hv, hwf'⟩ := pushWord_refines grow h w word hwf
    have hfuel : (w.pushWord grow h word).2.words.len
        = ((w.view h).pushWord word).words.length := by
      rw [← hv]
      exact (sliceView_length _ _ hwf'.2.1).symm
    rw [hfuel, ← hv]
    exact evictLoop_refines _ _ _ _ hwf'

/-- A mutation of a window value. -/
theorem mutate_refines (grow : Nat → Nat) (hw : Heap × WindowRef K) (op : Mutation)
    (hwf : WellFormed hw.1 hw.2) :
    (mutate grow hw op).2.view (mutate grow hw op).1
      = (match op with
          | .push word => (hw.2.view hw.1).pushWord word
          | .shift => (hw.2.view hw.1).shiftWord.1
          | .add word => (hw.2.view hw.1).AddWord word) ∧
    WellFormed (mutate grow hw op).1 (mutate grow hw op).2 := by
  cases op with
  | push word => exact pushWord_refines grow hw.1 hw.2 word hwf
  | shift =>
    obtain ⟨hv, _, hwf'⟩ := shiftWord_refines hw.1 hw.2 hwf
    exact ⟨hv, hwf'⟩
  | add word => exact AddWord_refines grow hw.1 hw.2 word hwf

/-- `Clone` in memory shows the clone of the window value. -/
theorem Clone_refines (h : Heap) (w : WindowRef K) (hwf : WellFormed h w) :
    (w.Clone h).2.view (w.Clone h).1 = (w.view h).Clone := by
  rw [Clone_view h w hwf]
  unfold Window.Clone
  congr 2
  cases hb : w.bigrams with
  | none => simp [WindowRef.view, hb]
  | some i =>
    have hmap := hwf.2.2
    rw [hb] at hmap
    have := foldl_set_eq_append (h.map i) [] (by simpa using hmap.2)
    simp only [WindowRef.view, hb, Option.map_some', Option.getD_some]
    simpa using this.symm

end Memory

/-- C16. In memory, `Clone` returns a window with the same word sequence, the
same bigram map entries (none for a nil map) and the same params as the
original, hence equal `Text`, `Size` and `Score`; it leaves the original as it
was; then any sequence of `pushWord`, `shiftWord` and `AddWord` calls on the
clone leaves the window the original shows unchanged, and any such sequence on
the original leaves the window the clone shows unchanged. -/
theorem C16_clone_shares_no_memory {K : Type} [LinearOrderedField K] (grow : Nat → Nat)
    (h : Heap) (w : WindowRef K) (hwf : WellFormed h w) (ops : List Mutation) :
    ((w.Clone h).2.view (w.Clone h).1).words = (w.view h).words ∧
    ((w.Clone h).2.view (w.Clone h).1).bigrams.getD [] = (w.view h).bigrams.getD [] ∧
    ((w.Clone h).2.view (w.Clone h).1).params = (w.view h).params ∧
    ((w.Clone h).2.view (w.Clone h).1).Text = (w.view h).Text ∧
    ((w.Clone h).2.view (w.Clone h).1).Size = (w.view h).Size ∧
    ((w.Clone h).2.view (w.Clone h).1).Score = (w.view h).Score ∧
    w.view (w.Clone h).1 = w.view h ∧
    w.view (mutateAll grow (w.Clone h) ops).1 = w.view h ∧
    (w.Clone h).2.view (mutateAll grow ((w.Clone h).1, w) ops).1
      = (w.Clone h).2.view (w.Clone h).1 := by
  have hv := Clone_view h w hwf
  obtain ⟨hkeep, hwc, hcw⟩ := Clone_apart h w hwf
  have hparams : (w.view h).params = w.params := rfl
  refine ⟨by rw [hv], by rw [hv]; rfl, by rw [hv, hparams], by rw [hv]; rfl, by rw [hv]; rfl,
    ?_, hkeep, ?_, ?_⟩
  · rw [hv]
    unfold Window.Score Window.weightOf
    rfl
  · have hstep := ownWrites_mutateAll grow ops (w.Clone h)
    rw [(apart_step hstep hwc).1, hkeep]
  · have hstep := ownWrites_mutateAll grow ops ((w.Clone h).1, w)
    exact (apart_step hstep hcw).1

theorem C16_clone_shares_no_memory_witness :
    WellFormed exampleHeap exampleRef ∧
    (exampleRef.view exampleHeap).words = ["to", "be"] ∧
    ((exampleRef.Clone exampleHeap).2.view (exampleRef.Clone exampleHeap).1).words
      = ["to", "be"] ∧
    (exampleRef.view
        (mutateAll (fun n => n) (exampleRef.Clone exampleHeap)
          [.push "or", .shift, .add "not"]).1).words = ["to", "be"] ∧
    ((mutateAll (fun n => n) (exampleRef.Clone exampleHeap)
          [.push "or", .shift, .add "not"]).2.view
        (mutateAll (fun n => n) (exampleRef.Clone exampleHeap)
          [.push "or", .shift, .add "not"]).1).words = ["not"] ∧
    exampleRef.view
        (mutateAll (fun n => n) (exampleRef.Clone exampleHeap)
          [.push "or", .shift, .add "not"]).1
      = exampleRef.view exampleHeap ∧
    (exampleRef.Clone exampleHeap).2.view
        (mutateAll (fun n => n) ((exampleRef.Clone exampleHeap).1, exampleRef)
          [.push "or", .shift, .add "not"]).1
      = (exampleRef.Clone exampleHeap).2.view (exampleRef.Clone exampleHeap).1 :=
  ⟨⟨by decide, by decide, by decide, by decide⟩, by decide, by decide, by decide, by decide,
    (C16_clone_shares_no_memory (fun n => n) exampleHeap exampleRef
      ⟨by decide, by decide, by decide, by decide⟩ [.push "or", .shift, .add "not"]).2.2.2.2.2.2.2.1,
    (C16_clone_shares_no_memory (fun n => n) exampleHeap exampleRef
      ⟨by decide, by decide, by decide, by decide⟩ [.push "or", .shift, .add "not"]).2.2.2.2.2.2.2.2⟩

/-! ## Running maximum, minimum and mean -/

section Extremes

variable {K : Type} [LinearOrderedField K]

theorem update_max (s : Stats K) (x : K) : (s.Update x).MaxScore = max s.MaxScore x := by
  simp only [Stats.Update]
  by_cases h : x > s.MaxScore
  · rw [if_pos h, max_eq_right (le_of_lt h)]
  · rw [if_neg h, max_eq_left (not_lt.1 h)]

theorem update_min (s : Stats K) (x : K) : (s.Update x).MinScore = min s.MinScore x := by
  simp only [Stats.Update]
  by_cases h : x < s.MinScore
  · rw [if_pos h, min_eq_right (le_of_lt h)]
  · rw [if_neg h, min_eq_left (not_lt.1 h)]

/-- After a non-empty run of scores within the sentinels, `MaxScore` is the
largest and `MinScore` the smallest of them. -/
theorem updateAll_extremes (xs : List K) (hne : xs ≠ [])
    (hrange : ∀ x ∈ xs, -1 ≤ x ∧ x ≤ MaxFloat64) :
    ((updateAll xs).MaxScore ∈ xs ∧ ∀ x ∈ xs, x ≤ (updateAll xs).MaxScore) ∧
    ((updateAll xs).MinScore ∈ xs ∧ ∀ x ∈ xs, (updateAll xs).MinScore ≤ x) := by
  induction xs using List.reverseRecOn with
  | nil => exact absurd rfl hne
  | append_singleton ys y ih =>
    have hy := hrange y (by simp)
    rw [updateAll_snoc, update_max, update_min]
    by_cases hys : ys = []
    · subst hys
      have hmax : max (updateAll ([] : List K)).MaxScore y = y := by
        simp only [updateAll, List.foldl_nil, NewStats]
        exact max_eq_right hy.1
      have hmin : min (updateAll ([] : List K)).MinScore y = y := by
        simp only [updateAll, List.foldl_nil, NewStats]
        exact min_eq_right hy.2
      rw [hmax, hmin]
      simp
    · obtain ⟨⟨hmem, hub⟩, ⟨hmem', hlb⟩⟩ :=
        ih hys (fun x hx => hrange x (List.mem_append_left _ hx))
      refine ⟨⟨?_, ?_⟩, ⟨?_, ?_⟩⟩
      · rcases max_choice (updateAll ys).MaxScore y with h | h
        · rw [h]; exact List.mem_append_left _ hmem
        · rw [h]; simp
      · intro x hx
        rcases List.mem_append.1 hx with h | h
        · exact le_trans (hub x h) (le_max_left _ _)
        · rw [List.mem_singleton.1 h]; exact le_max_right _ _
      · rcases min_choice (updateAll ys).MinScore y with h | h
        · rw [h]; exact List.mem_append_left _ hmem'
        · rw [h]; simp
      · intro x hx
        rcases List.mem_append.1 hx with h | h
        · exact le_trans (min_le_left _ _) (hlb x h)
        · rw [List.mem_singleton.1 h]; exact min_le_right _ _

theorem sum_le_length_mul (xs : List K) (b : K) (h : ∀ x ∈ xs, x ≤ b) :
    xs.sum ≤ (xs.length : K) * b := by
  induction xs with
  | nil => simp
  | cons x rest ih =>
    have h1 := h x (List.mem_cons_self _ _)
    have h2 := ih (fun y hy => h y (List.mem_cons_of_mem _ hy))
    simp only [List.sum_cons, List.length_cons, Nat.cast_add, Nat.cast_one]
    linarith

theorem length_mul_le_sum (xs : List K) (b : K) (h : ∀ x ∈ xs, b ≤ x) :
    (xs.length : K) * b ≤ xs.sum := by
  induction xs with
  | nil => simp
  | cons x rest ih =>
    have h1 := h x (List.mem_cons_self _ _)
    have h2 := ih (fun y hy => h y (List.mem_cons_of_mem _ hy))
    simp only [List.sum_cons, List.length_cons, Nat.cast_add, Nat.cast_one]
    linarith

end Extremes

/-- C27. For a non-empty sequence of non-negative scores, each at most
`MaxFloat64`, applied by `Update` to a `Stats` made by `NewStats`, `MaxScore` is
the maximum of the scores (one of them, and no score is larger), `MinScore` is
their minimum, and `MinScore ≤ Mean ≤ MaxScore` (exact arithmetic). -/
theorem C27_max_min_mean {K : Type} [LinearOrderedField K] (xs : List K) (hne : xs ≠ [])
    (hrange : ∀ x ∈ xs, 0 ≤ x ∧ x ≤ MaxFloat64) :
    ((updateAll xs).MaxScore ∈ xs ∧ ∀ x ∈ xs, x ≤ (updateAll xs).MaxScore) ∧
    ((updateAll xs).MinScore ∈ xs ∧ ∀ x ∈ xs, (updateAll xs).MinScore ≤ x) ∧
    (updateAll xs).MinScore ≤ (updateAll xs).Mean ∧
    (updateAll xs).Mean ≤ (updateAll xs).MaxScore := by
  have hext := updateAll_extremes xs hne
    (fun x hx => ⟨le_trans (by norm_num) (hrange x hx).1, (hrange x hx).2⟩)
  obtain ⟨⟨hmaxmem, hub⟩, ⟨hminmem, hlb⟩⟩ := hext
  have hmean := (updateAll_invariant xs).2.2.1
  have hpos : (0 : K) < (xs.length : K) := by
    have : 0 < xs.length := List.length_pos.2 hne
    exact_mod_cast this
  have h1 := sum_le_length_mul xs _ hub
  have h2 := length_mul_le_sum xs _ hlb
  rw [← hmean] at h1 h2
  exact ⟨⟨hmaxmem, hub⟩, ⟨hminmem, hlb⟩, le_of_mul_le_mul_left h2 hpos,
    le_of_mul_le_mul_left h1 hpos⟩

theorem C27_max_min_mean_witness :
    ([5, 0, 15] : List ℚ) ≠ [] ∧ (∀ x ∈ ([5, 0, 15] : List ℚ), 0 ≤ x ∧ x ≤ MaxFloat64) ∧
    (updateAll ([5, 0, 15] : List ℚ)).MaxScore = 15 ∧
    (updateAll ([5, 0, 15] : List ℚ)).MinScore = 0 ∧
    (((updateAll ([5, 0, 15] : List ℚ)).MaxScore ∈ ([5, 0, 15] : List ℚ) ∧
        ∀ x ∈ ([5, 0, 15] : List ℚ), x ≤ (updateAll ([5, 0, 15] : List ℚ)).MaxScore) ∧
      ((updateAll ([5, 0, 15] : List ℚ)).MinScore ∈ ([5, 0, 15] : List ℚ) ∧
        ∀ x ∈ ([5, 0, 15] : List ℚ), (updateAll ([5, 0, 15] : List ℚ)).MinScore ≤ x) ∧
      (updateAll ([5, 0, 15] : List ℚ)).MinScore ≤ (updateAll ([5, 0, 15] : List ℚ)).Mean ∧
      (updateAll ([5, 0, 15] : List ℚ)).Mean ≤ (updateAll ([5, 0, 15] : List ℚ)).MaxScore) :=
  ⟨by decide, by decide!, by decide!, by decide!,
    C27_max_min_mean ([5, 0, 15] : List ℚ) (by decide) (by decide!)⟩

/-! ## Monotonicity of the score -/

section ScoreMaps

variable {K : Type}

theorem get_incr (m : GoMap Int) (bg b : String) :
    GoMap.get (GoMap.set m bg (GoMap.get m bg + 1)) b
      = GoMap.get m b + if b = bg then 1 else 0 := by
  by_cases h : b = bg
  · subst h
    simp [GoMap.get, GoMap.find?_set_self]
  · simp [GoMap.get, GoMap.find?_set_ne _ _ h, h]

theorem get_decr (m : GoMap Int) (bg b : String) :
    GoMap.get (Window.decrBigram m bg) b = GoMap.get m b - if b = bg then 1 else 0 := by
  unfold Window.decrBigram
  have hself : GoMap.get (GoMap.set m bg (GoMap.get m bg - 1)) bg = GoMap.get m bg - 1 := by
    simp [GoMap.get, GoMap.find?_set_self]
  dsimp only
  by_cases h : b = bg
  · subst h
    rw [hself]
    split
    · rename_i hz
      simp [GoMap.get, GoMap.find?_delete_self]
      simp [GoMap.get] at hz
      omega
    · rw [hself]
      simp
  · have hne : GoMap.get (GoMap.set m bg (GoMap.get m bg - 1)) b = GoMap.get m b := by
      simp [GoMap.get, GoMap.find?_set_ne _ _ h]
    split
    · simp only [GoMap.get, GoMap.find?_delete_ne _ h] at hne ⊢
      rw [hne]
      simp [h]
    · rw [hne]
      simp [h]

theorem get_foldl_incr_ge (bs : List String) (m : GoMap Int) (b : String) :
    GoMap.get m b ≤ GoMap.get (bs.foldl (fun m bg => GoMap.set m bg (GoMap.get m bg + 1)) m) b := by
  induction bs generalizing m with
  | nil => exact le_refl _
  | cons bg rest ih =>
    rw [List.foldl_cons]
    refine le_trans ?_ (ih _)
    rw [get_incr]
    split <;> omega

theorem get_foldl_decr_le (bs : List String) (m : GoMap Int) (b : String) :
    GoMap.get (bs.foldl Window.decrBigram m) b ≤ GoMap.get m b := by
  induction bs generalizing m with
  | nil => exact le_refl _
  | cons bg rest ih =>
    rw [List.foldl_cons]
    refine le_trans (ih _) ?_
    rw [get_decr]
    split <;> omega

theorem mem_of_find? {V : Type} (m : GoMap V) (k : String) (v : V)
    (h : GoMap.find? m k = some v) : (k, v) ∈ m := by
  induction m with
  | nil => simp [GoMap.find?_nil] at h
  | cons e rest ih =>
    obtain ⟨k₀, v₀⟩ := e
    rw [GoMap.find?_cons] at h
    by_cases hk : k = k₀
    · subst hk
      simp at h
      simp [h]
    · simp only [hk, if_false] at h
      exact List.mem_cons_of_mem _ (ih h)

theorem bigrams_pushWord (w : Window K) (word : String) :
    (w.pushWord word).bigrams.getD []
      = (extractBigramsFromWord word).foldl (fun m bg => GoMap.set m bg (GoMap.get m bg + 1))
          (w.bigrams.getD []) := by
  unfold Window.pushWord
  dsimp only
  have hm : (match w.bigrams with
      | none => ([] : GoMap Int)
      | some m => m) = w.bigrams.getD [] := by
    cases w.bigrams <;> rfl
  rw [hm]
  split
  · rename_i h
    rw [List.length_eq_zero.1 h]
    rfl
  · rfl

theorem get_shiftWord_le (w : Window K) (b : String) :
    GoMap.get (w.shiftWord.1.bigrams.getD []) b ≤ GoMap.get (w.bigrams.getD []) b ∨
      w.bigrams = none ∧ w.shiftWord.1.bigrams.getD [] = [] := by
  unfold Window.shiftWord
  split
  · exact Or.inl (le_refl _)
  · split
    · rename_i hb
      exact Or.inr ⟨hb, rfl⟩
    · rename_i m hb
      dsimp only
      split
      · exact Or.inl (le_refl _)
      · left
        simp only [hb, Option.getD_some]
        exact get_foldl_decr_le _ _ _

theorem nodup_keys_shiftWord (w : Window K) (h : (GoMap.keys (w.bigrams.getD [])).Nodup) :
    (GoMap.keys (w.shiftWord.1.bigrams.getD [])).Nodup := by
  unfold Window.shiftWord
  split
  · exact h
  · split
    · exact List.nodup_nil
    · rename_i m hb
      dsimp only
      split
      · exact h
      · simp only [hb, Option.getD_some] at h ⊢
        exact nodup_keys_foldl_decr _ _ h

end ScoreMaps

section ScoreMono

variable {K : Type} [LinearOrderedField K]

theorem weightOf_nonneg (w : Window K)
    (hw : ∀ p, w.params = some p → ∀ e ∈ p.Weights.Weights, 0 ≤ e.2) (b : String) :
    0 ≤ (w.weightOf b).getD 0 := by
  unfold Window.weightOf
  cases hp : w.params with
  | none => simp
  | some p =>
    simp only []
    cases hf : GoMap.find? p.Weights.Weights b with
    | none => simp
    | some v => exact hw p hp (b, v) (mem_of_find? _ _ _ hf)

/-- With non-negative weights, a window whose present bigrams include those of
another window with the same params scores at least as much. -/
theorem score_mono (w₁ w₂ : Window K) (hp : w₁.params = w₂.params)
    (h₁ : (GoMap.keys (w₁.bigrams.getD [])).Nodup) (h₂ : (GoMap.keys (w₂.bigrams.getD [])).Nodup)
    (hw : ∀ p, w₂.params = some p → ∀ e ∈ p.Weights.Weights, 0 ≤ e.2)
    (hsub : ∀ b, 0 < GoMap.get (w₁.bigrams.getD []) b → 0 < GoMap.get (w₂.bigrams.getD []) b) :
    w₁.Score ≤ w₂.Score := by
  rw [score_eq_sum_present w₁ h₁, score_eq_sum_present w₂ h₂]
  have hwt : ∀ b, (w₁.weightOf b).getD 0 = (w₂.weightOf b).getD 0 := by
    intro b
    simp [Window.weightOf, hp]
  rw [Finset.sum_congr rfl (fun b _ => hwt b)]
  apply Finset.sum_le_sum_of_subset_of_nonneg
  · intro b hb
    rw [mem_presentBigrams w₁ h₁] at hb
    rw [mem_presentBigrams w₂ h₂]
    exact hsub b hb
  · intro b _ _
    exact weightOf_nonneg w₂ hw b

end ScoreMono

/-- C26. For a weight table whose weights are all `≥ 0`, a window (with a well
formed map) and a word, `Score` after `pushWord word` is at least `Score`
before it, and `Score` after `shiftWord` is at most `Score` before it (exact
arithmetic). -/
theorem C26_score_monotone {K : Type} [LinearOrderedField K] (w : Window K) (word : String)
    (hnd : (GoMap.keys (w.bigrams.getD [])).Nodup)
    (hw : ∀ p, w.params = some p → ∀ e ∈ p.Weights.Weights, 0 ≤ e.2) :
    w.Score ≤ (w.pushWord word).Score ∧ w.shiftWord.1.Score ≤ w.Score := by
  constructor
  · apply score_mono w (w.pushWord word) (params_pushWord w word).symm hnd
    · rw [bigrams_pushWord]
      exact nodup_keys_foldl_incr _ _ hnd
    · intro p hp
      rw [params_pushWord] at hp
      exact hw p hp
    · intro b hb
      rw [bigrams_pushWord]
      exact lt_of_lt_of_le hb (get_foldl_incr_ge _ _ b)
  · apply score_mono w.shiftWord.1 w (shiftWord_params w) (nodup_keys_shiftWord w hnd) hnd hw
    intro b hb
    rcases get_shiftWord_le w b with h | ⟨_, h⟩
    · exact lt_of_lt_of_le hb h
    · rw [h] at hb
      simp [GoMap.get, GoMap.find?_nil] at hb

theorem C26_score_monotone_witness :
    (GoMap.keys ((feedWords (some exampleParams) ["he"]).bigrams.getD [])).Nodup ∧
    (∀ p, (feedWords (some exampleParams) ["he"]).params = some p →
      ∀ e ∈ p.Weights.Weights, (0 : ℚ) ≤ e.2) ∧
    (feedWords (some exampleParams) ["he"]).Score = 10 ∧
    ((feedWords (some exampleParams) ["he"]).pushWord "lo").Score = 12 ∧
    (feedWords (some exampleParams) ["he"]).shiftWord.1.Score = 0 ∧
    ((feedWords (some exampleParams) ["he"]).Score
        ≤ ((feedWords (some exampleParams) ["he"]).pushWord "lo").Score ∧
      (feedWords (some exampleParams) ["he"]).shiftWord.1.Score
        ≤ (feedWords (some exampleParams) ["he"]).Score) :=
  ⟨by decide,
    fun p hp e he => by
      rw [feedWords_params] at hp
      obtain rfl := Option.some.inj hp
      revert e
      decide!,
    by decide!, by decide!, by decide!,
    C26_score_monotone (feedWords (some exampleParams) ["he"]) "lo" (by decide)
      (fun p hp e he => by
        rw [feedWords_params] at hp
        obtain rfl := Option.some.inj hp
        revert e
        decide!)⟩

/-! ## What the eviction loop keeps -/

section Eviction

variable {K : Type}

theorem size_eq_sizeOfWords (w : Window K) : w.Size = sizeOfWords w.words := by
  rw [size_eq]
  rfl

/-- With no empty word held except possibly the last, the loop ends within the
limit or with no words. -/
theorem evictLoop_size_or_empty (maxChars : Int) (word : String) (ws : List String) :
    ∀ (fuel : Nat) (w : Window K), w.words = ws ++ [word] → (∀ x ∈ ws, x ≠ "") →
      ws.length + 2 ≤ fuel →
      (Window.evictLoop maxChars fuel w).Size ≤ maxChars ∨
        (Window.evictLoop maxChars fuel w).words = [] := by
  induction ws with
  | nil =>
    intro fuel w hw _ hfuel
    obtain ⟨n, rfl⟩ : ∃ n, fuel = n + 2 := ⟨fuel - 2, by simp at hfuel; omega⟩
    have hwords : w.shiftWord.1.words = [] := by rw [shiftWord_words, hw]; rfl
    rw [Window.evictLoop]
    dsimp only
    split
    · split
      · exact Or.inr hwords
      · rw [Window.evictLoop]
        dsimp only
        split
        · have h2 : w.shiftWord.1.shiftWord.1.words = [] := by
            rw [shiftWord_words, hwords]; rfl
          have h3 : w.shiftWord.1.shiftWord.2 = "" := by
            rw [shiftWord_snd, hwords]; rfl
          rw [if_pos h3]
          exact Or.inr h2
        · exact Or.inr hwords
    · rename_i h
      exact Or.inl (not_lt.1 h)
  | cons x rest ih =>
    intro fuel w hw hne hfuel
    obtain ⟨n, rfl⟩ : ∃ n, fuel = n + 1 := ⟨fuel - 1, by simp at hfuel; omega⟩
    have hwords : w.shiftWord.1.words = rest ++ [word] := by rw [shiftWord_words, hw]; rfl
    have hx : w.shiftWord.2 = x := by rw [shiftWord_snd, hw]; rfl
    have hxne : x ≠ "" := hne x (List.mem_cons_self _ _)
    rw [Window.evictLoop]
    dsimp only
    split
    · rw [hx, if_neg hxne]
      apply ih n _ hwords (fun y hy => hne y (List.mem_cons_of_mem _ hy))
      simp at hfuel ⊢
      omega
    · rename_i h
      exact Or.inl (not_lt.1 h)

/-- `AddWord` on a window whose held words are all non-empty, for any word and
any limit: the window ends within the limit or empty. -/
theorem AddWord_size_or_empty {w : Window K} {p : WindowParams K} (hp : w.params = some p)
    (hne : ∀ x ∈ w.words, x ≠ "") (word : String) :
    (w.AddWord word).Size ≤ p.MaxChars ∨ (w.AddWord word).words = [] := by
  rw [AddWord_some hp]
  apply evictLoop_size_or_empty p.MaxChars word w.words _ _ (words_pushWord w word) hne
  rw [words_pushWord]
  simp

/-- Every suffix of the held words that fits the limit survives the loop: the
loop only removes words from suffixes that are too long. -/
theorem evictLoop_keeps_fitting (maxChars : Int) (fuel : Nat) (w : Window K)
    (s : List String) (hs : s <:+ w.words) (hfit : sizeOfWords s ≤ maxChars) :
    s <:+ (Window.evictLoop maxChars fuel w).words := by
  induction fuel generalizing w with
  | zero => exact hs
  | succ n ih =>
    rw [Window.evictLoop]
    dsimp only
    split
    · rename_i hsz
      have hne : s ≠ w.words := by
        intro e
        rw [size_eq_sizeOfWords, ← e] at hsz
        omega
      have htail : s <:+ w.shiftWord.1.words := by
        rw [shiftWord_words]
        cases hw : w.words with
        | nil =>
          rw [hw] at hs hne
          exact absurd (List.suffix_nil.1 hs) hne
        | cons x rest =>
          rw [hw] at hs hne
          rcases List.suffix_cons_iff.1 hs with h | h
          · exact absurd h hne
          · exact h
      split
      · exact htail
      · exact ih _ htail
    · exact hs

/-- For non-empty words and a non-negative limit, `AddWord` keeps the longest
suffix of the previous words followed by the new word that fits the limit. -/
theorem AddWord_longest_suffix {w : Window K} {p : WindowParams K} (hp : w.params = some p)
    (hmax : 0 ≤ p.MaxChars) (hne : ∀ x ∈ w.words, x ≠ "") {word : String} (hword : word ≠ "") :
    (w.AddWord word).words <:+ w.words ++ [word] ∧
    sizeOfWords (w.AddWord word).words ≤ p.MaxChars ∧
    ∀ s, s <:+ w.words ++ [word] → sizeOfWords s ≤ p.MaxChars → s <:+ (w.AddWord word).words := by
  refine ⟨AddWord_words_suffix hp word, ?_, ?_⟩
  · rw [← size_eq_sizeOfWords]
    exact AddWord_size_le hp hmax hne hword
  · intro s hs hfit
    rw [AddWord_some hp]
    apply evictLoop_keeps_fitting _ _ _ s _ hfit
    rw [words_pushWord]
    exact hs

end Eviction

/-- C24, the code at the failing input. With `MaxChars = 3`, `AddWord ""` leaves
the window holding the empty word; `AddWord "abcdef"` then evicts that empty
word, `shiftWord` returns it as `""`, and the loop stops: the window holds
`abcdef`, of size `6 > 3`, and is not empty. -/
theorem C24_eviction_stops_on_empty_word :
    (feedWords (some tightParams) [""]).words = [""] ∧
    ((feedWords (some tightParams) [""]).AddWord "abcdef").words = ["abcdef"] ∧
    ((feedWords (some tightParams) [""]).AddWord "abcdef").Size = 6 ∧
    ¬ (((feedWords (some tightParams) [""]).AddWord "abcdef").Size ≤ tightParams.MaxChars ∨
        ((feedWords (some tightParams) [""]).AddWord "abcdef").words = []) := by
  decide

/-- C22, the code at the failing input. The window reached by `AddWord ""` with
`MaxChars = 3` holds the empty word; after `AddWord "abcdef"` it holds
`abcdef`, whose size `6` exceeds the limit, while the longest suffix of the
previous words followed by `abcdef` that fits the limit is the empty one. -/
theorem C22_longest_suffix_fails_after_empty_word :
    (feedWords (some tightParams) [""]).words = [""] ∧
    ((feedWords (some tightParams) [""]).AddWord "abcdef").words = ["abcdef"] ∧
    sizeOfWords ["abcdef"] = 6 ∧ sizeOfWords ["", "abcdef"] = 7 ∧ sizeOfWords [] = 0 ∧
    ¬ (sizeOfWords ((feedWords (some tightParams) [""]).AddWord "abcdef").words
        ≤ tightParams.MaxChars) := by
  decide

/-! ## The ranked list holds the largest scores -/

section TopScores

variable {K : Type} [LinearOrderedField K]

theorem findIdx_take_of_lt {α : Type} (f : α → Bool) (L : List α) (k : Nat)
    (h : L.findIdx f < k) : (L.take k).findIdx f = L.findIdx f := by
  induction L generalizing k with
  | nil => simp
  | cons a rest ih =>
    cases k with
    | zero => omega
    | succ k =>
      rw [List.take_succ_cons, List.findIdx_cons, List.findIdx_cons]
      rw [List.findIdx_cons] at h
      cases hfa : f a with
      | true => rfl
      | false =>
        simp only [hfa, cond_false] at h ⊢
        rw [ih k (by omega)]

theorem findIdx_take_of_ge {α : Type} (f : α → Bool) (L : List α) (k : Nat)
    (h : k ≤ L.findIdx f) : (L.take k).findIdx f = (L.take k).length := by
  rw [List.findIdx_eq_length]
  intro x hx
  obtain ⟨i, hi, rfl⟩ := List.getElem_of_mem hx
  rw [List.length_take] at hi
  rw [List.getElem_take]
  exact List.not_of_lt_findIdx (by omega)

theorem take_insert_take {α : Type} (L : List α) (x : α) (p k : Nat) (hp : p ≤ L.length)
    (hpk : p < k) :
    (((L.take k).take p ++ x :: (L.take k).drop p).take k)
      = (L.take p ++ x :: L.drop p).take k := by
  obtain ⟨j, rfl⟩ : ∃ j, k = p + (j + 1) := ⟨k - p - 1, by omega⟩
  have hA : (L.take p).length = p := by simp; omega
  have key : ∀ Y : List α,
      (L.take p ++ x :: Y).take (p + (j + 1)) = L.take p ++ x :: Y.take j := by
    intro Y
    rw [List.take_append_eq_append_take, hA, List.take_of_length_le (by omega)]
    have e : p + (j + 1) - p = j + 1 := by omega
    rw [e, List.take_succ_cons]
  have h1 : (L.take (p + (j + 1))).take p = L.take p := by
    rw [List.take_take, min_eq_left (by omega)]
  have h2 : (L.take (p + (j + 1))).drop p = (L.drop p).take (j + 1) := by
    rw [List.drop_take]
    congr 1
    omega
  rw [h1, h2, key, key, List.take_take, min_eq_left (by omega)]

theorem findIdx_map_score (x : K) (l : List (Passage K)) :
    (l.map Passage.Score).findIdx (fun s => decide (x > s))
      = l.findIdx (fun p => decide (x > p.Score)) := by
  induction l with
  | nil => rfl
  | cons a rest ih =>
    rw [List.map_cons, List.findIdx_cons, List.findIdx_cons, ih]

/-- The closed form of `insertSorted`, read on the scores. -/
theorem scores_insertSorted (l : List (Passage K)) (c : Passage K) (maxResults : Int) :
    (insertSorted l c maxResults).map Passage.Score
      = if (((l.map Passage.Score).findIdx (fun s => decide (c.Score > s)) : Nat) : Int)
            ≥ maxResults then l.map Passage.Score
        else
          (((l.map Passage.Score).take
              ((l.map Passage.Score).findIdx (fun s => decide (c.Score > s)))
            ++ c.Score ::
              (l.map Passage.Score).drop
                ((l.map Passage.Score).findIdx (fun s => decide (c.Score > s)))).take
            maxResults.toNat) := by
  rw [insertSorted_eq, findIdx_map_score]
  split
  · rfl
  · simp [List.map_take, List.map_drop]

/-- Inserting a score after the entries that are at least as large keeps a
non-increasing list non-increasing. -/
theorem sorted_insert_score (L : List K) (x : K) (hs : L.Sorted (fun a b => a ≥ b)) :
    (L.take (L.findIdx (fun s => decide (x > s))) ++ x ::
      L.drop (L.findIdx (fun s => decide (x > s)))).Sorted (fun a b => a ≥ b) := by
  generalize hpos : L.findIdx (fun s => decide (x > s)) = pos
  have hbefore : ∀ s ∈ L.take pos, s ≥ x := by
    intro s hmem
    rw [← hpos] at hmem
    have := findIdx_take_false _ L s hmem
    simpa using this
  have hhead : ∀ s, (L.drop pos).head? = some s → s < x := by
    intro s hmem
    rw [← hpos] at hmem
    have := findIdx_drop_head _ L s hmem
    simpa using this
  have hsplit : (L.take pos ++ L.drop pos).Sorted (fun a b => a ≥ b) := by
    rw [List.take_append_drop]; exact hs
  unfold List.Sorted at hsplit ⊢
  rw [List.pairwise_append] at hsplit ⊢
  obtain ⟨ht, hd, hcross⟩ := hsplit
  have hafter : ∀ s ∈ L.drop pos, x ≥ s := by
    intro s hmem
    cases hdr : L.drop pos with
    | nil => rw [hdr] at hmem; simp at hmem
    | cons h rest =>
      have hh : h < x := hhead h (by rw [hdr]; rfl)
      rw [hdr] at hmem hd
      rcases List.mem_cons.1 hmem with rfl | hmem'
      · exact le_of_lt hh
      · have : h ≥ s := (List.pairwise_cons.1 hd).1 s hmem'
        exact le_trans this (le_of_lt hh)
  refine ⟨ht, List.pairwise_cons.2 ⟨hafter, hd⟩, ?_⟩
  intro a ha b hb
  rcases List.mem_cons.1 hb with rfl | hb'
  · exact hbefore a ha
  · exact hcross a ha b hb'

/-- Sorting one more score is inserting it into the sorted list. -/
theorem insertionSort_snoc (S : List K) (x : K) :
    (S ++ [x]).insertionSort (fun a b => a ≥ b)
      = (S.insertionSort (fun a b => a ≥ b)).take
            ((S.insertionSort (fun a b => a ≥ b)).findIdx (fun s => decide (x > s)))
          ++ x ::
            (S.insertionSort (fun a b => a ≥ b)).drop
              ((S.insertionSort (fun a b => a ≥ b)).findIdx (fun s => decide (x > s))) := by
  apply List.eq_of_perm_of_sorted (r := fun a b : K => a ≥ b)
  · refine (List.perm_insertionSort _ _).trans ?_
    refine List.perm_append_comm.trans ?_
    refine List.Perm.trans ?_ List.perm_middle.symm
    rw [List.take_append_drop]
    exact (List.Perm.cons x (List.perm_insertionSort _ S).symm)
  · exact List.sorted_insertionSort _ _
  · exact sorted_insert_score _ x (List.sorted_insertionSort _ S)

/-- One insertion keeps the list at the `k` largest scores seen. -/
theorem scores_insertSorted_top (l : List (Passage K)) (c : Passage K) (maxResults : Int)
    (hmax : 0 ≤ maxResults) (S : List K)
    (hl : l.map Passage.Score = topScores S maxResults.toNat) :
    (insertSorted l c maxResults).map Passage.Score
      = topScores (S ++ [c.Score]) maxResults.toNat := by
  obtain ⟨k, hk⟩ : ∃ k : Nat, maxResults = (k : Int) := ⟨maxResults.toNat, by omega⟩
  subst hk
  simp only [Int.toNat_ofNat] at hl ⊢
  rw [scores_insertSorted, hl]
  unfold topScores
  rw [insertionSort_snoc]
  generalize S.insertionSort (fun a b => a ≥ b) = L
  simp only [Int.toNat_ofNat]
  have hple : L.findIdx (fun s => decide (c.Score > s)) ≤ L.length := List.findIdx_le_length _
  by_cases hp : L.findIdx (fun s => decide (c.Score > s)) < k
  · rw [findIdx_take_of_lt _ L k hp, if_neg (by omega)]
    exact take_insert_take L c.Score _ k hple hp
  · have hge : k ≤ L.findIdx (fun s => decide (c.Score > s)) := by omega
    rw [findIdx_take_of_ge _ L k hge, List.length_take]
    have hkl : k ≤ L.length := le_trans hge hple
    rw [min_eq_left hkl, if_pos (by omega)]
    rw [List.take_append_eq_append_take, List.take_take, min_eq_left hge]
    have : k - (L.take (L.findIdx (fun s => decide (c.Score > s)))).length = 0 := by
      rw [List.length_take]
      omega
    rw [this]
    simp

theorem insertAll_snoc (results cs : List (Passage K)) (c : Passage K) (maxResults : Int) :
    insertAll results (cs ++ [c]) maxResults
      = insertSorted (insertAll results cs maxResults) c maxResults := by
  simp [insertAll, List.foldl_append]

theorem insertAll_top (cs : List (Passage K)) (maxResults : Int) (hmax : 0 ≤ maxResults) :
    (insertAll [] cs maxResults).map Passage.Score
      = topScores (cs.map Passage.Score) maxResults.toNat := by
  induction cs using List.reverseRecOn with
  | nil => simp [insertAll, topScores]
  | append_singleton cs c ih =>
    rw [insertAll_snoc, List.map_append, List.map_singleton]
    exact scores_insertSorted_top _ c maxResults hmax _ ih

end TopScores

/-- C23. After inserting any finite sequence of `n` candidates one by one with
`insertSorted`, starting from the empty list and with a fixed
`maxResults ≥ 0`, the scores of the resulting list are the `min n maxResults`
largest scores among all candidates, counted with multiplicity, in
non-increasing order: the first `maxResults` entries of the candidates' scores
sorted in non-increasing order. -/
theorem C23_insertAll_keeps_top_scores {K : Type} [LinearOrderedField K]
    (candidates : List (Passage K)) (maxResults : Int) (hmax : 0 ≤ maxResults) :
    (insertAll [] candidates maxResults).map Passage.Score
      = topScores (candidates.map Passage.Score) maxResults.toNat ∧
    (insertAll [] candidates maxResults).length = min candidates.length maxResults.toNat := by
  have h := insertAll_top candidates maxResults hmax
  refine ⟨h, ?_⟩
  have hlen := congrArg List.length h
  simp only [List.length_map, topScores, List.length_take, List.length_insertionSort] at hlen
  rw [hlen, min_comm]

theorem C23_insertAll_keeps_top_scores_witness :
    (0 : Int) ≤ 3 ∧
    (insertAll [] ([3, 1, 4, 1, 5, 9, 2, 6].map examplePassage) 3).map Passage.Score
      = [9, 6, 5] ∧
    topScores ([3, 1, 4, 1, 5, 9, 2, 6] : List ℚ) 3 = [9, 6, 5] ∧
    ((insertAll [] ([3, 1, 4, 1, 5, 9, 2, 6].map examplePassage) 3).map Passage.Score
        = topScores (([3, 1, 4, 1, 5, 9, 2, 6].map examplePassage).map Passage.Score)
            (3 : Int).toNat ∧
      (insertAll [] ([3, 1, 4, 1, 5, 9, 2, 6].map examplePassage) 3).length
        = min ([3, 1, 4, 1, 5, 9, 2, 6].map examplePassage).length (3 : Int).toNat) :=
  ⟨by decide, by decide!, by decide!,
    C23_insertAll_keeps_top_scores ([3, 1, 4, 1, 5, 9, 2, 6].map examplePassage) 3 (by decide)⟩

/-! ## MaybeAddWord -/

section MaybeAdd

variable {K : Type}

theorem Clone_wellFormed (h : Heap) (w : WindowRef K) (hwf : WellFormed h w) :
    WellFormed (w.Clone h).1 (w.Clone h).2 := by
  have hv := Clone_view h w hwf
  obtain ⟨cal, cml, _, _, cw, cb, _⟩ := Clone_memory h w
  have hlen := sliceView_length h w.words hwf.2.1
  have hwords : ((w.Clone h).1.sliceView (w.Clone h).2.words).length = w.words.len := by
    have := congrArg (fun v : Window K => v.words.length) hv
    simpa [WindowRef.view, hlen] using this
  have hmapv : ((w.Clone h).2.view (w.Clone h).1).bigrams = some ((w.view h).bigrams.getD []) := by
    rw [hv]
  refine ⟨by rw [cw, cal]; simp, ?_, ?_⟩
  · rw [cw] at hwords ⊢
    simp only [Heap.sliceView, List.drop_zero, List.length_take] at hwords
    simp only [zero_add]
    omega
  · rw [cb]
    refine ⟨by rw [cml]; simp, ?_⟩
    simp only [WindowRef.view, cb, Option.map_some', Option.some.injEq] at hmapv
    rw [hmapv]
    have hmap := hwf.2.2
    cases hb : w.bigrams with
    | none => simp [WindowRef.view, hb, GoMap.keys]
    | some i =>
      rw [hb] at hmap
      simpa [WindowRef.view, hb] using hmap.2

theorem bigrams_pushWord_some (w : Window K) (word : String) :
    (w.pushWord word).bigrams = some ((w.pushWord word).bigrams.getD []) := by
  unfold Window.pushWord
  dsimp only
  split <;> rfl

theorem pushWord_bigrams_congr (w₁ w₂ : Window K) (word : String)
    (hm : w₁.bigrams.getD [] = w₂.bigrams.getD []) :
    (w₁.pushWord word).bigrams = (w₂.pushWord word).bigrams := by
  rw [bigrams_pushWord_some w₁, bigrams_pushWord_some w₂, bigrams_pushWord, bigrams_pushWord, hm]

theorem sizeOfWords_snoc (ws : List String) (word : String) :
    sizeOfWords (ws ++ [word])
      = sizeOfWords ws + (if ws = [] then 0 else 1) + (word.length : Int) := by
  unfold sizeOfWords
  by_cases h : ws = []
  · subst h
    simp
  · rw [if_neg (by simp), if_neg h, if_neg h]
    simp only [List.map_append, List.sum_append, List.map_cons, List.map_nil, List.sum_cons,
      List.sum_nil, List.length_append, List.length_singleton, Nat.cast_add, Nat.cast_one]
    ring

theorem words_Clone (w : Window K) : w.Clone.words = w.words := rfl

theorem MaybeAddWord_none (w : Window K) (word : String) :
    w.MaybeAddWord word none = (Window.zero, false) := rfl

theorem MaybeAddWord_some (w : Window K) (word : String) (p : WindowParams K) :
    w.MaybeAddWord word (some p)
      = if w.Size + (if w.words = [] then 0 else 1) + (word.length : Int) ≤ p.MaxChars then
          (w.Clone.pushWord word, true)
        else (Window.zero, false) := by
  unfold Window.MaybeAddWord
  dsimp only
  by_cases hw : w.words = []
  · have hl : ¬ w.words.length > 0 := by simp [hw]
    rw [if_neg hl, if_pos hw]
    by_cases hfit : w.Size + 0 + (word.length : Int) ≤ p.MaxChars
    · rw [if_pos hfit, if_neg (by omega)]
    · rw [if_neg hfit, if_pos (by omega)]
  · have hl : w.words.length > 0 := List.length_pos.2 hw
    rw [if_pos hl, if_neg hw]
    by_cases hfit : w.Size + 1 + (word.length : Int) ≤ p.MaxChars
    · rw [if_pos hfit, if_neg (by omega)]
    · rw [if_neg hfit, if_pos (by omega)]

theorem MaybeAddWord_ref_some (grow : Nat → Nat) (h : Heap) (w : WindowRef K) (word : String)
    (p : WindowParams K) (hwf : WellFormed h w) :
    w.MaybeAddWord grow h word (some p)
      = if (w.view h).Size + (if (w.view h).words = [] then 0 else 1) + (word.length : Int)
            ≤ p.MaxChars then
          (((w.Clone h).2.pushWord grow (w.Clone h).1 word).1,
            some ((w.Clone h).2.pushWord grow (w.Clone h).1 word).2)
        else (h, none) := by
  have hlen : (w.view h).words.length = w.words.len := sliceView_length h w.words hwf.2.1
  unfold WindowRef.MaybeAddWord
  dsimp only
  by_cases hw : (w.view h).words = []
  · have hl : ¬ w.words.len > 0 := by
      rw [← hlen, hw]
      simp
    rw [if_neg hl, if_pos hw]
    by_cases hfit : (w.view h).Size + 0 + (word.length : Int) ≤ p.MaxChars
    · rw [if_pos hfit, if_neg (by omega)]
    · rw [if_neg hfit, if_pos (by omega)]
  · have hl : w.words.len > 0 := by
      rw [← hlen]
      exact List.length_pos.2 hw
    rw [if_pos hl, if_neg hw]
    by_cases hfit : (w.view h).Size + 1 + (word.length : Int) ≤ p.MaxChars
    · rw [if_pos hfit, if_neg (by omega)]
    · rw [if_neg hfit, if_pos (by omega)]

/-- In memory, `MaybeAddWord` hands back what the value-level method computes
from the window the receiver shows, and the receiver shows the same window
afterwards. -/
theorem MaybeAddWord_refines (grow : Nat → Nat) (h : Heap) (w : WindowRef K) (word : String)
    (params : Option (WindowParams K)) (hwf : WellFormed h w) :
    maybeResult (w.MaybeAddWord grow h word params) = (w.view h).MaybeAddWord word params ∧
    w.view (w.MaybeAddWord grow h word params).1 = w.view h := by
  cases params with
  | none => exact ⟨rfl, rfl⟩
  | some p =>
    rw [MaybeAddWord_ref_some grow h w word p hwf, MaybeAddWord_some]
    by_cases hfit : (w.view h).Size + (if (w.view h).words = [] then 0 else 1)
        + (word.length : Int) ≤ p.MaxChars
    · rw [if_pos hfit, if_pos hfit]
      have hcwf := Clone_wellFormed h w hwf
      obtain ⟨hkeep, hwc, _⟩ := Clone_apart h w hwf
      have hpush := (pushWord_refines grow (w.Clone h).1 (w.Clone h).2 word hcwf).1
      have hown := ownWrites_pushWord grow (w.Clone h).1 (w.Clone h).2 word
      refine ⟨?_, ?_⟩
      · simp only [maybeResult]
        rw [hpush, Clone_refines h w hwf]
      · rw [(apart_step hown hwc).1, hkeep]
    · rw [if_neg hfit, if_neg hfit]
      exact ⟨rfl, rfl⟩

end MaybeAdd

/-- C21. For a well-formed window in memory, `MaybeAddWord(word, params)`
succeeds exactly when `params` is non-nil and `Size()`, plus one if the window
holds a word, plus the character count of `word` is at most `params.MaxChars`.
On success the returned window holds the old words followed by `word`, its
`Size` is that sum, its bigram map is the one `pushWord(word)` gives on the
receiver, and it keeps the params of the receiver; otherwise the zero window
and `false` are returned. In both cases the receiver shows the same window
(words, bigram map, params) after the call as before. -/
theorem C21_MaybeAddWord_contract {K : Type} (grow : Nat → Nat) (h : Heap) (w : WindowRef K)
    (word : String) (params : Option (WindowParams K)) (hwf : WellFormed h w) :
    ((maybeResult (w.MaybeAddWord grow h word params)).2 = true ↔
      ∃ p, params = some p ∧
        (w.view h).Size + (if (w.view h).words = [] then 0 else 1) + (word.length : Int)
          ≤ p.MaxChars) ∧
    ((maybeResult (w.MaybeAddWord grow h word params)).2 = true →
      (maybeResult (w.MaybeAddWord grow h word params)).1.words = (w.view h).words ++ [word] ∧
      (maybeResult (w.MaybeAddWord grow h word params)).1.Size
        = (w.view h).Size + (if (w.view h).words = [] then 0 else 1) + (word.length : Int) ∧
      (maybeResult (w.MaybeAddWord grow h word params)).1.bigrams
        = ((w.view h).pushWord word).bigrams ∧
      (maybeResult (w.MaybeAddWord grow h word params)).1.params = (w.view h).params) ∧
    ((maybeResult (w.MaybeAddWord grow h word params)).2 = false →
      (maybeResult (w.MaybeAddWord grow h word params)).1 = Window.zero) ∧
    w.view (w.MaybeAddWord grow h word params).1 = w.view h := by
  obtain ⟨href, hkeep⟩ := MaybeAddWord_refines grow h w word params hwf
  rw [href]
  refine ⟨?_, ?_, ?_, hkeep⟩
  · cases params with
    | none => simp [MaybeAddWord_none]
    | some p =>
      rw [MaybeAddWord_some]
      by_cases hfit : (w.view h).Size + (if (w.view h).words = [] then 0 else 1)
          + (word.length : Int) ≤ p.MaxChars
      · rw [if_pos hfit]
        simp [hfit]
      · rw [if_neg hfit]
        simp [hfit]
  · cases params with
    | none => simp [MaybeAddWord_none]
    | some p =>
      rw [MaybeAddWord_some]
      by_cases hfit : (w.view h).Size + (if (w.view h).words = [] then 0 else 1)
          + (word.length : Int) ≤ p.MaxChars
      · rw [if_pos hfit]
        intro _
        have hwords : ((w.view h).Clone.pushWord word).words = (w.view h).words ++ [word] := by
          rw [words_pushWord, words_Clone]
        have hclone : (w.view h).Clone.bigrams.getD [] = (w.view h).bigrams.getD [] := by
          have := Clone_refines h w hwf
          rw [← this, Clone_view h w hwf]
          rfl
        refine ⟨hwords, ?_, pushWord_bigrams_congr _ _ word hclone, ?_⟩
        · rw [size_eq_sizeOfWords, hwords, sizeOfWords_snoc, size_eq_sizeOfWords]
        · rw [params_pushWord]
          rfl
      · rw [if_neg hfit]
        simp
  · cases params with
    | none => simp [MaybeAddWord_none]
    | some p =>
      rw [MaybeAddWord_some]
      by_cases hfit : (w.view h).Size + (if (w.view h).words = [] then 0 else 1)
          + (word.length : Int) ≤ p.MaxChars
      · rw [if_pos hfit]
        simp
      · rw [if_neg hfit]
        simp

theorem C21_MaybeAddWord_contract_witness :
    WellFormed exampleHeap exampleRef ∧
    (((maybeResult (exampleRef.MaybeAddWord (fun n => n) exampleHeap "or"
          (some widerParams))).2 = true ↔
      ∃ p, some widerParams = some p ∧
        (exampleRef.view exampleHeap).Size
            + (if (exampleRef.view exampleHeap).words = [] then 0 else 1)
            + (("or".length : Nat) : Int)
          ≤ p.MaxChars) ∧
    ((maybeResult (exampleRef.MaybeAddWord (fun n => n) exampleHeap "or"
          (some widerParams))).2 = true →
      (maybeResult (exampleRef.MaybeAddWord (fun n => n) exampleHeap "or"
          (some widerParams))).1.words = (exampleRef.view exampleHeap).words ++ ["or"] ∧
      (maybeResult (exampleRef.MaybeAddWord (fun n => n) exampleHeap "or"
          (some widerParams))).1.Size
        = (exampleRef.view exampleHeap).Size
            + (if (exampleRef.view exampleHeap).words = [] then 0 else 1)
            + (("or".length : Nat) : Int) ∧
      (maybeResult (exampleRef.MaybeAddWord (fun n => n) exampleHeap "or"
          (some widerParams))).1.bigrams
        = ((exampleRef.view exampleHeap).pushWord "or").bigrams ∧
      (maybeResult (exampleRef.MaybeAddWord (fun n => n) exampleHeap "or"
          (some widerParams))).1.params = (exampleRef.view exampleHeap).params) ∧
    ((maybeResult (exampleRef.MaybeAddWord (fun n => n) exampleHeap "or"
          (some widerParams))).2 = false →
      (maybeResult (exampleRef.MaybeAddWord (fun n => n) exampleHeap "or"
          (some widerParams))).1 = Window.zero) ∧
    exampleRef.view (exampleRef.MaybeAddWord (fun n => n) exampleHeap "or"
        (some widerParams)).1 = exampleRef.view exampleHeap) ∧
    (exampleRef.view exampleHeap).words = ["to", "be"] ∧
    (exampleRef.view exampleHeap).Size = 5 ∧
    (maybeResult (exampleRef.MaybeAddWord (fun n => n) exampleHeap "or"
        (some widerParams))).2 = true ∧
    (maybeResult (exampleRef.MaybeAddWord (fun n => n) exampleHeap "or"
        (some widerParams))).1.words = ["to", "be", "or"] ∧
    (maybeResult (exampleRef.MaybeAddWord (fun n => n) exampleHeap "or"
        (some widerParams))).1.Size = 8 ∧
    (exampleRef.view (exampleRef.MaybeAddWord (fun n => n) exampleHeap "or"
        (some widerParams)).1).words = ["to", "be"] ∧
    (maybeResult (exampleRef.MaybeAddWord (fun n => n) exampleHeap "or"
        (some exampleParams))).2 = false ∧
    (maybeResult (exampleRef.MaybeAddWord (fun n => n) exampleHeap "or"
        (some exampleParams))).1.words = [] ∧
    (maybeResult (exampleRef.MaybeAddWord (fun n => n) exampleHeap "or"
        (none : Option (WindowParams ℚ)))).2 = false :=
  ⟨⟨by decide, by decide, by decide, by decide⟩,
    C21_MaybeAddWord_contract (fun n => n) exampleHeap exampleRef "or" (some widerParams)
      ⟨by decide, by decide, by decide, by decide⟩,
    by decide, by decide, by decide, by decide, by decide, by decide, by decide, by decide,
    by decide⟩

/-! ## Result aggregation -/

section Aggregation

variable {K : Type} [LinearOrderedField K]

theorem insertSorted_ne_nil (results : List (Passage K)) (p : Passage K) (maxResults : Int)
    (hmax : 0 < maxResults) : (insertSorted results p maxResults).length ≠ 0 := by
  rw [insertSorted_eq]
  split
  · rename_i h
    intro h0
    have hnil : results = [] := List.length_eq_zero.1 h0
    subst hnil
    simp at h
    omega
  · rw [List.length_take, List.length_append, List.length_cons]
    omega

theorem insertSorted_nil_of_nonpos (p : Passage K) (maxResults : Int) (hmax : maxResults ≤ 0) :
    insertSorted [] p maxResults = [] := by
  rw [insertSorted_eq]
  simp [hmax]

theorem aggregatePassage_pos (topN : Int) (htop : 0 < topN)
    (state : List (List (Passage K) × Stats K)) (k : Nat) (p : Passage K)
    (hk : k < state.length) :
    aggregatePassage topN state (k, p)
      = some (state.set k (insertSorted state[k].1 p topN, state[k].2.Update p.Score)) := by
  unfold aggregatePassage
  simp only [List.getElem?_eq_getElem hk]
  rw [if_neg (insertSorted_ne_nil _ p topN htop)]

theorem aggregate_enumFrom (topN : Int) (htop : 0 < topN) (passages : List (Passage K)) :
    ∀ (k : Nat) (state : List (List (Passage K) × Stats K)),
      k + passages.length ≤ state.length →
      ∃ st,
        (passages.enumFrom k).foldlM (aggregatePassage topN) state = some st ∧
        st.length = state.length ∧
        ∀ i, st[i]? = if k ≤ i ∧ i < k + passages.length then
            (state[i]?).map (fun acc =>
              (insertSorted acc.1 (passageAt passages (i - k)) topN,
                acc.2.Update (passageAt passages (i - k)).Score))
          else state[i]? := by
  induction passages with
  | nil =>
    intro k state _
    refine ⟨state, rfl, rfl, fun i => ?_⟩
    have hno : ¬ (k ≤ i ∧ i < k + ([] : List (Passage K)).length) := by
      simp only [List.length_nil]
      omega
    rw [if_neg hno]
  | cons p rest ih =>
    intro k state hlen
    simp only [List.length_cons] at hlen
    have hk : k < state.length := by omega
    obtain ⟨st, hst, hstlen, hsti⟩ := ih (k + 1)
      (state.set k (insertSorted state[k].1 p topN, state[k].2.Update p.Score))
      (by rw [List.length_set]; omega)
    refine ⟨st, ?_, by rw [hstlen, List.length_set], fun i => ?_⟩
    · rw [List.enumFrom_cons, List.foldlM_cons, aggregatePassage_pos topN htop state k p hk]
      exact hst
    · rw [hsti i]
      simp only [List.length_cons]
      by_cases h1 : k + 1 ≤ i
      · have hne : k ≠ i := by omega
        have hsub : i - k = (i - (k + 1)) + 1 := by omega
        by_cases h2 : i < k + 1 + rest.length
        · rw [if_pos ⟨h1, h2⟩, if_pos ⟨by omega, by omega⟩, List.getElem?_set_ne hne, hsub]
          simp [passageAt]
        · rw [if_neg (fun h => h2 h.2), if_neg (fun h => h2 (by omega)),
            List.getElem?_set_ne hne]
      · rw [if_neg (fun h => h1 h.1)]
        by_cases h3 : i = k
        · subst h3
          rw [if_pos ⟨le_refl _, by omega⟩, List.getElem?_set_self hk,
            List.getElem?_eq_getElem hk]
          simp [passageAt]
        · rw [if_neg (fun h => h3 (by omega)), List.getElem?_set_ne (fun h => h3 h.symm)]

theorem aggregateFile_apply (topN : Int) (htop : 0 < topN)
    (state : List (List (Passage K) × Stats K)) (passages : List (Passage K))
    (hlen : passages.length = state.length) :
    ∃ st, aggregateFile topN state passages = some st ∧ st.length = state.length ∧
      ∀ i acc, state[i]? = some acc →
        st[i]? = some (insertSorted acc.1 (passageAt passages i) topN,
          acc.2.Update (passageAt passages i).Score) := by
  obtain ⟨st, hst, hstlen, hsti⟩ := aggregate_enumFrom topN htop passages 0 state (by omega)
  refine ⟨st, hst, hstlen, fun i acc hacc => ?_⟩
  have hi : i < state.length := by
    by_contra hge
    rw [List.getElem?_eq_none (by omega)] at hacc
    exact Option.noConfusion hacc
  rw [hsti i, if_pos ⟨Nat.zero_le _, by omega⟩, hacc]
  simp

theorem aggregate_fold (topN : Int) (htop : 0 < topN) (results : List (List (Passage K))) :
    ∀ state : List (List (Passage K) × Stats K),
      (∀ r ∈ results, r.length = state.length) →
      ∃ st, results.foldlM (aggregateFile topN) state = some st ∧ st.length = state.length ∧
        ∀ i acc, state[i]? = some acc →
          st[i]? = some (insertAll acc.1 (results.map (fun r => passageAt r i)) topN,
            (results.map (fun r => (passageAt r i).Score)).foldl Stats.Update acc.2) := by
  induction results with
  | nil =>
    intro state _
    exact ⟨state, rfl, rfl, fun i acc hacc => by simpa [insertAll] using hacc⟩
  | cons r rest ih =>
    intro state hlen
    obtain ⟨st1, hst1, hlen1, hget1⟩ :=
      aggregateFile_apply topN htop state r (hlen r (List.mem_cons_self _ _))
    obtain ⟨st, hst, hstlen, hget⟩ := ih st1 (fun x hx => by
      rw [hlen1]
      exact hlen x (List.mem_cons_of_mem _ hx))
    refine ⟨st, ?_, by rw [hstlen, hlen1], fun i acc hacc => ?_⟩
    · rw [List.foldlM_cons, hst1]
      exact hst
    · rw [hget i _ (hget1 i acc hacc)]
      simp [insertAll]

/-- With `TopN ≤ 0` the aggregation panics as soon as there is a configuration
and a scanned file: on a negative `TopN` in `make`, on `TopN = 0` at the read of
entry `0` of the list kept for the first passage, which is empty. -/
theorem aggregate_panics (topN maxCap : Int) (htop : topN ≤ 0)
    (paramsList : List (Option (WindowParams K))) (hp : paramsList ≠ [])
    (results : List (List (Passage K))) (hr : results ≠ [])
    (hlen : ∀ r ∈ results, r.length = paramsList.length) :
    aggregate topN maxCap paramsList results = none := by
  unfold aggregate
  have hpos : 0 < paramsList.length := List.length_pos.2 hp
  by_cases hneg : topN < 0 ∨ maxCap < topN
  · rw [if_pos ⟨hpos, hneg⟩]
  · rw [if_neg (fun h => hneg h.2)]
    cases results with
    | nil => exact absurd rfl hr
    | cons r rest =>
      have hrlen : r.length = paramsList.length := hlen r (List.mem_cons_self _ _)
      cases r with
      | nil => simp at hrlen; omega
      | cons p ps =>
        cases paramsList with
        | nil => exact absurd rfl hp
        | cons q qs =>
          have hfile : aggregateFile topN
              ((q :: qs).map (fun _ => (([] : List (Passage K)), (NewStats : Stats K))))
              (p :: ps) = none := by
            unfold aggregateFile List.enum
            rw [List.enumFrom_cons, List.foldlM_cons]
            simp [aggregatePassage, insertSorted_nil_of_nonpos p topN htop]
          rw [List.foldlM_cons, hfile]
          rfl

end Aggregation

/-- C25 (amended). With `TopN > 0`, and not above the capacity `make` grants,
the aggregation of `main` runs through, in
whatever order the scan results arrive, and the `Stats` of configuration `i`
ends as `NewStats()` updated once per scanned file, in that order, with the
score of the file's best passage for configuration `i`; the kept list is what
`insertSorted` builds from those passages, and `FilesProcessed` is the number
of scanned files. No file is left out: one whose best window is empty is
recorded with its score `0`. -/
theorem C25_stats_updated_for_every_file {K : Type} [LinearOrderedField K]
    (topN maxCap : Int) (orders : String × List String → ScanOrders)
    (files : List (String × List String)) (paramsList : List (Option (WindowParams K)))
    (i : Nat) (htop : 0 < topN) (hcap : topN ≤ maxCap) (hi : i < paramsList.length) :
    ∃ state,
      aggregate topN maxCap paramsList
          (files.map (fun f => FindBestPassagesInFile (orders f) f.1 f.2 paramsList))
        = some state ∧
      state.length = paramsList.length ∧
      state[i]? = some
        (insertAll []
            (files.map
              (fun f => passageAt (FindBestPassagesInFile (orders f) f.1 f.2 paramsList) i))
            topN,
          updateAll
            (files.map
              (fun f =>
                (passageAt (FindBestPassagesInFile (orders f) f.1 f.2 paramsList) i).Score))) ∧
      (updateAll
          (files.map
            (fun f =>
              (passageAt (FindBestPassagesInFile (orders f) f.1 f.2 paramsList) i).Score))
        ).FilesProcessed = (files.length : Int) := by
  obtain ⟨st, hst, hstlen, hget⟩ := aggregate_fold topN htop
    (files.map (fun f => FindBestPassagesInFile (orders f) f.1 f.2 paramsList))
    (paramsList.map (fun _ => (([] : List (Passage K)), (NewStats : Stats K))))
    (by
      intro r hr
      obtain ⟨f, _, rfl⟩ := List.mem_map.1 hr
      rw [length_FindBestPassagesInFile, List.length_map])
  have h0 := hget i ([], NewStats) (by simp [hi])
  simp only [List.map_map, Function.comp_def] at h0
  refine ⟨st, ?_, by rw [hstlen, List.length_map], h0, ?_⟩
  · unfold aggregate
    rw [if_neg (fun h => by omega)]
    exact hst
  · simpa using (updateAll_invariant
      (files.map
        (fun f =>
          (passageAt (FindBestPassagesInFile (orders f) f.1 f.2 paramsList) i).Score))).1

theorem C25_stats_updated_for_every_file_witness :
    (0 : Int) < 3 ∧ (3 : Int) ≤ 1000 ∧
    0 < ([some exampleParams] : List (Option (WindowParams ℚ))).length ∧
    (∃ state,
      aggregate 3 1000 [some exampleParams]
          (exampleFiles.map
            (fun f => FindBestPassagesInFile listOrders f.1 f.2 [some exampleParams]))
        = some state ∧
      state.length = ([some exampleParams] : List (Option (WindowParams ℚ))).length ∧
      state[0]? = some
        (insertAll []
            (exampleFiles.map
              (fun f =>
                passageAt (FindBestPassagesInFile listOrders f.1 f.2 [some exampleParams]) 0))
            3,
          updateAll
            (exampleFiles.map
              (fun f =>
                (passageAt (FindBestPassagesInFile listOrders f.1 f.2 [some exampleParams])
                  0).Score))) ∧
      (updateAll
          (exampleFiles.map
            (fun f =>
              (passageAt (FindBestPassagesInFile listOrders f.1 f.2 [some exampleParams])
                0).Score))
        ).FilesProcessed = (exampleFiles.length : Int)) ∧
    exampleFiles.map
        (fun f =>
          (passageAt (FindBestPassagesInFile listOrders f.1 f.2 [some exampleParams]) 0).Score)
      = [20, 0] ∧
    (aggregate 0 1000 [some exampleParams]
        (exampleFiles.map
          (fun f => FindBestPassagesInFile listOrders f.1 f.2 [some exampleParams]))).isNone
      = true :=
  ⟨by decide, by decide, by decide,
    C25_stats_updated_for_every_file 3 1000 (fun _ => listOrders) exampleFiles
      [some exampleParams] 0 (by decide) (by decide) (by decide),
    by decide!, by decide!⟩

/-- C25 (counterexample). The file `empty.txt` has no words, so its best window
for the one configuration is the empty window; `main` still records it: after
`sonnet.txt` (best score `20`) and `empty.txt` the stats count two files, with
minimum `0`, maximum `20` and mean `10`. -/
theorem C25_empty_best_window_is_recorded :
    (passageAt
        (FindBestPassagesInFile listOrders "empty.txt" (scanWords "") [some exampleParams])
        0).Window.words = [] ∧
    (passageAt
        (FindBestPassagesInFile listOrders "empty.txt" (scanWords "") [some exampleParams])
        0).Window.bigrams = some [] ∧
    (aggregate 3 1000 [some exampleParams]
        (exampleFiles.map
          (fun f => FindBestPassagesInFile listOrders f.1 f.2 [some exampleParams]))).map
      (fun state => state.map
        (fun acc => (acc.2.FilesProcessed, acc.2.MinScore, acc.2.MaxScore, acc.2.Mean)))
      = some [(2, 0, 20, 10)] := by
  refine ⟨by decide, by decide, by decide!⟩

end Penkata
